import Mathlib

/-!
# prog3.cpp: a single-pass recursive-descent interpreter

Shallow embedding of `src/Assignment4/prog3.cpp`.

* `int` is modelled by `Int`; the results of `+`, `-`, `*` and of the digit
  accumulation are reduced to 32 bits by `wrap32`.  A division without an
  `int` quotient and a `pow` result that does not fit an `int` end the run
  with `Halt.undefined`.
* `progStr` is a `List Char`, one `Char` for each `char` of the string, and
  `indexx` a `Nat`.  `progStr[indexx]` is the character under the cursor, the
  terminator `\0` when `indexx = length`, and has no defined value beyond
  that.  `progStr.substr(indexx, n)` throws `std::out_of_range` when
  `indexx > length`.
* `exit(1)`, the thrown `runtime_error`, the uncaught `out_of_range` and the
  operations without a defined result end the run: every procedure returns an
  `Outcome`, which is either `ok value state` or `halt reason state`; the
  state kept in a `halt` holds what had been written to `cout` until then.
* `cout` is the list of the lines written, each value line the decimal of
  the `int` printed.
* The mutually recursive expression procedures and the `while` loops over
  statements and declarations take a `fuel : Nat` argument that decreases by
  one at every call; `run` starts with `budget`.
-/

set_option autoImplicit false

namespace Prog3

/-! ## Machine integers -/

def INT_MIN : Int := -2147483648

def INT_MAX : Int := 2147483647

/-- Reduction of an integer to the 32-bit two's-complement range of `int`. -/
def wrap32 (v : Int) : Int := (v + 2147483648) % 4294967296 - 2147483648

/-- Conversion of `pow(base, exponent)` (computed on `double`) back to `int`.
`pow` is taken to be exact whenever the mathematical result fits an `int`;
a result outside the range of `int` (including the infinity of `pow(0, negative)`) has
no defined conversion and is `none`.  A negative exponent gives a quotient of
magnitude below one unless the base is `1` or `-1`, and the conversion
truncates it to `0`. -/
def pow (base exponent : Int) : Option Int :=
  if 0 ≤ exponent then
    let r := base ^ exponent.toNat
    if INT_MIN ≤ r ∧ r ≤ INT_MAX then some r else none
  else if base = 0 then none
  else if base = 1 then some 1
  else if base = -1 then (if exponent % 2 = 0 then some 1 else some (-1))
  else some 0

/-- The `int` division `a / b`, truncating toward zero; `none` when the
quotient is not defined (`b = 0`, or `INT_MIN / -1`). -/
def idiv (a b : Int) : Option Int :=
  if b = 0 then none
  else if a = INT_MIN ∧ b = -1 then none
  else some (Int.tdiv a b)

/-! ## Character classes of `<cctype>` in the "C" locale -/

def isspace (c : Char) : Bool := c = ' ' || (9 ≤ c.toNat && c.toNat ≤ 13)

def isdigit (c : Char) : Bool := c.isDigit

def isalpha (c : Char) : Bool := c.isAlpha

def isalnum (c : Char) : Bool := c.isAlphanum

/-! ## Symbol table -/

structure Node where
  id : String
  type : String
  val : Int
deriving DecidableEq, Repr

structure SymbolTable where
  table : List Node
deriving DecidableEq, Repr

namespace SymbolTable

/-- The `what()` of the `runtime_error` thrown by `getValue` and `setValue`. -/
def undeclared (id : String) : String :=
  "Semantic error: Undeclared variable \x27" ++ id ++ "\x27"

def addVariable (self : SymbolTable) (id type : String) : SymbolTable :=
  ⟨self.table ++ [{ id := id, type := type, val := 0 }]⟩

/-- The range-for of `getValue` over the remaining nodes. -/
def getValueFrom : List Node → String → Except String Int
  | [], id => .error (undeclared id)
  | node :: rest, id => if node.id = id then .ok node.val else getValueFrom rest id

def getValue (self : SymbolTable) (id : String) : Except String Int :=
  getValueFrom self.table id

/-- The range-for of `setValue` over the remaining nodes: the nodes as the loop leaves them,
and whether the call returned (`ok`) or threw (`error`). -/
def setValueFrom : List Node → String → Int → List Node × Except String Unit
  | [], id, _ => ([], .error (undeclared id))
  | node :: rest, id, value =>
    if node.id = id then ({ node with val := value } :: rest, .ok ())
    else
      let r := setValueFrom rest id value
      (node :: r.1, r.2)

/-- The member `setValue`: the table after the call, and whether it returned or threw. -/
def setValue (self : SymbolTable) (id : String) (value : Int) :
    SymbolTable × Except String Unit :=
  let r := setValueFrom self.table id value
  (⟨r.1⟩, r.2)

end SymbolTable

/-! ## Interpreter state and outcomes -/

structure Interpreter where
  progStr : List Char
  indexx : Nat
  symbolTable : SymbolTable
  /-- The lines written to `cout` so far, oldest first. -/
  cout : List String
deriving DecidableEq, Repr

/-- Operations of the source that have no defined result. -/
inductive Undefined where
  /-- Reading `progStr[indexx]` with `indexx > progStr.length()` -/
  | index
  /-- Dividing in `result /= Power()` by zero, or `INT_MIN` by `-1` -/
  | division
  /-- Converting a `pow` result that does not fit an `int` -/
  | narrowing
deriving DecidableEq, Repr

/-- Why a run stopped before `prog` returned. -/
inductive Halt where
  /-- The statements `cerr << diagnostic << endl; exit(1);` -/
  | exit (diagnostic : String)
  /-- The exception of `throw runtime_error(what)`, caught in `main` -/
  | runtime_error (what : String)
  /-- The exception `std::out_of_range` thrown by `substr`, caught nowhere -/
  | out_of_range
  | undefined (u : Undefined)
  /-- The recursion budget of the embedding is used up. -/
  | fuel
deriving DecidableEq, Repr

inductive Outcome (α : Type) where
  | ok (value : α) (self : Interpreter)
  | halt (why : Halt) (self : Interpreter)
deriving DecidableEq, Repr

namespace Outcome

/-- The interpreter state at the end, however the run ended. -/
def state {α : Type} : Outcome α → Interpreter
  | ok _ self => self
  | halt _ self => self

def isOk {α : Type} : Outcome α → Bool
  | ok _ _ => true
  | halt _ _ => false

end Outcome

/-! ## Cursor -/

/-- Value of `progStr.substr(indexx, n)`; `none` when it throws `std::out_of_range`. -/
def substr (self : Interpreter) (n : Nat) : Option (List Char) :=
  if self.indexx ≤ self.progStr.length then
    some ((self.progStr.drop self.indexx).take n)
  else none

/-- Value of `progStr[indexx]`: the character under the cursor, the terminator at the end of
the text, `none` (not defined) beyond it. -/
def peek (self : Interpreter) : Option Char :=
  match self.progStr.drop self.indexx with
  | c :: _ => some c
  | [] => if self.indexx = self.progStr.length then some (Char.ofNat 0) else none

/-- The interpreter with `indexx += n`. -/
def advance (self : Interpreter) (n : Nat) : Interpreter :=
  { self with indexx := self.indexx + n }

/-! ## Grammar procedures -/

/-- The loop `while (isalnum(progStr[indexx])) result += progStr[indexx++];` of `id`, run over
the characters from the cursor on (the terminator ends it at the end of the text). -/
def id_loop : List Char → String → Nat → String × Nat
  | [], result, indexx => (result, indexx)
  | c :: rest, result, indexx =>
    if isalnum c then id_loop rest (result.push c) (indexx + 1) else (result, indexx)

def id (self : Interpreter) : Outcome String :=
  match peek self with
  | none => .halt (.undefined .index) self
  | some c =>
    if isalpha c then
      let r := id_loop (self.progStr.drop self.indexx) "" self.indexx
      .ok r.1 { self with indexx := r.2 }
    else .halt (.exit "Error: identifier expected.") self

/-- The loop `while (isdigit(progStr[indexx])) value = value * 10 + (progStr[indexx++] - '0');`
of `Fact`, run over the characters from the cursor on. -/
def digit_loop : List Char → Int → Nat → Int × Nat
  | [], value, indexx => (value, indexx)
  | c :: rest, value, indexx =>
    if isdigit c then
      digit_loop rest (wrap32 (value * 10 + ((c.toNat : Int) - 48))) (indexx + 1)
    else (value, indexx)

mutual

def Exp : Nat → Interpreter → Outcome Int
  | 0, self => .halt .fuel self
  | fuel + 1, self =>
    match Term fuel self with
    | .halt why self => .halt why self
    | .ok t self => Exp2 fuel t self

def Term : Nat → Interpreter → Outcome Int
  | 0, self => .halt .fuel self
  | fuel + 1, self =>
    match Power fuel self with
    | .halt why self => .halt why self
    | .ok p self => Term2 fuel p self

/-- The procedure `Exp2(inp)`: `result` is the accumulator of the `while` loop, one call per iteration. -/
def Exp2 : Nat → Int → Interpreter → Outcome Int
  | 0, _, self => .halt .fuel self
  | fuel + 1, result, self =>
    if self.indexx < self.progStr.length then
      match peek self with
      | none => .halt (.undefined .index) self
      | some a =>
        if a = '+' then
          match Term fuel (advance self 1) with
          | .halt why self => .halt why self
          | .ok t self => Exp2 fuel (wrap32 (result + t)) self
        else if a = '-' then
          match Term fuel (advance self 1) with
          | .halt why self => .halt why self
          | .ok t self => Exp2 fuel (wrap32 (result - t)) self
        else .ok result self
    else .ok result self

/-- The procedure `Term2(inp)`: `result` is the accumulator of the `while` loop, one call per iteration. -/
def Term2 : Nat → Int → Interpreter → Outcome Int
  | 0, _, self => .halt .fuel self
  | fuel + 1, result, self =>
    if self.indexx < self.progStr.length then
      match peek self with
      | none => .halt (.undefined .index) self
      | some a =>
        if a = '*' then
          match Power fuel (advance self 1) with
          | .halt why self => .halt why self
          | .ok p self => Term2 fuel (wrap32 (result * p)) self
        else if a = '/' then
          match Power fuel (advance self 1) with
          | .halt why self => .halt why self
          | .ok p self =>
            match idiv result p with
            | none => .halt (.undefined .division) self
            | some q => Term2 fuel q self
        else .ok result self
    else .ok result self

def Power : Nat → Interpreter → Outcome Int
  | 0, self => .halt .fuel self
  | fuel + 1, self =>
    match Fact fuel self with
    | .halt why self => .halt why self
    | .ok result self => Power_loop fuel result self

/-- The `while` loop of `Power`, one call per test of its condition. -/
def Power_loop : Nat → Int → Interpreter → Outcome Int
  | 0, _, self => .halt .fuel self
  | fuel + 1, result, self =>
    if self.indexx < self.progStr.length ∧ peek self = some '^' then
      match Power fuel (advance self 1) with
      | .halt why self => .halt why self
      | .ok e self =>
        match pow result e with
        | none => .halt (.undefined .narrowing) self
        | some r => Power_loop fuel r self
    else .ok result self

def Fact : Nat → Interpreter → Outcome Int
  | 0, self => .halt .fuel self
  | fuel + 1, self =>
    match peek self with
    | none => .halt (.undefined .index) self
    | some c =>
      if c = '(' then
        match Exp fuel (advance self 1) with
        | .halt why self => .halt why self
        | .ok value self => .ok value (advance self 1)
      else if isdigit c then
        let r := digit_loop (self.progStr.drop self.indexx) 0 self.indexx
        .ok r.1 { self with indexx := r.2 }
      else if isalpha c then
        match id self with
        | .halt why self => .halt why self
        | .ok varName self =>
          match self.symbolTable.getValue varName with
          | .error what => .halt (.runtime_error what) self
          | .ok value => .ok value self
      else .halt (.exit "Error: unexpected character in expression.") self

end

def print_st (fuel : Nat) (self : Interpreter) : Outcome Unit :=
  match Exp fuel (advance self 5) with
  | .halt why self => .halt why self
  | .ok value self =>
    let self := { self with cout := self.cout ++ [toString value] }
    match peek self with
    | none => .halt (.undefined .index) self
    | some c =>
      if c = ';' then .ok () (advance self 1)
      else .halt (.exit "Error: \x27;\x27 expected after print statement.") self

def assign_st (fuel : Nat) (self : Interpreter) : Outcome Unit :=
  match id self with
  | .halt why self => .halt why self
  | .ok varName self =>
    match peek self with
    | none => .halt (.undefined .index) self
    | some c =>
      if c = '=' then
        match Exp fuel (advance self 1) with
        | .halt why self => .halt why self
        | .ok value self =>
          match self.symbolTable.setValue varName value with
          | (table, .error what) => .halt (.runtime_error what) { self with symbolTable := table }
          | (table, .ok _) =>
            let self := { self with symbolTable := table }
            match peek self with
            | none => .halt (.undefined .index) self
            | some c =>
              if c = ';' then .ok () (advance self 1)
              else .halt (.exit "Error: \x27;\x27 expected after assignment.") self
      else .halt (.exit "Error: \x27=\x27 expected in assignment statement.") self

def statement (fuel : Nat) (self : Interpreter) : Outcome Unit :=
  match substr self 5 with
  | none => .halt .out_of_range self
  | some w => if w = "print".toList then print_st fuel self else assign_st fuel self

/-- The `while` loop of `statements`, one call per test of its condition. -/
def statements : Nat → Interpreter → Outcome Unit
  | 0, self => .halt .fuel self
  | fuel + 1, self =>
    match substr self 3 with
    | none => .halt .out_of_range self
    | some w =>
      if w ≠ "end".toList then
        match statement fuel self with
        | .halt why self => .halt why self
        | .ok _ self => statements fuel self
      else .ok () self

def type (self : Interpreter) : Outcome String :=
  match substr self 3 with
  | none => .halt .out_of_range self
  | some w =>
    if w = "int".toList then .ok "int" (advance self 3)
    else match substr self 6 with
      | none => .halt .out_of_range self
      | some w =>
        if w = "double".toList then .ok "double" (advance self 6)
        else .halt (.exit "Error: type expected (int or double).") self

/-- The `while (true)` loop of `id_list`, one call per iteration. -/
def id_list : Nat → String → Interpreter → Outcome Unit
  | 0, _, self => .halt .fuel self
  | fuel + 1, varType, self =>
    match id self with
    | .halt why self => .halt why self
    | .ok varName self =>
      let self := { self with symbolTable := self.symbolTable.addVariable varName varType }
      match peek self with
      | none => .halt (.undefined .index) self
      | some c => if c = ',' then id_list fuel varType (advance self 1) else .ok () self

def declaration (fuel : Nat) (self : Interpreter) : Outcome Unit :=
  match type self with
  | .halt why self => .halt why self
  | .ok varType self =>
    match id_list fuel varType self with
    | .halt why self => .halt why self
    | .ok _ self =>
      match peek self with
      | none => .halt (.undefined .index) self
      | some c =>
        if c = ';' then .ok () (advance self 1)
        else .halt (.exit "Error: \x27;\x27 expected after declaration.") self

/-- The `while` loop of `declarations`, one call per test of its condition. -/
def declarations : Nat → Interpreter → Outcome Unit
  | 0, self => .halt .fuel self
  | fuel + 1, self =>
    if self.indexx < self.progStr.length then
      match substr self 3, substr self 6 with
      | some w3, some w6 =>
        if w3 = "int".toList ∨ w6 = "double".toList then
          match declaration fuel self with
          | .halt why self => .halt why self
          | .ok _ self => declarations fuel self
        else .ok () self
      | _, _ => .halt .out_of_range self
    else .ok () self

/-- The line written to `cout` once the final `end` is consumed. -/
def confirmation : String := "\x27end\x27 found, program executed successfully."

def prog (fuel : Nat) (self : Interpreter) : Outcome Unit :=
  match substr self 7 with
  | none => .halt .out_of_range self
  | some w =>
    if w = "program".toList then
      match declarations fuel (advance self 7) with
      | .halt why self => .halt why self
      | .ok _ self =>
        match substr self 5 with
        | none => .halt .out_of_range self
        | some w =>
          if w = "begin".toList then
            match statements fuel (advance self 5) with
            | .halt why self => .halt why self
            | .ok _ self =>
              match substr self 3 with
              | none => .halt .out_of_range self
              | some w =>
                if w = "end".toList then
                  .ok () { advance self 3 with cout := self.cout ++ [confirmation] }
                else .halt (.exit "Error: \x27end\x27 expected.") self
          else .halt (.exit "Error: \x27begin\x27 expected.") self
    else .halt (.exit "Error: \x27program\x27 expected at start.") self

/-- The procedure `removeSpaces`: the text without the characters for which `isspace` holds. -/
def removeSpaces (progStr : List Char) : List Char :=
  progStr.filter (fun c => !isspace c)

/-- The interpreter as constructed from the content of the input file. -/
def Interpreter.new (fileContent : String) : Interpreter :=
  { progStr := removeSpaces fileContent.toList, indexx := 0, symbolTable := ⟨[]⟩, cout := [] }

/-- The fuel that `run` starts with on a text. -/
def budget (progStr : List Char) : Nat := 6 * progStr.length + 16

/-- The call of `parse` on the interpreter built from the file content: the run of `main` up to its
`return`. -/
def run (fileContent : String) : Outcome Unit :=
  let self := Interpreter.new fileContent
  prog (budget self.progStr) self

/-- The exit status of `main`. -/
def main (fileContent : String) : Nat :=
  match run fileContent with
  | .ok _ _ => 0
  | .halt _ _ => 1

/-! ## Vocabulary of the specification -/

/-- An operation that a later declaration or assignment applies to the symbol table. -/
inductive TableOp where
  | addVariable (id type : String)
  | setValue (id : String) (value : Int)

/-- The table after the operation (a `setValue` that throws included). -/
def TableOp.apply (t : SymbolTable) : TableOp → SymbolTable
  | .addVariable id type => t.addVariable id type
  | .setValue id value => (t.setValue id value).1

/-- Position of the first entry named `n`, in declaration order (the length when there is
none). -/
def firstIndex (t : SymbolTable) (n : String) : Nat :=
  t.table.findIdx (fun node => decide (node.id = n))

/-- The decimal numeral of `n`, as it is written in a program text. -/
def literal (n : Nat) : List Char := Nat.toDigits 10 n

/-- Value of a digit sequence read after the value `v`. -/
def decimal : List Char → Nat → Nat
  | [], v => v
  | c :: rest, v => decimal rest (v * 10 + (c.toNat - 48))

/-- The text from the cursor on is `rest`, and the cursor is inside the text or at its end. -/
def At (self : Interpreter) (rest : List Char) : Prop :=
  self.indexx ≤ self.progStr.length ∧ self.progStr.drop self.indexx = rest

/-- The operators of the `Exp2` loop. -/
inductive AddOp where
  | plus
  | minus
deriving DecidableEq, Repr

def AddOp.char : AddOp → Char
  | .plus => '+'
  | .minus => '-'

/-- The mathematical result of the operator, before any reduction to 32 bits. -/
def AddOp.apply : AddOp → Int → Int → Int
  | .plus, a, b => a + b
  | .minus, a, b => a - b

/-- The operators of the `Term2` loop. -/
inductive MulOp where
  | times
  | divide
deriving DecidableEq, Repr

def MulOp.char : MulOp → Char
  | .times => '*'
  | .divide => '/'

/-- The mathematical result of the operator; the quotient is rounded toward zero. -/
def MulOp.apply : MulOp → Int → Int → Int
  | .times, a, b => a * b
  | .divide, a, b => Int.tdiv a b

/-- The text `op1 n1 ... opk nk` of a chain of additive operators and literals. -/
def addChain : List (AddOp × Nat) → List Char
  | [] => []
  | (op, n) :: rest => op.char :: (literal n ++ addChain rest)

/-- The text `op1 n1 ... opk nk` of a chain of multiplicative operators and literals. -/
def mulChain : List (MulOp × Nat) → List Char
  | [] => []
  | (op, n) :: rest => op.char :: (literal n ++ mulChain rest)

/-- The left-to-right fold `((n0 op1 n1) op2 n2) ... opk nk`. -/
def addFold (n0 : Int) (ops : List (AddOp × Nat)) : Int :=
  ops.foldl (fun acc p => p.1.apply acc (p.2 : Int)) n0

/-- The left-to-right fold `((n0 op1 n1) op2 n2) ... opk nk`. -/
def mulFold (n0 : Int) (ops : List (MulOp × Nat)) : Int :=
  ops.foldl (fun acc p => p.1.apply acc (p.2 : Int)) n0

/-- The value is in the range of a signed 32-bit `int`. -/
def InRange (v : Int) : Prop := INT_MIN ≤ v ∧ v ≤ INT_MAX

instance (v : Int) : Decidable (InRange v) := by
  unfold InRange
  infer_instance

/-- The second state has the text, the symbol table and the output of the first. -/
def Same (a b : Interpreter) : Prop :=
  b.progStr = a.progStr ∧ b.symbolTable = a.symbolTable ∧ b.cout = a.cout

/-- The message `w` is the undeclared-variable error for a name that has no entry in `t`. -/
def NamesUndeclared (t : SymbolTable) (w : String) : Prop :=
  ∃ x, w = SymbolTable.undeclared x ∧ ∀ node ∈ t.table, node.id ≠ x

/-- What evaluating an expression from `self` may do: move the cursor, and throw only the
undeclared-variable error, for a name that has no entry. -/
def ExpInv (self : Interpreter) (o : Outcome Int) : Prop :=
  Same self o.state ∧ ∀ w s, o = .halt (.runtime_error w) s → NamesUndeclared self.symbolTable w

/-- The run did not stop for lack of fuel. -/
def NotFuel {α : Type} : Outcome α → Prop
  | .halt .fuel _ => False
  | _ => True

/-- A procedure that returns has consumed at least one character of the text. -/
def Advances {α : Type} (self : Interpreter) (o : Outcome α) : Prop :=
  ∀ v s, o = .ok v s → self.indexx < self.progStr.length ∧ self.indexx < s.indexx

/-- A procedure that returns has not moved the cursor back. -/
def Keeps {α : Type} (self : Interpreter) (o : Outcome α) : Prop :=
  ∀ v s, o = .ok v s → self.indexx ≤ s.indexx

/-- The condition of the `while` loop of `Power`: the cursor is inside the text, on a `^`. -/
def AtCaret (s : Interpreter) : Prop :=
  s.indexx < s.progStr.length ∧ peek s = some '^'

/-- A procedure that returns leaves the cursor where the loop of `Power` would stop. -/
def OffCaret {α : Type} (o : Outcome α) : Prop :=
  ∀ v s, o = .ok v s → ¬ AtCaret s

/-- The number of characters of the text from the cursor on. -/
def remaining (self : Interpreter) : Nat := self.progStr.length - self.indexx

/-- The rule `power := factor ("^" power)?` of the specification, written with a single `if`
where `Power` has its `while`: a factor, and when a `^` follows, one recursive call for the
right operand. -/
def Power_if : Nat → Interpreter → Outcome Int
  | 0, self => .halt .fuel self
  | fuel + 1, self =>
    match Fact fuel self with
    | .halt why self => .halt why self
    | .ok result self =>
      if self.indexx < self.progStr.length ∧ peek self = some '^' then
        match Power_if fuel (advance self 1) with
        | .halt why self => .halt why self
        | .ok e self =>
          match pow result e with
          | none => .halt (.undefined .narrowing) self
          | some r => .ok r self
      else .ok result self

/-- The value that the statement at the cursor prints: the value of its expression, when the
statement is a `print` statement and the expression evaluates; nothing otherwise. -/
def printValue (fuel : Nat) (self : Interpreter) : Option Int :=
  if substr self 5 = some "print".toList then
    match Exp fuel (advance self 5) with
    | .ok v _ => some v
    | .halt _ _ => none
  else none

/-- The values printed by the statements that the loop of `statements` executes from the
cursor on, in the order of their execution, up to `end` or to the statement that fails. -/
def printedValues : Nat → Interpreter → List Int
  | 0, _ => []
  | fuel + 1, self =>
    if substr self 3 = some "end".toList then []
    else
      (printValue fuel self).toList ++
        match statement fuel self with
        | .ok _ s => printedValues fuel s
        | .halt _ _ => []

/-- Two symbol tables have the same sequence of names and values; the kinds may differ. -/
def Agree (t1 t2 : SymbolTable) : Prop :=
  t1.table.map (fun node => (node.id, node.val)) = t2.table.map (fun node => (node.id, node.val))

/-- Two interpreter states that differ at most in the kinds recorded in the table and in the
text already behind the cursor: the text from the cursor on is the same, the cursors are equally
far from the end of their texts, the output is the same, and the tables have the same names and
values. -/
def Alike (a b : Interpreter) : Prop :=
  a.progStr.drop a.indexx = b.progStr.drop b.indexx ∧
  a.indexx + b.progStr.length = b.indexx + a.progStr.length ∧
  a.cout = b.cout ∧ Agree a.symbolTable b.symbolTable

/-- Two outcomes with the same result (the same value, or the same failure) in states that are
alike. -/
def AlikeOut {α : Type} : Outcome α → Outcome α → Prop
  | .ok v1 s1, .ok v2 s2 => v1 = v2 ∧ Alike s1 s2
  | .halt w1 s1, .halt w2 s2 => w1 = w2 ∧ Alike s1 s2
  | _, _ => False

/-- A call of one of the expression procedures: its fuel, its argument (the accumulator of a
loop) and the interpreter state at the call. -/
inductive Call where
  | exp (fuel : Nat) (self : Interpreter)
  | term (fuel : Nat) (self : Interpreter)
  | exp2 (fuel : Nat) (inp : Int) (self : Interpreter)
  | term2 (fuel : Nat) (inp : Int) (self : Interpreter)
  | power (fuel : Nat) (self : Interpreter)
  | loop (fuel : Nat) (result : Int) (self : Interpreter)
  | fact (fuel : Nat) (self : Interpreter)

/-- The outcome of a call. -/
def Call.outcome : Call → Outcome Int
  | .exp fuel self => Exp fuel self
  | .term fuel self => Term fuel self
  | .exp2 fuel inp self => Exp2 fuel inp self
  | .term2 fuel inp self => Term2 fuel inp self
  | .power fuel self => Power fuel self
  | .loop fuel result self => Power_loop fuel result self
  | .fact fuel self => Fact fuel self

/-- The interpreter state in which a call starts. -/
def Call.self : Call → Interpreter
  | .exp _ self => self
  | .term _ self => self
  | .exp2 _ _ self => self
  | .term2 _ _ self => self
  | .power _ self => self
  | .loop _ _ self => self
  | .fact _ self => self

/-- The calls that a call of an expression procedure makes itself, one constructor per call
site of the source: the call of the operand procedure, and, once the operand has returned, the
continuation (the rest of the loop, one call per iteration in the embedding). -/
inductive Calls : Call → Call → Prop
  /-- The call `Term()` in `Exp2(Term())` of `Exp` -/
  | exp_term (f : Nat) (self : Interpreter) : Calls (.exp (f + 1) self) (.term f self)
  /-- The call `Exp2(...)` of `Exp`, on the value that `Term()` returned -/
  | exp_exp2 (f : Nat) (self s : Interpreter) (t : Int) :
    Term f self = .ok t s → Calls (.exp (f + 1) self) (.exp2 f t s)
  /-- The call `Power()` in `Term2(Power())` of `Term` -/
  | term_power (f : Nat) (self : Interpreter) : Calls (.term (f + 1) self) (.power f self)
  /-- The call `Term2(...)` of `Term`, on the value that `Power()` returned -/
  | term_term2 (f : Nat) (self s : Interpreter) (p : Int) :
    Power f self = .ok p s → Calls (.term (f + 1) self) (.term2 f p s)
  /-- The calls `Term()` in `result += Term()` and `result -= Term()` of `Exp2` -/
  | exp2_term (f : Nat) (r : Int) (self : Interpreter) :
    self.indexx < self.progStr.length → peek self = some '+' ∨ peek self = some '-' →
    Calls (.exp2 (f + 1) r self) (.term f (advance self 1))
  /-- The next iteration of the loop of `Exp2` after `result += Term()` -/
  | exp2_plus (f : Nat) (r t : Int) (self s : Interpreter) :
    self.indexx < self.progStr.length → peek self = some '+' →
    Term f (advance self 1) = .ok t s →
    Calls (.exp2 (f + 1) r self) (.exp2 f (wrap32 (r + t)) s)
  /-- The next iteration of the loop of `Exp2` after `result -= Term()` -/
  | exp2_minus (f : Nat) (r t : Int) (self s : Interpreter) :
    self.indexx < self.progStr.length → peek self = some '-' →
    Term f (advance self 1) = .ok t s →
    Calls (.exp2 (f + 1) r self) (.exp2 f (wrap32 (r - t)) s)
  /-- The calls `Power()` in `result *= Power()` and `result /= Power()` of `Term2` -/
  | term2_power (f : Nat) (r : Int) (self : Interpreter) :
    self.indexx < self.progStr.length → peek self = some '*' ∨ peek self = some '/' →
    Calls (.term2 (f + 1) r self) (.power f (advance self 1))
  /-- The next iteration of the loop of `Term2` after `result *= Power()` -/
  | term2_times (f : Nat) (r p : Int) (self s : Interpreter) :
    self.indexx < self.progStr.length → peek self = some '*' →
    Power f (advance self 1) = .ok p s →
    Calls (.term2 (f + 1) r self) (.term2 f (wrap32 (r * p)) s)
  /-- The next iteration of the loop of `Term2` after `result /= Power()` -/
  | term2_divide (f : Nat) (r p u : Int) (self s : Interpreter) :
    self.indexx < self.progStr.length → peek self = some '/' →
    Power f (advance self 1) = .ok p s → idiv r p = some u →
    Calls (.term2 (f + 1) r self) (.term2 f u s)
  /-- The call `Fact()` of `Power` -/
  | power_fact (f : Nat) (self : Interpreter) : Calls (.power (f + 1) self) (.fact f self)
  /-- The loop of `Power`, on the value that `Fact()` returned -/
  | power_loop (f : Nat) (self s : Interpreter) (r : Int) :
    Fact f self = .ok r s → Calls (.power (f + 1) self) (.loop f r s)
  /-- The call `Power()` in `result = pow(result, Power())` of `Power` -/
  | loop_power (f : Nat) (r : Int) (self : Interpreter) :
    self.indexx < self.progStr.length → peek self = some '^' →
    Calls (.loop (f + 1) r self) (.power f (advance self 1))
  /-- The next test of the loop of `Power` after `result = pow(result, Power())` -/
  | loop_next (f : Nat) (r e u : Int) (self s : Interpreter) :
    self.indexx < self.progStr.length → peek self = some '^' →
    Power f (advance self 1) = .ok e s → pow r e = some u →
    Calls (.loop (f + 1) r self) (.loop f u s)
  /-- The call `Exp()` of `Fact` behind an opening parenthesis -/
  | fact_exp (f : Nat) (self : Interpreter) :
    peek self = some '(' → Calls (.fact (f + 1) self) (.exp f (advance self 1))

/-- The second call is made, at any depth, while the first one runs (or is the first one). -/
def Reaches (c1 c2 : Call) : Prop := Relation.ReflTransGen Calls c1 c2

/-- The loop of `statements`, started with fuel `g` in state `b`, comes to the test of its
condition with fuel `fuel` in state `self`, every statement before having returned. -/
inductive LoopAt : Nat → Interpreter → Nat → Interpreter → Prop
  | here (fuel : Nat) (self : Interpreter) : LoopAt fuel self fuel self
  | next (g : Nat) (b b1 : Interpreter) (fuel : Nat) (self : Interpreter) (w : List Char) :
    substr b 3 = some w → w ≠ "end".toList → statement g b = .ok () b1 →
    LoopAt g b1 fuel self → LoopAt (g + 1) b fuel self

/-- The outcome is not the exception of `substr`; if it is a thrown error, the error is the
undeclared-variable error for some name; and if it is a character read without a defined
value, the cursor is beyond the end of the text. -/
def Sound {α : Type} : Outcome α → Prop
  | .halt .out_of_range _ => False
  | .halt (.runtime_error w) _ => ∃ x, w = SymbolTable.undeclared x
  | .halt (.undefined .index) s => s.progStr.length < s.indexx
  | _ => True

/-- The cursor is within the text or at its end, and the text has no opening parenthesis. -/
def Inside (s : Interpreter) : Prop :=
  s.indexx ≤ s.progStr.length ∧ '(' ∉ s.progStr

/-- The outcome is not a character read without a defined value, and a procedure that returns
leaves the cursor within the text (which has no opening parenthesis). -/
def Within {α : Type} : Outcome α → Prop
  | .ok _ s => Inside s
  | .halt (.undefined .index) _ => False
  | .halt _ _ => True

/-- The two kinds that a declaration can name. -/
inductive Kind where
  | int
  | double
deriving DecidableEq, Repr

/-- The keyword of a kind in the program text. -/
def Kind.word : Kind → List Char
  | .int => "int".toList
  | .double => "double".toList

/-- The kind as `type` returns it and `addVariable` records it. -/
def Kind.name : Kind → String
  | .int => "int"
  | .double => "double"

/-- The text is an identifier: a letter followed by letters and digits. -/
def IsName : List Char → Prop
  | [] => False
  | c :: cs => isalpha c = true ∧ ∀ k ∈ cs, isalnum k = true

/-- The text of an identifier list: the names separated by commas. -/
def joinNames : List (List Char) → List Char
  | [] => []
  | [n] => n
  | n :: m :: ns => n ++ ',' :: joinNames (m :: ns)

/-- The text of a sequence of declarations, each a kind and its identifier list. -/
def renderDecls : List (Kind × List (List Char)) → List Char
  | [] => []
  | (k, names) :: ds => k.word ++ joinNames names ++ ';' :: renderDecls ds

/-- Every declaration has at least one name and every name is an identifier. -/
def WellFormed (ds : List (Kind × List (List Char))) : Prop :=
  ∀ d ∈ ds, d.2 ≠ [] ∧ ∀ n ∈ d.2, IsName n

/-- The entries that a declaration adds to the symbol table. -/
def entries (k : Kind) (names : List (List Char)) : List Node :=
  names.map (fun n => { id := String.mk n, type := k.name, val := 0 })

/-- The number of names and declarations: the iterations of the loops of `declarations` and
`id_list` over them. -/
def declsSize : List (Kind × List (List Char)) → Nat
  | [] => 0
  | (_, names) :: ds => names.length + 1 + declsSize ds

/-! ## Symbol table -/

namespace SymbolTable

theorem getValueFrom_eq (l : List Node) (n : String) :
    getValueFrom l n =
      if h : l.findIdx (fun node => decide (node.id = n)) < l.length then
        .ok (l.get ⟨l.findIdx (fun node => decide (node.id = n)), h⟩).val
      else .error (undeclared n) := by
  induction l with
  | nil => simp [getValueFrom]
  | cons a l ih =>
    by_cases ha : a.id = n
    · simp [getValueFrom, List.findIdx_cons, ha]
    · simp [getValueFrom, List.findIdx_cons, ha, ih]

theorem setValueFrom_eq (l : List Node) (n : String) (v : Int) :
    setValueFrom l n v =
      if h : l.findIdx (fun node => decide (node.id = n)) < l.length then
        (l.set (l.findIdx (fun node => decide (node.id = n)))
          { l.get ⟨l.findIdx (fun node => decide (node.id = n)), h⟩ with val := v }, .ok ())
      else (l, .error (undeclared n)) := by
  induction l with
  | nil => simp [setValueFrom]
  | cons a l ih =>
    by_cases ha : a.id = n
    · simp [setValueFrom, List.findIdx_cons, ha]
    · simp only [setValueFrom, List.findIdx_cons, ha, ih, decide_False, cond_false, if_false,
        List.length_cons, Nat.add_lt_add_iff_right]
      split <;> simp

theorem findIdx_lt_iff (l : List Node) (n : String) :
    l.findIdx (fun node => decide (node.id = n)) < l.length ↔ ∃ node ∈ l, node.id = n := by
  simp [List.findIdx_lt_length]

end SymbolTable

namespace SymbolTable

theorem getValueFrom_ok_iff (l : List Node) (n : String) :
    (∃ x, getValueFrom l n = .ok x) ↔ ∃ node ∈ l, node.id = n := by
  rw [getValueFrom_eq, ← findIdx_lt_iff]
  split <;> simp_all

theorem getValueFrom_error_iff (l : List Node) (n : String) :
    getValueFrom l n = .error (undeclared n) ↔ ¬ ∃ node ∈ l, node.id = n := by
  rw [getValueFrom_eq, ← findIdx_lt_iff]
  split <;> simp_all

theorem setValueFrom_ok_iff (l : List Node) (n : String) (v : Int) :
    (setValueFrom l n v).2 = .ok () ↔ ∃ node ∈ l, node.id = n := by
  rw [setValueFrom_eq, ← findIdx_lt_iff]
  split <;> simp_all

theorem setValueFrom_error_iff (l : List Node) (n : String) (v : Int) :
    (setValueFrom l n v).2 = .error (undeclared n) ↔ ¬ ∃ node ∈ l, node.id = n := by
  rw [setValueFrom_eq, ← findIdx_lt_iff]
  split <;> simp_all

theorem setValueFrom_error_fst (l : List Node) (n : String) (v : Int)
    (h : (setValueFrom l n v).2 = .error (undeclared n)) : (setValueFrom l n v).1 = l := by
  rw [setValueFrom_eq] at h ⊢
  split <;> simp_all

theorem getValueFrom_setValueFrom_same (l : List Node) (n : String) (v : Int)
    (h : ∃ node ∈ l, node.id = n) : getValueFrom (setValueFrom l n v).1 n = .ok v := by
  induction l with
  | nil => simp at h
  | cons a l ih =>
    by_cases ha : a.id = n
    · simp [setValueFrom, getValueFrom, ha]
    · have h' : ∃ node ∈ l, node.id = n := by
        obtain ⟨node, hmem, hid⟩ := h
        rcases List.mem_cons.mp hmem with rfl | hmem
        · exact absurd hid ha
        · exact ⟨node, hmem, hid⟩
      simp [setValueFrom, getValueFrom, ha, ih h']

theorem getValueFrom_setValueFrom_other (l : List Node) (n m : String) (v : Int) (hm : m ≠ n) :
    getValueFrom (setValueFrom l n v).1 m = getValueFrom l m := by
  induction l with
  | nil => simp [setValueFrom, getValueFrom]
  | cons a l ih =>
    by_cases ha : a.id = n
    · have hne : ¬ n = m := fun h => hm h.symm
      simp [setValueFrom, getValueFrom, ha, hne]
    · by_cases hb : a.id = m
      · simp [setValueFrom, getValueFrom, hm, hb]
      · simp [setValueFrom, getValueFrom, ha, hb, ih]

theorem setValueFrom_names (l : List Node) (n : String) (v : Int) :
    (setValueFrom l n v).1.map (fun node => (node.id, node.type))
      = l.map (fun node => (node.id, node.type)) := by
  induction l with
  | nil => simp [setValueFrom]
  | cons a l ih =>
    by_cases ha : a.id = n
    · simp [setValueFrom, ha]
    · simp [setValueFrom, ha, ih]

theorem read_after_write_core (t : SymbolTable) (n : String) (v : Int)
    (h : ∃ node ∈ t.table, node.id = n) :
    (t.setValue n v).2 = .ok () ∧ (t.setValue n v).1.getValue n = .ok v :=
  ⟨(setValueFrom_ok_iff _ _ _).mpr h, getValueFrom_setValueFrom_same _ _ _ h⟩

end SymbolTable

open SymbolTable

/-- C10: `getValue n` throws the undeclared-variable error exactly when no entry is named `n`
(and returns otherwise), the same holds for `setValue n v`, a `setValue` that throws leaves the
table as it was, and `addVariable` always returns, appending its entry whether or not the name
is already there. -/
theorem symbol_table_failure_condition (t : SymbolTable) (n : String) (v : Int) :
    (t.getValue n = .error (undeclared n) ↔ ¬ ∃ node ∈ t.table, node.id = n) ∧
    ((∃ x, t.getValue n = .ok x) ↔ ∃ node ∈ t.table, node.id = n) ∧
    ((t.setValue n v).2 = .error (undeclared n) ↔ ¬ ∃ node ∈ t.table, node.id = n) ∧
    ((t.setValue n v).2 = .ok () ↔ ∃ node ∈ t.table, node.id = n) ∧
    ((t.setValue n v).2 = .error (undeclared n) → (t.setValue n v).1 = t) ∧
    (∀ kind, (t.addVariable n kind).table = t.table ++ [{ id := n, type := kind, val := 0 }]) := by
  refine ⟨getValueFrom_error_iff _ _, getValueFrom_ok_iff _ _, setValueFrom_error_iff _ _ _,
    setValueFrom_ok_iff _ _ _, ?_, fun _ => rfl⟩
  intro h
  have := setValueFrom_error_fst t.table n v h
  cases t
  simp_all [setValue]

/-- C9: on a table with an entry named `n`, `setValue n v` returns, and afterwards `getValue n`
is `v`, `getValue m` is what it was for every other name `m`, and the table has the same
length and the same names and kinds in the same order. -/
theorem read_after_write (t : SymbolTable) (n : String) (v : Int)
    (h : ∃ node ∈ t.table, node.id = n) :
    (t.setValue n v).2 = .ok () ∧
    (t.setValue n v).1.getValue n = .ok v ∧
    (∀ m, m ≠ n → (t.setValue n v).1.getValue m = t.getValue m) ∧
    (t.setValue n v).1.table.length = t.table.length ∧
    (t.setValue n v).1.table.map (fun node => (node.id, node.type))
      = t.table.map (fun node => (node.id, node.type)) := by
  refine ⟨(setValueFrom_ok_iff _ _ _).mpr h, getValueFrom_setValueFrom_same _ _ _ h,
    fun m hm => getValueFrom_setValueFrom_other _ _ _ _ hm, ?_, setValueFrom_names _ _ _⟩
  have := congrArg List.length (setValueFrom_names t.table n v)
  simpa [setValue] using this

theorem read_after_write_witness :
    (∃ node ∈ (SymbolTable.mk [⟨"a", "int", 1⟩, ⟨"b", "double", 2⟩, ⟨"a", "int", 0⟩]).table,
        node.id = "a") ∧
    ((SymbolTable.mk [⟨"a", "int", 1⟩, ⟨"b", "double", 2⟩, ⟨"a", "int", 0⟩]).setValue "a" 7).1
        = SymbolTable.mk [⟨"a", "int", 7⟩, ⟨"b", "double", 2⟩, ⟨"a", "int", 0⟩] ∧
    ((SymbolTable.mk [⟨"a", "int", 1⟩, ⟨"b", "double", 2⟩, ⟨"a", "int", 0⟩]).setValue "a" 7).1.getValue
        "a" = .ok 7 :=
  ⟨⟨⟨"a", "int", 1⟩, by simp, rfl⟩, by decide,
    (read_after_write ⟨[⟨"a", "int", 1⟩, ⟨"b", "double", 2⟩, ⟨"a", "int", 0⟩]⟩ "a" 7
      ⟨⟨"a", "int", 1⟩, by simp, rfl⟩).2.1⟩

namespace SymbolTable

theorem getValueFrom_of_first (l : List Node) (n : String) (i : Nat) (first : Node)
    (hi : l[i]? = some first) (hid : first.id = n)
    (hlt : ∀ j < i, ∀ node, l[j]? = some node → node.id ≠ n) :
    getValueFrom l n = .ok first.val := by
  induction l generalizing i with
  | nil => simp at hi
  | cons a l ih =>
    cases i with
    | zero =>
      simp at hi
      subst hi
      simp [getValueFrom, hid]
    | succ i =>
      have ha : a.id ≠ n := hlt 0 (Nat.succ_pos i) a (by simp)
      simp only [getValueFrom, ha, if_false]
      apply ih i (by simpa using hi)
      intro j hj node hnode
      exact hlt (j + 1) (Nat.succ_lt_succ hj) node (by simpa using hnode)

theorem setValueFrom_of_first (l : List Node) (n : String) (v : Int) (i : Nat) (first : Node)
    (hi : l[i]? = some first) (hid : first.id = n)
    (hlt : ∀ j < i, ∀ node, l[j]? = some node → node.id ≠ n) :
    setValueFrom l n v = (l.set i { first with val := v }, .ok ()) := by
  induction l generalizing i with
  | nil => simp at hi
  | cons a l ih =>
    cases i with
    | zero =>
      simp at hi
      subst hi
      simp [setValueFrom, hid]
    | succ i =>
      have ha : a.id ≠ n := hlt 0 (Nat.succ_pos i) a (by simp)
      have := ih i (by simpa using hi)
        (fun j hj node hnode => hlt (j + 1) (Nat.succ_lt_succ hj) node (by simpa using hnode))
      simp [setValueFrom, ha, this]

/-- No table operation changes the name stored at a position. -/
theorem apply_keeps_id (t : SymbolTable) (op : TableOp) (j : Nat) (hj : j < t.table.length) :
    ((TableOp.apply t op).table[j]?).map Node.id = (t.table[j]?).map Node.id := by
  cases op with
  | addVariable id type =>
    simp [TableOp.apply, addVariable, List.getElem?_append_left hj]
  | setValue m v =>
    simp only [TableOp.apply, setValue, setValueFrom_eq]
    split
    · rename_i h
      simp only [List.getElem?_set]
      split
      · rename_i hij
        subst hij
        simp [h]
      · rfl
    · rfl

/-- No table operation changes an entry that has an entry of the same name before it. -/
theorem apply_keeps_shadowed (t : SymbolTable) (op : TableOp) (k j : Nat) (node other : Node)
    (hk : t.table[k]? = some node) (hjk : j < k) (hj : t.table[j]? = some other)
    (hid : other.id = node.id) :
    (TableOp.apply t op).table[k]? = some node := by
  have hklt : k < t.table.length := by
    rcases Nat.lt_or_ge k t.table.length with h | h
    · exact h
    · rw [List.getElem?_eq_none h] at hk; cases hk
  cases op with
  | addVariable id type =>
    simp [TableOp.apply, addVariable, List.getElem?_append_left hklt, hk]
  | setValue m v =>
    simp only [TableOp.apply, setValue, setValueFrom_eq]
    split
    · rename_i h
      rw [List.getElem?_set_ne]
      · exact hk
      · intro hik
        have hjlt : j < t.table.length := Nat.lt_trans hjk hklt
        have h1 := @List.not_of_lt_findIdx _ (fun node : Node => decide (node.id = m))
          t.table j (by rw [hik]; exact hjk)
        have h2 := @List.findIdx_getElem _ (fun node : Node => decide (node.id = m)) t.table h
        have e1 : t.table[j] = other := by
          have := List.getElem?_eq_getElem hjlt
          rw [this] at hj; exact Option.some.inj hj
        have e2 : t.table[k] = node := by
          have := List.getElem?_eq_getElem hklt
          rw [this] at hk; exact Option.some.inj hk
        simp only [hik, e2] at h2
        simp only [e1] at h1
        simp_all
    · exact hk

end SymbolTable

/-- What every later operation preserves once `n` has been declared a second time: the names
stored at the positions of the original table, and the second entry itself. -/
theorem shadow_invariant (t : SymbolTable) (n kind : String)
    (h : ∃ node ∈ t.table, node.id = n) (ops : List TableOp) (t1 : SymbolTable)
    (hnames : ∀ j < t.table.length, (t1.table[j]?).map Node.id = (t.table[j]?).map Node.id)
    (hdup : t1.table[t.table.length]? = some { id := n, type := kind, val := 0 }) :
    (∀ j < t.table.length,
      ((ops.foldl TableOp.apply t1).table[j]?).map Node.id = (t.table[j]?).map Node.id) ∧
    (ops.foldl TableOp.apply t1).table[t.table.length]?
      = some { id := n, type := kind, val := 0 } := by
  induction ops generalizing t1 with
  | nil => exact ⟨hnames, hdup⟩
  | cons op ops ih =>
    have hlen : t.table.length < t1.table.length := by
      rcases Nat.lt_or_ge t.table.length t1.table.length with h1 | h1
      · exact h1
      · rw [List.getElem?_eq_none h1] at hdup; cases hdup
    have hi : firstIndex t n < t.table.length := (findIdx_lt_iff _ _).mpr h
    have hfirst : (t.table[firstIndex t n]?).map Node.id = some n := by
      have := @List.findIdx_getElem _ (fun node : Node => decide (node.id = n)) t.table hi
      rw [List.getElem?_eq_getElem hi]
      simpa [firstIndex] using this
    simp only [List.foldl_cons]
    apply ih
    · intro j hj
      rw [apply_keeps_id t1 op j (Nat.lt_trans hj hlen)]
      exact hnames j hj
    · have h1 := hnames _ hi
      rw [hfirst] at h1
      obtain ⟨other, hother, hoid⟩ := Option.map_eq_some'.mp h1
      exact apply_keeps_shadowed t1 op _ _ _ other hdup hi hother hoid

/-- C7: on a table that already has an entry named `n`, `addVariable n kind` appends a second
entry with value 0 and `getValue n` is unchanged; after any further operations on the table,
the appended entry is still there with value 0, and `getValue n` and `setValue n v` read and
overwrite the entry at the position of the first entry named `n`, before which no entry is
named `n`. -/
theorem first_match_shadowing (t : SymbolTable) (n kind : String)
    (h : ∃ node ∈ t.table, node.id = n) :
    (t.addVariable n kind).table = t.table ++ [{ id := n, type := kind, val := 0 }] ∧
    (t.addVariable n kind).getValue n = t.getValue n ∧
    firstIndex t n < t.table.length ∧
    ∀ ops : List TableOp,
      (ops.foldl TableOp.apply (t.addVariable n kind)).table[t.table.length]?
        = some { id := n, type := kind, val := 0 } ∧
      ∃ first : Node,
        (ops.foldl TableOp.apply (t.addVariable n kind)).table[firstIndex t n]? = some first ∧
        first.id = n ∧
        (∀ j < firstIndex t n, ∀ node,
          (ops.foldl TableOp.apply (t.addVariable n kind)).table[j]? = some node → node.id ≠ n) ∧
        (ops.foldl TableOp.apply (t.addVariable n kind)).getValue n = .ok first.val ∧
        ∀ v, (ops.foldl TableOp.apply (t.addVariable n kind)).setValue n v
          = (⟨(ops.foldl TableOp.apply (t.addVariable n kind)).table.set (firstIndex t n)
                { first with val := v }⟩, .ok ()) := by
  have hi : firstIndex t n < t.table.length := (findIdx_lt_iff _ _).mpr h
  have hfirst : (t.table[firstIndex t n]).id = n := by
    have := @List.findIdx_getElem _ (fun node : Node => decide (node.id = n)) t.table hi
    simpa [firstIndex] using this
  have hbefore : ∀ j, (hj : j < firstIndex t n) → (t.table.get ⟨j, Nat.lt_trans hj hi⟩).id ≠ n := by
    intro j hj
    have := @List.not_of_lt_findIdx _ (fun node : Node => decide (node.id = n)) t.table j hj
    simpa using this
  have hinv := fun ops => shadow_invariant t n kind h ops (t.addVariable n kind)
    (fun j hj => by simp [addVariable, List.getElem?_append_left hj])
    (by simp [addVariable])
  refine ⟨rfl, ?_, hi, ?_⟩
  · have e0 : t.table[firstIndex t n]? = some (t.table[firstIndex t n]) :=
      List.getElem?_eq_getElem hi
    have hb : ∀ j < firstIndex t n, ∀ node, t.table[j]? = some node → node.id ≠ n := by
      intro j hj node hnode
      rw [List.getElem?_eq_getElem (Nat.lt_trans hj hi)] at hnode
      rw [← Option.some.inj hnode]
      exact hbefore j hj
    have e1 : (t.table ++ [{ id := n, type := kind, val := 0 }])[firstIndex t n]?
        = some (t.table[firstIndex t n]) := by
      rw [List.getElem?_append_left hi]; exact e0
    have hb1 : ∀ j < firstIndex t n, ∀ node,
        (t.table ++ [{ id := n, type := kind, val := 0 }])[j]? = some node → node.id ≠ n := by
      intro j hj node hnode
      rw [List.getElem?_append_left (Nat.lt_trans hj hi)] at hnode
      exact hb j hj node hnode
    show getValueFrom (t.table ++ [_]) n = getValueFrom t.table n
    rw [getValueFrom_of_first _ n _ _ e1 hfirst hb1, getValueFrom_of_first _ n _ _ e0 hfirst hb]
  · intro ops
    obtain ⟨hnames, hdup⟩ := hinv ops
    refine ⟨hdup, ?_⟩
    have h1 := hnames _ hi
    rw [List.getElem?_eq_getElem hi, Option.map_some', hfirst] at h1
    obtain ⟨first, hf, hfid⟩ := Option.map_eq_some'.mp h1
    have hb2 : ∀ j < firstIndex t n, ∀ node,
        (ops.foldl TableOp.apply (t.addVariable n kind)).table[j]? = some node → node.id ≠ n := by
      intro j hj node hnode
      have h2 := hnames j (Nat.lt_trans hj hi)
      rw [hnode, List.getElem?_eq_getElem (Nat.lt_trans hj hi)] at h2
      simp only [Option.map_some', Option.some.injEq] at h2
      rw [h2]
      exact hbefore j hj
    refine ⟨first, hf, hfid, hb2, getValueFrom_of_first _ n _ _ hf hfid hb2, ?_⟩
    intro v
    simp only [setValue, setValueFrom_of_first _ n v _ _ hf hfid hb2]

theorem first_match_shadowing_witness :
    (∃ node ∈ (SymbolTable.mk [⟨"a", "int", 3⟩]).table, node.id = "a") ∧
    ((SymbolTable.mk [⟨"a", "int", 3⟩]).addVariable "a" "int").getValue "a"
      = (SymbolTable.mk [⟨"a", "int", 3⟩]).getValue "a" ∧
    (run "program int a; int a; begin a=5; print a; end").state.cout = ["5", confirmation] ∧
    (run "program int a; int a; begin a=5; print a; end").state.symbolTable
      = ⟨[⟨"a", "int", 5⟩, ⟨"a", "int", 0⟩]⟩ :=
  ⟨⟨⟨"a", "int", 3⟩, by simp, rfl⟩,
    (first_match_shadowing ⟨[⟨"a", "int", 3⟩]⟩ "a" "int" ⟨⟨"a", "int", 3⟩, by simp, rfl⟩).2.1,
    by decide, by decide⟩

/-! ## Cursor lemmas -/

theorem wrap32_of_range (v : Int) (h1 : INT_MIN ≤ v) (h2 : v ≤ INT_MAX) : wrap32 v = v := by
  unfold wrap32
  unfold INT_MIN at h1
  unfold INT_MAX at h2
  omega

theorem At.lt {self : Interpreter} {c : Char} {rest : List Char} (h : At self (c :: rest)) :
    self.indexx < self.progStr.length := by
  rcases Nat.lt_or_ge self.indexx self.progStr.length with h1 | h1
  · exact h1
  · have := List.drop_eq_nil_of_le h1
    rw [h.2] at this
    cases this

theorem At.peek {self : Interpreter} {c : Char} {rest : List Char} (h : At self (c :: rest)) :
    peek self = some c := by
  simp [Prog3.peek, h.2]

theorem At.substr {self : Interpreter} {rest : List Char} (h : At self rest) (n : Nat) :
    substr self n = some (rest.take n) := by
  simp [Prog3.substr, h.1, h.2]

theorem At.advance {self : Interpreter} {a rest : List Char} (h : At self (a ++ rest)) :
    At (advance self a.length) rest := by
  obtain ⟨h1, h2⟩ := h
  have hlen : (self.progStr.drop self.indexx).length = a.length + rest.length := by
    rw [h2, List.length_append]
  rw [List.length_drop] at hlen
  refine ⟨?_, ?_⟩
  · show self.indexx + a.length ≤ self.progStr.length
    omega
  · show self.progStr.drop (self.indexx + a.length) = rest
    rw [← List.drop_drop, h2, List.drop_left]

theorem At.step {self : Interpreter} {c : Char} {rest : List Char} (h : At self (c :: rest)) :
    At (Prog3.advance self 1) rest :=
  At.advance (a := [c]) h

theorem At.start (text : List Char) (t : SymbolTable) (out : List String) :
    At ⟨text, 0, t, out⟩ text := ⟨Nat.zero_le _, rfl⟩

/-! ## Literals -/

theorem isdigit_toNat (c : Char) (h : isdigit c = true) : 48 ≤ c.toNat := by
  simp only [isdigit, Char.isDigit, Bool.and_eq_true, decide_eq_true_eq] at h
  exact h.1

theorem digitChar_spec (k : Nat) (hk : k < 10) :
    isdigit (Nat.digitChar k) = true ∧ (Nat.digitChar k).toNat - 48 = k := by
  revert k
  decide

theorem le_decimal (l : List Char) (v : Nat) : v ≤ decimal l v := by
  induction l generalizing v with
  | nil => exact Nat.le_refl _
  | cons c l ih =>
    have := ih (v * 10 + (c.toNat - 48))
    simp only [decimal]
    omega

theorem decimal_append (l r : List Char) (v : Nat) : decimal (l ++ r) v = decimal r (decimal l v) := by
  induction l generalizing v with
  | nil => rfl
  | cons c l ih => simp [decimal, ih]

theorem toDigitsCore_spec (fuel n : Nat) (ds : List Char) (h : n < fuel) :
    ∃ pre, Nat.toDigitsCore 10 fuel n ds = pre ++ ds ∧ pre ≠ [] ∧
      (∀ c ∈ pre, isdigit c = true) ∧ ∀ v, decimal pre v = v * 10 ^ pre.length + n := by
  induction fuel generalizing n ds with
  | zero => omega
  | succ fuel ih =>
    have hd := digitChar_spec (n % 10) (Nat.mod_lt _ (by decide))
    by_cases hq : n / 10 = 0
    · refine ⟨[Nat.digitChar (n % 10)], ?_, by simp, ?_, ?_⟩
      · simp [Nat.toDigitsCore, hq]
      · intro c hc
        simp only [List.mem_singleton] at hc
        rw [hc]; exact hd.1
      · intro v
        simp only [decimal, hd.2, List.length_singleton, pow_one]
        omega
    · obtain ⟨pre, h1, _, h3, h4⟩ := ih (n / 10) (Nat.digitChar (n % 10) :: ds) (by omega)
      refine ⟨pre ++ [Nat.digitChar (n % 10)], ?_, by simp, ?_, ?_⟩
      · simp [Nat.toDigitsCore, hq, h1]
      · intro c hc
        rcases List.mem_append.mp hc with hc | hc
        · exact h3 c hc
        · simp only [List.mem_singleton] at hc
          rw [hc]; exact hd.1
      · intro v
        simp only [decimal_append, h4, decimal, hd.2, List.length_append, List.length_singleton,
          pow_succ]
        have := Nat.div_add_mod n 10
        nlinarith [this]

theorem literal_spec (n : Nat) :
    literal n ≠ [] ∧ (∀ c ∈ literal n, isdigit c = true) ∧ decimal (literal n) 0 = n := by
  obtain ⟨pre, h1, h2, h3, h4⟩ := toDigitsCore_spec (n + 1) n [] (Nat.lt_succ_self n)
  have : literal n = pre := by simp [literal, Nat.toDigits, h1]
  rw [this]
  exact ⟨h2, h3, by simp [h4]⟩

theorem digit_loop_digits (pre rest : List Char) (v i : Nat)
    (hpre : ∀ c ∈ pre, isdigit c = true) (hrest : ∀ c, rest.head? = some c → isdigit c = false)
    (hmax : (decimal pre v : Int) ≤ INT_MAX) :
    digit_loop (pre ++ rest) (v : Int) i = (((decimal pre v : Nat) : Int), i + pre.length) := by
  induction pre generalizing v i with
  | nil =>
    cases rest with
    | nil => rfl
    | cons c rest => simp [digit_loop, decimal, hrest c rfl]
  | cons c pre ih =>
    have hc := hpre c (List.mem_cons_self _ _)
    have h48 := isdigit_toNat c hc
    have hle := le_decimal pre (v * 10 + (c.toNat - 48))
    simp only [decimal] at hmax ⊢
    have hcast : ((v : Int) * 10 + ((c.toNat : Int) - 48)) = ((v * 10 + (c.toNat - 48) : Nat) : Int) := by
      omega
    have hw : wrap32 ((v : Int) * 10 + ((c.toNat : Int) - 48))
        = ((v * 10 + (c.toNat - 48) : Nat) : Int) := by
      rw [hcast]
      apply wrap32_of_range
      · unfold INT_MIN; omega
      · exact le_trans (Int.ofNat_le.mpr hle) hmax
    have hstep : digit_loop (c :: pre ++ rest) (v : Int) i
        = digit_loop (pre ++ rest) (((v * 10 + (c.toNat - 48) : Nat) : Int)) (i + 1) := by
      simp only [List.cons_append, digit_loop, hc, if_true, hw]
      rfl
    rw [hstep, ih _ _ (fun c hc => hpre c (List.mem_cons_of_mem _ hc)) hmax]
    simp only [List.length_cons]
    congr 1
    omega

/-! ## One-step lemmas for the expression procedures -/

theorem advance_advance (self : Interpreter) (a b : Nat) :
    advance (advance self a) b = advance self (a + b) := by
  simp [advance, Nat.add_assoc]

theorem Exp_of_Term {fuel : Nat} {self s1 : Interpreter} {t : Int}
    (h : Term fuel self = .ok t s1) : Exp (fuel + 1) self = Exp2 fuel t s1 := by
  simp only [Exp, h]

theorem Term_of_Power {fuel : Nat} {self s1 : Interpreter} {p : Int}
    (h : Power fuel self = .ok p s1) : Term (fuel + 1) self = Term2 fuel p s1 := by
  simp only [Term, h]

theorem Power_of_Fact {fuel : Nat} {self s1 : Interpreter} {r : Int}
    (h : Fact fuel self = .ok r s1) : Power (fuel + 1) self = Power_loop fuel r s1 := by
  simp only [Power, h]

theorem Exp2_stop {fuel : Nat} {self : Interpreter} {c : Char} {rest : List Char} (r : Int)
    (h : At self (c :: rest)) (h1 : c ≠ '+') (h2 : c ≠ '-') :
    Exp2 (fuel + 1) r self = .ok r self := by
  simp only [Exp2, h.lt, h.peek, if_true, h1, h2, if_false]

theorem Exp2_plus {fuel : Nat} {self s1 : Interpreter} {rest : List Char} {t : Int} (r : Int)
    (h : At self ('+' :: rest)) (ht : Term fuel (advance self 1) = .ok t s1) :
    Exp2 (fuel + 1) r self = Exp2 fuel (wrap32 (r + t)) s1 := by
  simp only [Exp2, h.lt, h.peek, if_true, ht]

theorem Exp2_minus {fuel : Nat} {self s1 : Interpreter} {rest : List Char} {t : Int} (r : Int)
    (h : At self ('-' :: rest)) (ht : Term fuel (advance self 1) = .ok t s1) :
    Exp2 (fuel + 1) r self = Exp2 fuel (wrap32 (r - t)) s1 := by
  have hne : ¬ ('-' = '+') := by decide
  simp only [Exp2, h.lt, h.peek, if_true, ht, hne, if_false]

theorem Term2_stop {fuel : Nat} {self : Interpreter} {c : Char} {rest : List Char} (r : Int)
    (h : At self (c :: rest)) (h1 : c ≠ '*') (h2 : c ≠ '/') :
    Term2 (fuel + 1) r self = .ok r self := by
  simp only [Term2, h.lt, h.peek, if_true, h1, h2, if_false]

theorem Term2_times {fuel : Nat} {self s1 : Interpreter} {rest : List Char} {p : Int} (r : Int)
    (h : At self ('*' :: rest)) (hp : Power fuel (advance self 1) = .ok p s1) :
    Term2 (fuel + 1) r self = Term2 fuel (wrap32 (r * p)) s1 := by
  simp only [Term2, h.lt, h.peek, if_true, hp]

theorem Term2_divide {fuel : Nat} {self s1 : Interpreter} {rest : List Char} {p q : Int} (r : Int)
    (h : At self ('/' :: rest)) (hp : Power fuel (advance self 1) = .ok p s1)
    (hq : idiv r p = some q) :
    Term2 (fuel + 1) r self = Term2 fuel q s1 := by
  have hne : ¬ ('/' = '*') := by decide
  simp only [Term2, h.lt, h.peek, if_true, hp, hne, if_false, hq]

theorem Power_loop_stop {fuel : Nat} {self : Interpreter} {c : Char} {rest : List Char} (r : Int)
    (h : At self (c :: rest)) (h1 : c ≠ '^') :
    Power_loop (fuel + 1) r self = .ok r self := by
  simp [Power_loop, h.peek, h1]

theorem Power_loop_caret {fuel : Nat} {self s1 : Interpreter} {rest : List Char} {e v : Int}
    (r : Int) (h : At self ('^' :: rest)) (he : Power fuel (advance self 1) = .ok e s1)
    (hv : pow r e = some v) :
    Power_loop (fuel + 1) r self = Power_loop fuel v s1 := by
  simp [Power_loop, h.lt, h.peek, he, hv]

theorem Fact_paren {fuel : Nat} {self s1 : Interpreter} {rest : List Char} {v : Int}
    (h : At self ('(' :: rest)) (he : Exp fuel (advance self 1) = .ok v s1) :
    Fact (fuel + 1) self = .ok v (advance s1 1) := by
  simp [Fact, h.peek, he]

/-! ## Literal operands -/

theorem Fact_literal {fuel : Nat} {self : Interpreter} {n : Nat} {c : Char} {tail : List Char}
    (h : At self (literal n ++ c :: tail)) (hc : isdigit c = false) (hn : (n : Int) ≤ INT_MAX)
    (hf : 1 ≤ fuel) :
    Fact fuel self = .ok (n : Int) (advance self (literal n).length) := by
  obtain ⟨f, rfl⟩ : ∃ f, fuel = f + 1 := ⟨fuel - 1, by omega⟩
  obtain ⟨hne, hdig, hval⟩ := literal_spec n
  obtain ⟨d, ds, hd⟩ := List.exists_cons_of_ne_nil hne
  have hdd : isdigit d = true := hdig d (by rw [hd]; exact List.mem_cons_self _ _)
  have hparen : d ≠ '(' := by
    intro hp
    rw [hp] at hdd
    exact absurd hdd (by decide)
  have hpeek : peek self = some d := by
    have h' : At self (d :: (ds ++ c :: tail)) := by
      rw [hd] at h
      exact h
    exact h'.peek
  have hloop := digit_loop_digits (literal n) (c :: tail) 0 self.indexx hdig
    (by intro c' hc'; simp at hc'; rw [← hc']; exact hc) (by rw [hval]; exact hn)
  simp only [Fact, hpeek, hparen, if_false, hdd, if_true, h.2]
  rw [show ((0 : Nat) : Int) = 0 from rfl] at hloop
  rw [hloop, hval]
  rfl

theorem Power_literal {fuel : Nat} {self : Interpreter} {n : Nat} {c : Char} {tail : List Char}
    (h : At self (literal n ++ c :: tail)) (hc : isdigit c = false) (hn : (n : Int) ≤ INT_MAX)
    (h1 : c ≠ '^') (hf : 2 ≤ fuel) :
    Power fuel self = .ok (n : Int) (advance self (literal n).length) := by
  obtain ⟨f, rfl⟩ : ∃ f, fuel = f + 2 := ⟨fuel - 2, by omega⟩
  rw [Power_of_Fact (Fact_literal h hc hn (by omega))]
  exact Power_loop_stop _ h.advance h1

theorem Term_literal {fuel : Nat} {self : Interpreter} {n : Nat} {c : Char} {tail : List Char}
    (h : At self (literal n ++ c :: tail)) (hc : isdigit c = false) (hn : (n : Int) ≤ INT_MAX)
    (h1 : c ≠ '^') (h2 : c ≠ '*') (h3 : c ≠ '/') (hf : 3 ≤ fuel) :
    Term fuel self = .ok (n : Int) (advance self (literal n).length) := by
  obtain ⟨f, rfl⟩ : ∃ f, fuel = f + 3 := ⟨fuel - 3, by omega⟩
  rw [Term_of_Power (Power_literal h hc hn h1 (by omega))]
  exact Term2_stop _ h.advance h2 h3

/-! ## Identifiers -/

theorem id_loop_name (name : List Char) (d : Char) (rest acc : List Char) (i : Nat)
    (hname : ∀ c ∈ name, isalnum c = true) (hd : isalnum d = false) :
    id_loop (name ++ d :: rest) (String.mk acc) i = (String.mk (acc ++ name), i + name.length) := by
  induction name generalizing acc i with
  | nil => simp [id_loop, hd]
  | cons c name ih =>
    have hc := hname c (List.mem_cons_self _ _)
    have hpush : (String.mk acc).push c = String.mk (acc ++ [c]) := rfl
    have hstep : id_loop (c :: name ++ d :: rest) (String.mk acc) i
        = id_loop (name ++ d :: rest) (String.mk (acc ++ [c])) (i + 1) := by
      simp only [List.cons_append, id_loop, hc, if_true, hpush]
      rfl
    rw [hstep, ih _ _ (fun c hc => hname c (List.mem_cons_of_mem _ hc))]
    simp only [List.append_assoc, List.singleton_append, List.length_cons]
    congr 1
    omega

theorem id_name {self : Interpreter} {c d : Char} {name rest : List Char}
    (h : At self (c :: name ++ d :: rest)) (hc : isalpha c = true)
    (hname : ∀ c ∈ name, isalnum c = true) (hd : isalnum d = false) :
    id self = .ok (String.mk (c :: name)) (advance self (c :: name).length) := by
  have halnum : isalnum c = true := by
    simp only [isalnum, Char.isAlphanum, Bool.or_eq_true]
    exact Or.inl hc
  have hloop := id_loop_name (c :: name) d rest [] self.indexx
    (by
      intro x hx
      rcases List.mem_cons.mp hx with rfl | hx
      · exact halnum
      · exact hname x hx) hd
  have h' : At self (c :: (name ++ d :: rest)) := h
  simp only [id, h'.peek, hc, if_true, h.2]
  rw [show ("" : String) = String.mk [] from rfl, hloop]
  rfl

theorem isalpha_not_paren {c : Char} (h : isalpha c = true) : c ≠ '(' := by
  intro hp
  rw [hp] at h
  exact absurd h (by decide)

theorem isalpha_not_digit {c : Char} (h : isalpha c = true) : isdigit c = false := by
  simp only [isalpha, Char.isAlpha, Char.isUpper, Char.isLower, Bool.or_eq_true, Bool.and_eq_true,
    decide_eq_true_eq] at h
  simp only [isdigit, Char.isDigit, Bool.and_eq_false_iff, decide_eq_false_iff_not]
  have h1 : ∀ a b : UInt32, a ≤ b ↔ a.toNat ≤ b.toNat := fun a b => Iff.rfl
  have h2 : ∀ a b : UInt32, a ≥ b ↔ b.toNat ≤ a.toNat := fun a b => Iff.rfl
  simp only [h1, h2] at h ⊢
  have e1 : (65 : UInt32).toNat = 65 := rfl
  have e2 : (90 : UInt32).toNat = 90 := rfl
  have e3 : (97 : UInt32).toNat = 97 := rfl
  have e4 : (122 : UInt32).toNat = 122 := rfl
  have e5 : (48 : UInt32).toNat = 48 := rfl
  have e6 : (57 : UInt32).toNat = 57 := rfl
  rw [e1, e2, e3, e4] at h
  rw [e5, e6]
  omega

/-- Reading a declared variable: the factor is the whole identifier, its value the one stored
in the first entry of that name. -/
theorem Fact_variable {fuel : Nat} {self : Interpreter} {c d : Char} {name rest : List Char}
    {v : Int} (h : At self (c :: name ++ d :: rest)) (hc : isalpha c = true)
    (hname : ∀ c ∈ name, isalnum c = true) (hd : isalnum d = false)
    (hv : self.symbolTable.getValue (String.mk (c :: name)) = .ok v) (hf : 1 ≤ fuel) :
    Fact fuel self = .ok v (advance self (c :: name).length) := by
  obtain ⟨f, rfl⟩ : ∃ f, fuel = f + 1 := ⟨fuel - 1, by omega⟩
  have h' : At self (c :: (name ++ d :: rest)) := h
  have hv' : (advance self (c :: name).length).symbolTable.getValue (String.mk (c :: name))
      = .ok v := hv
  simp only [Fact, h'.peek, isalpha_not_paren hc, if_false, isalpha_not_digit hc, hc, if_true,
    id_name h hc hname hd, hv']
  simp

/-- Reading an undeclared variable: the factor throws the error that names it, and nothing
has been written to `cout`. -/
theorem Fact_undeclared {fuel : Nat} {self : Interpreter} {c d : Char} {name rest : List Char}
    {what : String} (h : At self (c :: name ++ d :: rest)) (hc : isalpha c = true)
    (hname : ∀ c ∈ name, isalnum c = true) (hd : isalnum d = false)
    (hv : self.symbolTable.getValue (String.mk (c :: name)) = .error what) (hf : 1 ≤ fuel) :
    Fact fuel self = .halt (.runtime_error what) (advance self (c :: name).length) := by
  obtain ⟨f, rfl⟩ : ∃ f, fuel = f + 1 := ⟨fuel - 1, by omega⟩
  have h' : At self (c :: (name ++ d :: rest)) := h
  have hv' : (advance self (c :: name).length).symbolTable.getValue (String.mk (c :: name))
      = .error what := hv
  simp only [Fact, h'.peek, isalpha_not_paren hc, if_false, isalpha_not_digit hc, hc, if_true,
    id_name h hc hname hd, hv']
  simp

theorem Exp_variable {fuel : Nat} {self : Interpreter} {c d : Char} {name rest : List Char}
    {v : Int} (h : At self (c :: name ++ d :: rest)) (hc : isalpha c = true)
    (hname : ∀ c ∈ name, isalnum c = true) (hd : isalnum d = false)
    (hv : self.symbolTable.getValue (String.mk (c :: name)) = .ok v)
    (h1 : d ≠ '^') (h2 : d ≠ '*') (h3 : d ≠ '/') (h4 : d ≠ '+') (h5 : d ≠ '-')
    (hf : 4 ≤ fuel) :
    Exp fuel self = .ok v (advance self (c :: name).length) := by
  obtain ⟨f, rfl⟩ : ∃ f, fuel = f + 4 := ⟨fuel - 4, by omega⟩
  have hafter : At (advance self (c :: name).length) (d :: rest) :=
    At.advance (a := c :: name) h
  have hF : Fact (f + 1) self = .ok v (advance self (c :: name).length) :=
    Fact_variable h hc hname hd hv (by omega)
  have hP : Power (f + 2) self = .ok v (advance self (c :: name).length) := by
    rw [Power_of_Fact hF]; exact Power_loop_stop _ hafter h1
  have hT : Term (f + 3) self = .ok v (advance self (c :: name).length) := by
    rw [Term_of_Power hP]; exact Term2_stop _ hafter h2 h3
  rw [Exp_of_Term hT]
  exact Exp2_stop _ hafter h4 h5

/-! ## One-step lemmas for statements and declarations -/

theorem print_st_ok {fuel : Nat} {self s1 : Interpreter} {v : Int} {rest : List Char}
    (he : Exp fuel (advance self 5) = .ok v s1) (h1 : At s1 (';' :: rest)) :
    print_st fuel self = .ok () (advance { s1 with cout := s1.cout ++ [toString v] } 1) := by
  have hp : peek { s1 with cout := s1.cout ++ [toString v] } = some ';' := h1.peek
  simp only [print_st, he, hp, if_true]

theorem assign_st_ok {fuel : Nat} {self s1 s2 : Interpreter} {name : String} {v : Int}
    {r1 r2 : List Char} {t : SymbolTable}
    (hid : id self = .ok name s1) (h1 : At s1 ('=' :: r1))
    (he : Exp fuel (advance s1 1) = .ok v s2)
    (hset : s2.symbolTable.setValue name v = (t, .ok ())) (h2 : At s2 (';' :: r2)) :
    assign_st fuel self = .ok () (advance { s2 with symbolTable := t } 1) := by
  have hp : peek { s2 with symbolTable := t } = some ';' := h2.peek
  simp only [assign_st, hid, h1.peek, if_true, he, hset, hp]

theorem statement_print {fuel : Nat} {self : Interpreter} {rest : List Char}
    (h : At self ('p' :: 'r' :: 'i' :: 'n' :: 't' :: rest)) :
    statement fuel self = print_st fuel self := by
  simp [statement, h.substr, List.take]

theorem statement_assign {fuel : Nat} {self : Interpreter} {rest : List Char}
    (h : At self rest) (hne : rest.take 5 ≠ ['p', 'r', 'i', 'n', 't']) :
    statement fuel self = assign_st fuel self := by
  simp [statement, h.substr, hne]

theorem statements_step {fuel : Nat} {self s1 : Interpreter} {rest : List Char}
    (h : At self rest) (hne : rest.take 3 ≠ ['e', 'n', 'd'])
    (hs : statement fuel self = .ok () s1) :
    statements (fuel + 1) self = statements fuel s1 := by
  simp [statements, h.substr, hne, hs]

theorem statements_end {fuel : Nat} {self : Interpreter} {rest : List Char}
    (h : At self ('e' :: 'n' :: 'd' :: rest)) :
    statements (fuel + 1) self = .ok () self := by
  simp [statements, h.substr, List.take]

/-- The program `program int a; begin a=E; print a; end`, where the text `E` is an expression
that `Exp` evaluates to `v` whenever it is followed by `;`: the run succeeds, stores `v` in
`a`, and writes the decimal of `v` and then the confirmation line. -/
theorem prog_assign_print (E : List Char) (v : Int) (K : Nat)
    (hE : ∀ fuel, K ≤ fuel → ∀ (self : Interpreter) (tail : List Char),
      At self (E ++ ';' :: tail) → Exp fuel self = .ok v (advance self E.length))
    (fuel : Nat) (hfuel : K + 8 ≤ fuel) :
    prog fuel ⟨"programinta;begina=".toList ++ E ++ ";printa;end".toList, 0, ⟨[]⟩, []⟩
      = .ok () ⟨"programinta;begina=".toList ++ E ++ ";printa;end".toList,
          ("programinta;begina=".toList ++ E ++ ";printa;end".toList).length,
          ⟨[⟨"a", "int", v⟩]⟩, [toString v, confirmation]⟩ := by
  obtain ⟨f, rfl⟩ : ∃ f, fuel = f + 8 := ⟨fuel - 8, by omega⟩
  have hP : "programinta;begina=".toList = ['p', 'r', 'o', 'g', 'r', 'a', 'm', 'i', 'n', 't',
      'a', ';', 'b', 'e', 'g', 'i', 'n', 'a', '='] := rfl
  have hS : ";printa;end".toList = [';', 'p', 'r', 'i', 'n', 't', 'a', ';', 'e', 'n', 'd'] := rfl
  rw [hP, hS]
  generalize htext : (['p', 'r', 'o', 'g', 'r', 'a', 'm', 'i', 'n', 't',
      'a', ';', 'b', 'e', 'g', 'i', 'n', 'a', '='] ++ E
      ++ [';', 'p', 'r', 'i', 'n', 't', 'a', ';', 'e', 'n', 'd'] : List Char) = text
  have htext' : text = 'p' :: 'r' :: 'o' :: 'g' :: 'r' :: 'a' :: 'm' :: 'i' :: 'n' :: 't' ::
      'a' :: ';' :: 'b' :: 'e' :: 'g' :: 'i' :: 'n' :: 'a' :: '=' ::
      (E ++ ';' :: 'p' :: 'r' :: 'i' :: 'n' :: 't' :: 'a' :: ';' :: 'e' :: 'n' :: ['d']) := by
    rw [← htext]; simp
  have hlen : text.length = 19 + E.length + 11 := by
    rw [← htext]; simp; omega
  have c1 : isalpha 'a' = true := by decide
  have c2 : isalnum 'a' = true := by decide
  have c3 : isalnum ';' = false := by decide
  have c4 : isalnum '=' = false := by decide
  have c5 : "".push 'a' = "a" := rfl
  have hdecl : declarations (f + 8) ⟨text, 7, ⟨[]⟩, []⟩
      = .ok () ⟨text, 12, ⟨[⟨"a", "int", 0⟩]⟩, []⟩ := by
    rw [htext']
    simp [declarations, declaration, type, id_list, id, id_loop, peek, advance, substr,
      SymbolTable.addVariable, c1, c2, c3, c5]
  -- the text at the positions the statements visit
  have a17 : ∀ t o, At ⟨text, 17, t, o⟩ ('a' :: '=' ::
      (E ++ ';' :: 'p' :: 'r' :: 'i' :: 'n' :: 't' :: 'a' :: ';' :: 'e' :: 'n' :: ['d'])) := by
    intro t o
    refine ⟨by show 17 ≤ text.length; omega, ?_⟩
    show text.drop 17 = _
    rw [htext']; rfl
  have a18 : ∀ t o, At ⟨text, 18, t, o⟩ ('=' ::
      (E ++ ';' :: 'p' :: 'r' :: 'i' :: 'n' :: 't' :: 'a' :: ';' :: 'e' :: 'n' :: ['d'])) :=
    fun t o => (a17 t o).step
  have a19 : ∀ t o, At ⟨text, 19, t, o⟩
      (E ++ ';' :: 'p' :: 'r' :: 'i' :: 'n' :: 't' :: 'a' :: ';' :: 'e' :: 'n' :: ['d']) :=
    fun t o => (a18 t o).step
  have b0 : ∀ t o, At ⟨text, 19 + E.length, t, o⟩
      (';' :: 'p' :: 'r' :: 'i' :: 'n' :: 't' :: 'a' :: ';' :: 'e' :: 'n' :: ['d']) :=
    fun t o => (a19 t o).advance
  have b1 : ∀ t o, At ⟨text, 19 + E.length + 1, t, o⟩
      ('p' :: 'r' :: 'i' :: 'n' :: 't' :: 'a' :: ';' :: 'e' :: 'n' :: ['d']) :=
    fun t o => (b0 t o).step
  have b6 : ∀ t o, At ⟨text, 19 + E.length + 1 + 5, t, o⟩ ('a' :: [] ++ ';' :: 'e' :: 'n' :: ['d']) :=
    fun t o => At.advance (a := ['p', 'r', 'i', 'n', 't']) (b1 t o)
  have b7 : ∀ t o, At ⟨text, 19 + E.length + 1 + 5 + 1, t, o⟩ (';' :: 'e' :: 'n' :: ['d']) :=
    fun t o => At.advance (a := ['a']) (b6 t o)
  have b8 : ∀ t o, At ⟨text, 19 + E.length + 1 + 5 + 1 + 1, t, o⟩ ('e' :: 'n' :: 'd' :: []) :=
    fun t o => (b7 t o).step
  -- the assignment
  have hid : id ⟨text, 17, ⟨[⟨"a", "int", 0⟩]⟩, []⟩
      = .ok "a" ⟨text, 18, ⟨[⟨"a", "int", 0⟩]⟩, []⟩ :=
    @id_name _ _ _ [] _ (a17 _ _) c1 (by simp) c4
  have hassign : statement (f + 7) ⟨text, 17, ⟨[⟨"a", "int", 0⟩]⟩, []⟩
      = .ok () ⟨text, 19 + E.length + 1, ⟨[⟨"a", "int", v⟩]⟩, []⟩ := by
    rw [statement_assign (a17 _ _) (by simp)]
    exact assign_st_ok hid (a18 _ _) (hE (f + 7) (by omega) _ _ (a19 _ _)) rfl (b0 _ _)
  -- the print statement
  have hprint : statement (f + 6) ⟨text, 19 + E.length + 1, ⟨[⟨"a", "int", v⟩]⟩, []⟩
      = .ok () ⟨text, 19 + E.length + 1 + 5 + 1 + 1, ⟨[⟨"a", "int", v⟩]⟩, [toString v]⟩ := by
    rw [statement_print (b1 _ _)]
    have hv : Exp (f + 6) (advance ⟨text, 19 + E.length + 1, ⟨[⟨"a", "int", v⟩]⟩, []⟩ 5)
        = .ok v ⟨text, 19 + E.length + 1 + 5 + 1, ⟨[⟨"a", "int", v⟩]⟩, []⟩ :=
      @Exp_variable _ _ _ _ [] _ _ (b6 _ _) c1 (by simp) c3 (by simp [SymbolTable.getValue,
        SymbolTable.getValueFrom]) (by decide) (by decide) (by decide) (by decide) (by decide)
        (by omega)
    exact print_st_ok hv (b7 _ _)
  have hstmts : statements (f + 8) ⟨text, 17, ⟨[⟨"a", "int", 0⟩]⟩, []⟩
      = .ok () ⟨text, 19 + E.length + 1 + 5 + 1 + 1, ⟨[⟨"a", "int", v⟩]⟩, [toString v]⟩ := by
    rw [statements_step (a17 _ _) (by simp) hassign,
      statements_step (b1 _ _) (by simp) hprint]
    exact statements_end (b8 _ _)
  have hend : substr ⟨text, 19 + E.length + 1 + 5 + 1 + 1, ⟨[⟨"a", "int", v⟩]⟩, [toString v]⟩ 3
      = some ['e', 'n', 'd'] := (b8 _ _).substr 3
  have hbegin : substr ⟨text, 12, ⟨[⟨"a", "int", 0⟩]⟩, []⟩ 5 = some ['b', 'e', 'g', 'i', 'n'] := by
    rw [htext']; simp [substr]
  have hprogram : substr ⟨text, 0, ⟨[]⟩, []⟩ 7 = some ['p', 'r', 'o', 'g', 'r', 'a', 'm'] := by
    rw [htext']; simp [substr]
  have e1 : "program".toList = ['p', 'r', 'o', 'g', 'r', 'a', 'm'] := rfl
  have e2 : "begin".toList = ['b', 'e', 'g', 'i', 'n'] := rfl
  have e3 : "end".toList = ['e', 'n', 'd'] := rfl
  have hadv7 : advance ⟨text, 0, ⟨[]⟩, []⟩ 7 = ⟨text, 7, ⟨[]⟩, []⟩ := rfl
  have hadv5 : advance ⟨text, 12, ⟨[⟨"a", "int", 0⟩]⟩, []⟩ 5
      = ⟨text, 17, ⟨[⟨"a", "int", 0⟩]⟩, []⟩ := rfl
  simp only [prog, hprogram, e1, e2, e3, if_true, hadv7, hdecl, hbegin, hadv5, hstmts, hend]
  simp only [advance, hlen, List.nil_append, List.singleton_append]

theorem removeSpaces_literal (n : Nat) : removeSpaces (literal n) = literal n := by
  apply List.filter_eq_self.mpr
  intro c hc
  have hd := (literal_spec n).2.1 c hc
  simp only [isdigit, Char.isDigit, Bool.and_eq_true, decide_eq_true_eq] at hd
  have h1 : ∀ a b : UInt32, a ≥ b ↔ b.toNat ≤ a.toNat := fun a b => Iff.rfl
  have h2 : ∀ a b : UInt32, a ≤ b ↔ a.toNat ≤ b.toNat := fun a b => Iff.rfl
  rw [h1, h2] at hd
  have e5 : (48 : UInt32).toNat = 48 := rfl
  have e6 : (57 : UInt32).toNat = 57 := rfl
  rw [e5, e6] at hd
  have hne : c ≠ ' ' := by
    intro h
    rw [h] at hd
    exact absurd hd.1 (by decide)
  have hn : c.toNat = c.val.toNat := rfl
  simp only [isspace, Bool.not_eq_true', Bool.or_eq_false_iff, decide_eq_false_iff_not,
    Bool.and_eq_false_iff, not_le, hn]
  exact ⟨hne, Or.inr (by omega)⟩

theorem removeSpaces_append (a b : List Char) :
    removeSpaces (a ++ b) = removeSpaces a ++ removeSpaces b := by
  simp [removeSpaces]

/-- The run of `program int a; begin a=E; print a; end` (with whatever white space), for an
expression text `E` as in `prog_assign_print`. -/
theorem run_assign_print (input : String) (E : List Char) (v : Int) (K : Nat)
    (htext : removeSpaces input.toList = "programinta;begina=".toList ++ E ++ ";printa;end".toList)
    (hE : ∀ fuel, K ≤ fuel → ∀ (self : Interpreter) (tail : List Char),
      At self (E ++ ';' :: tail) → Exp fuel self = .ok v (advance self E.length))
    (hK : K ≤ 100) :
    run input = .ok () ⟨removeSpaces input.toList, (removeSpaces input.toList).length,
      ⟨[⟨"a", "int", v⟩]⟩, [toString v, confirmation]⟩ := by
  simp only [run, Interpreter.new, budget]
  rw [htext]
  apply prog_assign_print E v K hE
  simp only [List.length_append]
  have : "programinta;begina=".toList.length = 19 := rfl
  omega

/-! ## Precedence, associativity, parentheses -/

theorem literal_length_pos (n : Nat) : 0 < (literal n).length :=
  List.length_pos.mpr (literal_spec n).1

/-- The expression `x+y*z` followed by `;`: the product is formed first. -/
theorem Exp_sum_product (x y z : Nat) (hx : (x : Int) ≤ INT_MAX) (hy : (y : Int) ≤ INT_MAX)
    (hz : (z : Int) ≤ INT_MAX) (hyz : ((y * z : Nat) : Int) ≤ INT_MAX)
    (hxyz : ((x + y * z : Nat) : Int) ≤ INT_MAX)
    (fuel : Nat) (hf : 6 ≤ fuel) (self : Interpreter) (tail : List Char)
    (h : At self ((literal x ++ '+' :: (literal y ++ '*' :: literal z)) ++ ';' :: tail)) :
    Exp fuel self = .ok ((x + y * z : Nat) : Int)
      (advance self (literal x ++ '+' :: (literal y ++ '*' :: literal z)).length) := by
  obtain ⟨f, rfl⟩ : ∃ f, fuel = f + 6 := ⟨fuel - 6, by omega⟩
  have hx0 : At self (literal x ++ '+' :: (literal y ++ '*' :: (literal z ++ ';' :: tail))) := by
    simpa using h
  have hx1 := hx0.advance
  have hy0 := hx1.step
  have hy1 := hy0.advance
  have hz0 := hy1.step
  have hz1 := hz0.advance
  have tx : Term (f + 5) self = .ok (x : Int) _ :=
    Term_literal hx0 (by decide) hx (by decide) (by decide) (by decide) (by omega)
  have py : Power (f + 3) _ = .ok (y : Int) _ :=
    Power_literal hy0 (by decide) hy (by decide) (by omega)
  have pz : Power (f + 2) _ = .ok (z : Int) _ :=
    Power_literal hz0 (by decide) hz (by decide) (by omega)
  have w1 : wrap32 ((y : Int) * (z : Int)) = ((y * z : Nat) : Int) := by
    rw [← Int.ofNat_mul]
    exact wrap32_of_range _ (by unfold INT_MIN; omega) hyz
  have w2 : wrap32 ((x : Int) + ((y * z : Nat) : Int)) = ((x + y * z : Nat) : Int) := by
    rw [← Int.ofNat_add]
    exact wrap32_of_range _ (by unfold INT_MIN; omega) hxyz
  have ty : Term (f + 4) (advance (advance self (literal x).length) 1)
      = .ok ((y * z : Nat) : Int) (advance (advance (advance (advance (advance self
          (literal x).length) 1) (literal y).length) 1) (literal z).length) := by
    rw [Term_of_Power py, Term2_times _ hy1 pz, w1]
    exact Term2_stop _ hz1 (by decide) (by decide)
  rw [Exp_of_Term tx, Exp2_plus _ hx1 ty, w2, Exp2_stop _ hz1 (by decide) (by decide)]
  simp only [advance_advance, List.length_append, List.length_cons]
  refine congrArg (Outcome.ok _) (congrArg (advance self) ?_)
  omega

/-- C1: for literals `x`, `y`, `z` whose values and results fit an `int`, the program
`program int a; begin a=x+y*z; print a; end` runs to the end and writes one value line, the
decimal of `x+(y*z)`, followed by the confirmation line. -/
theorem precedence_mul_over_add (x y z : Nat) (hx : (x : Int) ≤ INT_MAX)
    (hy : (y : Int) ≤ INT_MAX) (hz : (z : Int) ≤ INT_MAX)
    (hyz : ((y * z : Nat) : Int) ≤ INT_MAX) (hxyz : ((x + y * z : Nat) : Int) ≤ INT_MAX) :
    (run ("program int a; begin a=" ++ toString x ++ "+" ++ toString y ++ "*" ++ toString z
      ++ "; print a; end")).isOk = true ∧
    (run ("program int a; begin a=" ++ toString x ++ "+" ++ toString y ++ "*" ++ toString z
      ++ "; print a; end")).state.cout = [toString (x + y * z), confirmation] := by
  have htext : removeSpaces ("program int a; begin a=" ++ toString x ++ "+" ++ toString y ++ "*"
      ++ toString z ++ "; print a; end").toList
      = "programinta;begina=".toList ++ (literal x ++ '+' :: (literal y ++ '*' :: literal z))
        ++ ";printa;end".toList := by
    have e1 : removeSpaces "program int a; begin a=".toList = "programinta;begina=".toList := by
      decide
    have e2 : removeSpaces "; print a; end".toList = ";printa;end".toList := by decide
    have e3 : removeSpaces "+".toList = ['+'] := by decide
    have e4 : removeSpaces "*".toList = ['*'] := by decide
    have l1 : ∀ n : Nat, (toString n).toList = literal n := fun _ => rfl
    have l2 : ∀ s t : String, (s ++ t).toList = s.toList ++ t.toList := fun _ _ => rfl
    simp only [l2, removeSpaces_append, e1, e2, e3, e4, l1,
      removeSpaces_literal]
    simp
  have hrun := run_assign_print _ _ _ 6 htext
    (fun fuel hf self tail h => Exp_sum_product x y z hx hy hz hyz hxyz fuel hf self tail h)
    (by omega)
  rw [hrun]
  exact ⟨rfl, rfl⟩

theorem precedence_mul_over_add_witness :
    (run "program int a; begin a=2+3*4; print a; end").isOk = true ∧
    (run "program int a; begin a=2+3*4; print a; end").state.cout = ["14", confirmation] :=
  precedence_mul_over_add 2 3 4 (by decide) (by decide) (by decide) (by decide) (by decide)

/-- The text of `program int a; begin a=E; print a; end` as `run` sees it, for an input whose
pieces are the three given strings. -/
theorem assign_print_text (E : String) (E' : List Char) (hE : removeSpaces E.toList = E') :
    removeSpaces ("program int a; begin a=" ++ E ++ "; print a; end").toList
      = "programinta;begina=".toList ++ E' ++ ";printa;end".toList := by
  have e1 : removeSpaces "program int a; begin a=".toList = "programinta;begina=".toList := by
    decide
  have e2 : removeSpaces "; print a; end".toList = ";printa;end".toList := by decide
  have l2 : ∀ s t : String, (s ++ t).toList = s.toList ++ t.toList := fun _ _ => rfl
  simp only [l2, removeSpaces_append, e1, e2, hE]

/-- The expression `(x+y)*z` followed by `;`: the parenthesised sum is formed first. -/
theorem Exp_paren_sum_product (x y z : Nat) (hx : (x : Int) ≤ INT_MAX)
    (hy : (y : Int) ≤ INT_MAX) (hz : (z : Int) ≤ INT_MAX)
    (hxy : ((x + y : Nat) : Int) ≤ INT_MAX) (hxyz : (((x + y) * z : Nat) : Int) ≤ INT_MAX)
    (fuel : Nat) (hf : 9 ≤ fuel) (self : Interpreter) (tail : List Char)
    (h : At self (('(' :: (literal x ++ '+' :: (literal y ++ ')' :: '*' :: literal z)))
      ++ ';' :: tail)) :
    Exp fuel self = .ok (((x + y) * z : Nat) : Int)
      (advance self ('(' :: (literal x ++ '+' :: (literal y ++ ')' :: '*' :: literal z))).length)
    := by
  obtain ⟨f, rfl⟩ : ∃ f, fuel = f + 9 := ⟨fuel - 9, by omega⟩
  have hp0 : At self ('(' :: (literal x ++ '+' :: (literal y ++ ')' :: '*' ::
      (literal z ++ ';' :: tail)))) := by
    simpa using h
  have hx0 := hp0.step
  have hx1 := hx0.advance
  have hy0 := hx1.step
  have hy1 := hy0.advance
  have hs0 := hy1.step
  have hz0 := hs0.step
  have hz1 := hz0.advance
  have tx : Term (f + 4) (advance self 1) = .ok (x : Int) (advance (advance self 1)
      (literal x).length) :=
    Term_literal hx0 (by decide) hx (by decide) (by decide) (by decide) (by omega)
  have ty : Term (f + 3) (advance (advance (advance self 1) (literal x).length) 1)
      = .ok (y : Int) (advance (advance (advance (advance self 1) (literal x).length) 1)
          (literal y).length) :=
    Term_literal hy0 (by decide) hy (by decide) (by decide) (by decide) (by omega)
  have w1 : wrap32 ((x : Int) + (y : Int)) = ((x + y : Nat) : Int) := by
    rw [← Int.ofNat_add]
    exact wrap32_of_range _ (by unfold INT_MIN; omega) hxy
  have w2 : wrap32 (((x + y : Nat) : Int) * (z : Int)) = (((x + y) * z : Nat) : Int) := by
    rw [← Int.ofNat_mul]
    exact wrap32_of_range _ (by unfold INT_MIN; omega) hxyz
  have ex : Exp (f + 5) (advance self 1) = .ok ((x + y : Nat) : Int)
      (advance (advance (advance (advance self 1) (literal x).length) 1) (literal y).length) := by
    rw [Exp_of_Term tx, Exp2_plus _ hx1 ty, w1]
    exact Exp2_stop _ hy1 (by decide) (by decide)
  have fp := Fact_paren hp0 ex
  have pp : Power (f + 7) self = .ok ((x + y : Nat) : Int) (advance (advance (advance (advance
      (advance self 1) (literal x).length) 1) (literal y).length) 1) := by
    rw [Power_of_Fact fp]
    exact Power_loop_stop _ hs0 (by decide)
  have pz : Power (f + 6) (advance (advance (advance (advance (advance (advance self 1)
      (literal x).length) 1) (literal y).length) 1) 1) = .ok (z : Int) (advance (advance
      (advance (advance (advance (advance (advance self 1) (literal x).length) 1)
      (literal y).length) 1) 1) (literal z).length) :=
    Power_literal hz0 (by decide) hz (by decide) (by omega)
  have tt : Term (f + 8) self = .ok (((x + y) * z : Nat) : Int) (advance (advance
      (advance (advance (advance (advance (advance self 1) (literal x).length) 1)
      (literal y).length) 1) 1) (literal z).length) := by
    rw [Term_of_Power pp, Term2_times _ hs0 pz, w2]
    exact Term2_stop _ hz1 (by decide) (by decide)
  rw [Exp_of_Term tt, Exp2_stop _ hz1 (by decide) (by decide)]
  simp only [advance_advance, List.length_append, List.length_cons]
  refine congrArg (Outcome.ok _) (congrArg (advance self) ?_)
  omega

/-- C5: for literals `x`, `y`, `z` whose values and results fit an `int`, the program
`program int a; begin a=(x+y)*z; print a; end` runs to the end and writes the decimal of
`(x+y)*z`, followed by the confirmation line. -/
theorem parentheses_override_precedence (x y z : Nat) (hx : (x : Int) ≤ INT_MAX)
    (hy : (y : Int) ≤ INT_MAX) (hz : (z : Int) ≤ INT_MAX)
    (hxy : ((x + y : Nat) : Int) ≤ INT_MAX) (hxyz : (((x + y) * z : Nat) : Int) ≤ INT_MAX) :
    (run ("program int a; begin a=" ++ ("(" ++ toString x ++ "+" ++ toString y ++ ")*"
      ++ toString z) ++ "; print a; end")).isOk = true ∧
    (run ("program int a; begin a=" ++ ("(" ++ toString x ++ "+" ++ toString y ++ ")*"
      ++ toString z) ++ "; print a; end")).state.cout
        = [toString ((x + y) * z), confirmation] := by
  have hE : removeSpaces ("(" ++ toString x ++ "+" ++ toString y ++ ")*" ++ toString z).toList
      = '(' :: (literal x ++ '+' :: (literal y ++ ')' :: '*' :: literal z)) := by
    have e1 : removeSpaces "(".toList = ['('] := by decide
    have e3 : removeSpaces "+".toList = ['+'] := by decide
    have e4 : removeSpaces ")*".toList = [')', '*'] := by decide
    have l1 : ∀ n : Nat, (toString n).toList = literal n := fun _ => rfl
    have l2 : ∀ s t : String, (s ++ t).toList = s.toList ++ t.toList := fun _ _ => rfl
    simp only [l2, removeSpaces_append, e1, e3, e4, l1, removeSpaces_literal]
    simp
  have hrun := run_assign_print _ _ _ 9 (assign_print_text _ _ hE)
    (fun fuel hf self tail h =>
      Exp_paren_sum_product x y z hx hy hz hxy hxyz fuel hf self tail h)
    (by omega)
  rw [hrun]
  exact ⟨rfl, rfl⟩

theorem parentheses_override_precedence_witness :
    (run "program int a; begin a=(2+3)*4; print a; end").isOk = true ∧
    (run "program int a; begin a=(2+3)*4; print a; end").state.cout = ["20", confirmation] :=
  parentheses_override_precedence 2 3 4 (by decide) (by decide) (by decide) (by decide)
    (by decide)

theorem pow_of_nat (a b : Nat) (h : ((a ^ b : Nat) : Int) ≤ INT_MAX) :
    pow (a : Int) (b : Int) = some ((a ^ b : Nat) : Int) := by
  have h0 : (0 : Int) ≤ (b : Int) := Int.ofNat_nonneg b
  have h1 : INT_MIN ≤ ((a ^ b : Nat) : Int) := by unfold INT_MIN; omega
  have hc : (a : Int) ^ b = ((a ^ b : Nat) : Int) := (Nat.cast_pow a b).symm
  simp only [pow, h0, if_true, Int.toNat_ofNat, hc, h, h1, and_self]

/-- The expression `x^y^z` followed by `;`: the right-hand power is formed first. -/
theorem Exp_power_tower (x y z : Nat) (hx : (x : Int) ≤ INT_MAX)
    (hy : (y : Int) ≤ INT_MAX) (hz : (z : Int) ≤ INT_MAX)
    (hyz : ((y ^ z : Nat) : Int) ≤ INT_MAX) (hxyz : ((x ^ y ^ z : Nat) : Int) ≤ INT_MAX)
    (fuel : Nat) (hf : 9 ≤ fuel) (self : Interpreter) (tail : List Char)
    (h : At self ((literal x ++ '^' :: (literal y ++ '^' :: literal z)) ++ ';' :: tail)) :
    Exp fuel self = .ok ((x ^ y ^ z : Nat) : Int)
      (advance self (literal x ++ '^' :: (literal y ++ '^' :: literal z)).length) := by
  obtain ⟨f, rfl⟩ : ∃ f, fuel = f + 9 := ⟨fuel - 9, by omega⟩
  have hx0 : At self (literal x ++ '^' :: (literal y ++ '^' :: (literal z ++ ';' :: tail))) := by
    simpa using h
  have hx1 := hx0.advance
  have hy0 := hx1.step
  have hy1 := hy0.advance
  have hz0 := hy1.step
  have hz1 := hz0.advance
  have fx : Fact (f + 6) self = .ok (x : Int) (advance self (literal x).length) :=
    Fact_literal hx0 (by decide) hx (by omega)
  have fy : Fact (f + 4) (advance (advance self (literal x).length) 1) = .ok (y : Int)
      (advance (advance (advance self (literal x).length) 1) (literal y).length) :=
    Fact_literal hy0 (by decide) hy (by omega)
  have pz : Power (f + 3) (advance (advance (advance (advance self (literal x).length) 1)
      (literal y).length) 1) = .ok (z : Int) (advance (advance (advance (advance (advance self
      (literal x).length) 1) (literal y).length) 1) (literal z).length) :=
    Power_literal hz0 (by decide) hz (by decide) (by omega)
  have py : Power (f + 5) (advance (advance self (literal x).length) 1)
      = .ok ((y ^ z : Nat) : Int) (advance (advance (advance (advance (advance self
      (literal x).length) 1) (literal y).length) 1) (literal z).length) := by
    rw [Power_of_Fact fy, Power_loop_caret _ hy1 pz (pow_of_nat y z hyz)]
    exact Power_loop_stop _ hz1 (by decide)
  have px : Power (f + 7) self = .ok ((x ^ y ^ z : Nat) : Int) (advance (advance (advance
      (advance (advance self (literal x).length) 1) (literal y).length) 1) (literal z).length)
      := by
    rw [Power_of_Fact fx, Power_loop_caret _ hx1 py (pow_of_nat x (y ^ z) hxyz)]
    exact Power_loop_stop _ hz1 (by decide)
  have tx : Term (f + 8) self = .ok ((x ^ y ^ z : Nat) : Int) (advance (advance (advance
      (advance (advance self (literal x).length) 1) (literal y).length) 1) (literal z).length)
      := by
    rw [Term_of_Power px]
    exact Term2_stop _ hz1 (by decide) (by decide)
  rw [Exp_of_Term tx, Exp2_stop _ hz1 (by decide) (by decide)]
  simp only [advance_advance, List.length_append, List.length_cons]
  refine congrArg (Outcome.ok _) (congrArg (advance self) ?_)
  omega

/-- C2, as amended: for literals `x`, `y`, `z` that fit an `int` and with both `y^z` and
`x^(y^z)` in the range of `int`, the program `program int a; begin a=x^y^z; print a; end` runs
to the end and writes the decimal of `x^(y^z)`, followed by the confirmation line. -/
theorem power_right_associative (x y z : Nat) (hx : (x : Int) ≤ INT_MAX)
    (hy : (y : Int) ≤ INT_MAX) (hz : (z : Int) ≤ INT_MAX)
    (hyz : ((y ^ z : Nat) : Int) ≤ INT_MAX) (hxyz : ((x ^ y ^ z : Nat) : Int) ≤ INT_MAX) :
    (run ("program int a; begin a=" ++ (toString x ++ "^" ++ toString y ++ "^" ++ toString z)
      ++ "; print a; end")).isOk = true ∧
    (run ("program int a; begin a=" ++ (toString x ++ "^" ++ toString y ++ "^" ++ toString z)
      ++ "; print a; end")).state.cout = [toString (x ^ y ^ z), confirmation] := by
  have hE : removeSpaces (toString x ++ "^" ++ toString y ++ "^" ++ toString z).toList
      = literal x ++ '^' :: (literal y ++ '^' :: literal z) := by
    have e3 : removeSpaces "^".toList = ['^'] := by decide
    have l1 : ∀ n : Nat, (toString n).toList = literal n := fun _ => rfl
    have l2 : ∀ s t : String, (s ++ t).toList = s.toList ++ t.toList := fun _ _ => rfl
    simp only [l2, removeSpaces_append, e3, l1, removeSpaces_literal]
    simp
  have hrun := run_assign_print _ _ _ 9 (assign_print_text _ _ hE)
    (fun fuel hf self tail h => Exp_power_tower x y z hx hy hz hyz hxyz fuel hf self tail h)
    (by omega)
  rw [hrun]
  exact ⟨rfl, rfl⟩

theorem power_right_associative_witness :
    (run "program int a; begin a=2^3^2; print a; end").isOk = true ∧
    (run "program int a; begin a=2^3^2; print a; end").state.cout = ["512", confirmation] :=
  power_right_associative 2 3 2 (by decide) (by decide) (by decide) (by decide) (by decide)

/-- C2 as stated fails: `0^(2^31)` is `0`, in the range of `int`, but on `a=0^2^31` the inner
power `2^31` does not fit an `int`; the run stops at its conversion, with `a` still 0 and
nothing written, so it does not print `0`. -/
theorem power_tower_inner_overflow :
    (((0 ^ 2 ^ 31 : Nat) : Int) ≤ INT_MAX) ∧
    run "program int a; begin a=0^2^31; print a; end"
      = .halt (.undefined .narrowing)
          ⟨"programinta;begina=0^2^31;printa;end".toList, 25, ⟨[⟨"a", "int", 0⟩]⟩, []⟩ := by
  refine ⟨?_, by decide⟩
  rw [Nat.zero_pow (Nat.pos_pow_of_pos 31 (by decide))]
  decide

/-! ## Left-to-right folding of operator chains -/

theorem addChain_next (ops : List (AddOp × Nat)) (tail : List Char) :
    ∃ c tl, addChain ops ++ ';' :: tail = c :: tl ∧ (c = '+' ∨ c = '-' ∨ c = ';') := by
  cases ops with
  | nil => exact ⟨';', tail, rfl, Or.inr (Or.inr rfl)⟩
  | cons p ops =>
    obtain ⟨op, n⟩ := p
    cases op
    · exact ⟨'+', _, rfl, Or.inl rfl⟩
    · exact ⟨'-', _, rfl, Or.inr (Or.inl rfl)⟩

theorem mulChain_next (ops : List (MulOp × Nat)) (tail : List Char) :
    ∃ c tl, mulChain ops ++ ';' :: tail = c :: tl ∧ (c = '*' ∨ c = '/' ∨ c = ';') := by
  cases ops with
  | nil => exact ⟨';', tail, rfl, Or.inr (Or.inr rfl)⟩
  | cons p ops =>
    obtain ⟨op, n⟩ := p
    cases op
    · exact ⟨'*', _, rfl, Or.inl rfl⟩
    · exact ⟨'/', _, rfl, Or.inr (Or.inl rfl)⟩

theorem Exp2_chain (ops : List (AddOp × Nat)) (acc : Int) (self : Interpreter)
    (tail : List Char) (fuel : Nat)
    (h : At self (addChain ops ++ ';' :: tail))
    (hlit : ∀ p ∈ ops, (p.2 : Int) ≤ INT_MAX)
    (hrange : ∀ j ≤ ops.length, InRange (addFold acc (ops.take j)))
    (hf : ops.length + 4 ≤ fuel) :
    Exp2 fuel acc self = .ok (addFold acc ops) (advance self (addChain ops).length) := by
  induction ops generalizing acc self fuel with
  | nil =>
    obtain ⟨f, rfl⟩ : ∃ f, fuel = f + 1 := ⟨fuel - 1, by omega⟩
    have h' : At self (';' :: tail) := h
    rw [Exp2_stop _ h' (by decide) (by decide)]
    rfl
  | cons p ops ih =>
    obtain ⟨op, n⟩ := p
    obtain ⟨f, rfl⟩ : ∃ f, fuel = f + 1 := ⟨fuel - 1, by omega⟩
    simp only [List.length_cons] at hf
    have h0 : At self (op.char :: (literal n ++ (addChain ops ++ ';' :: tail))) := by
      simpa [addChain] using h
    obtain ⟨c, tl, hc, hcc⟩ := addChain_next ops tail
    have hn : (n : Int) ≤ INT_MAX := hlit (op, n) (List.mem_cons_self _ _)
    have h1 : At (advance self 1) (literal n ++ c :: tl) := by
      rw [← hc]; exact h0.step
    have hcd : isdigit c = false ∧ c ≠ '^' ∧ c ≠ '*' ∧ c ≠ '/' := by
      rcases hcc with rfl | rfl | rfl <;> decide
    have ht : Term f (advance self 1) = .ok (n : Int) (advance (advance self 1)
        (literal n).length) :=
      Term_literal h1 hcd.1 hn hcd.2.1 hcd.2.2.1 hcd.2.2.2 (by omega)
    have h2 : At (advance (advance self 1) (literal n).length) (addChain ops ++ ';' :: tail) := by
      rw [hc]; exact h1.advance
    have hr1 : InRange (op.apply acc n) := by
      have := hrange 1 (by simp)
      simpa [addFold] using this
    have hrest : ∀ j ≤ ops.length, InRange (addFold (op.apply acc n) (ops.take j)) := by
      intro j hj
      have := hrange (j + 1) (by simp; omega)
      simpa [addFold] using this
    have hih := ih (op.apply acc n) _ f h2
      (fun p hp => hlit p (List.mem_cons_of_mem _ hp)) hrest (by omega)
    have hfold : addFold acc ((op, n) :: ops) = addFold (op.apply acc n) ops := rfl
    have hadv : advance self (addChain ((op, n) :: ops)).length
        = advance (advance (advance self 1) (literal n).length) (addChain ops).length := by
      simp only [advance_advance, addChain, List.length_cons, List.length_append]
      exact congrArg (advance self) (by omega)
    rw [hfold, hadv, ← hih]
    cases op with
    | plus =>
      have h0' : At self ('+' :: (literal n ++ (addChain ops ++ ';' :: tail))) := h0
      rw [Exp2_plus _ h0' ht]
      exact congrArg (fun v => Exp2 f v _) (wrap32_of_range _ hr1.1 hr1.2)
    | minus =>
      have h0' : At self ('-' :: (literal n ++ (addChain ops ++ ';' :: tail))) := h0
      rw [Exp2_minus _ h0' ht]
      exact congrArg (fun v => Exp2 f v _) (wrap32_of_range _ hr1.1 hr1.2)

theorem idiv_of_nat (a : Int) (n : Nat) (hn : n ≠ 0) : idiv a (n : Int) = some (Int.tdiv a n) := by
  have h1 : (n : Int) ≠ 0 := by exact_mod_cast hn
  have h2 : ¬ (a = INT_MIN ∧ (n : Int) = -1) := by
    intro h
    have := h.2
    omega
  simp [idiv, h1, h2]

theorem Term2_chain (ops : List (MulOp × Nat)) (acc : Int) (self : Interpreter)
    (tail : List Char) (fuel : Nat)
    (h : At self (mulChain ops ++ ';' :: tail))
    (hlit : ∀ p ∈ ops, (p.2 : Int) ≤ INT_MAX)
    (hdiv : ∀ p ∈ ops, p.1 = MulOp.divide → p.2 ≠ 0)
    (hrange : ∀ j ≤ ops.length, InRange (mulFold acc (ops.take j)))
    (hf : ops.length + 3 ≤ fuel) :
    Term2 fuel acc self = .ok (mulFold acc ops) (advance self (mulChain ops).length) := by
  induction ops generalizing acc self fuel with
  | nil =>
    obtain ⟨f, rfl⟩ : ∃ f, fuel = f + 1 := ⟨fuel - 1, by omega⟩
    have h' : At self (';' :: tail) := h
    rw [Term2_stop _ h' (by decide) (by decide)]
    rfl
  | cons p ops ih =>
    obtain ⟨op, n⟩ := p
    obtain ⟨f, rfl⟩ : ∃ f, fuel = f + 1 := ⟨fuel - 1, by omega⟩
    simp only [List.length_cons] at hf
    have h0 : At self (op.char :: (literal n ++ (mulChain ops ++ ';' :: tail))) := by
      simpa [mulChain] using h
    obtain ⟨c, tl, hc, hcc⟩ := mulChain_next ops tail
    have hn : (n : Int) ≤ INT_MAX := hlit (op, n) (List.mem_cons_self _ _)
    have h1 : At (advance self 1) (literal n ++ c :: tl) := by
      rw [← hc]; exact h0.step
    have hcd : isdigit c = false ∧ c ≠ '^' := by
      rcases hcc with rfl | rfl | rfl <;> decide
    have hp : Power f (advance self 1) = .ok (n : Int) (advance (advance self 1)
        (literal n).length) :=
      Power_literal h1 hcd.1 hn hcd.2 (by omega)
    have h2 : At (advance (advance self 1) (literal n).length) (mulChain ops ++ ';' :: tail) := by
      rw [hc]; exact h1.advance
    have hr1 : InRange (op.apply acc n) := by
      have := hrange 1 (by simp)
      simpa [mulFold] using this
    have hrest : ∀ j ≤ ops.length, InRange (mulFold (op.apply acc n) (ops.take j)) := by
      intro j hj
      have := hrange (j + 1) (by simp; omega)
      simpa [mulFold] using this
    have hih := ih (op.apply acc n) _ f h2
      (fun p hp => hlit p (List.mem_cons_of_mem _ hp))
      (fun p hp => hdiv p (List.mem_cons_of_mem _ hp)) hrest (by omega)
    have hfold : mulFold acc ((op, n) :: ops) = mulFold (op.apply acc n) ops := rfl
    have hadv : advance self (mulChain ((op, n) :: ops)).length
        = advance (advance (advance self 1) (literal n).length) (mulChain ops).length := by
      simp only [advance_advance, mulChain, List.length_cons, List.length_append]
      exact congrArg (advance self) (by omega)
    rw [hfold, hadv, ← hih]
    cases op with
    | times =>
      have h0' : At self ('*' :: (literal n ++ (mulChain ops ++ ';' :: tail))) := h0
      rw [Term2_times _ h0' hp]
      exact congrArg (fun v => Term2 f v _) (wrap32_of_range _ hr1.1 hr1.2)
    | divide =>
      have h0' : At self ('/' :: (literal n ++ (mulChain ops ++ ';' :: tail))) := h0
      have hn0 : n ≠ 0 := hdiv (MulOp.divide, n) (List.mem_cons_self _ _) rfl
      rw [Term2_divide _ h0' hp (idiv_of_nat acc n hn0)]
      rfl

/-- C3: with enough fuel for the length of the chain, `Exp` on a text `n0 op1 n1 ... opk nk;`
whose operators are all `+` or `-` returns the left-to-right fold `((n0 op1 n1) ... opk nk)`
with the cursor on the `;`, and `Term` does the same on a chain of `*` and `/` with non-zero
divisors (`/` rounding toward zero), provided the literals and every intermediate value are in
the range of `int`. -/
theorem chains_fold_left_to_right
    (n0 : Nat) (aops : List (AddOp × Nat)) (s1 : Interpreter) (tail1 : List Char) (fuel1 : Nat)
    (m0 : Nat) (mops : List (MulOp × Nat)) (s2 : Interpreter) (tail2 : List Char) (fuel2 : Nat)
    (h1 : At s1 (literal n0 ++ addChain aops ++ ';' :: tail1))
    (hn0 : (n0 : Int) ≤ INT_MAX) (hlit1 : ∀ p ∈ aops, (p.2 : Int) ≤ INT_MAX)
    (hrange1 : ∀ j ≤ aops.length, InRange (addFold n0 (aops.take j)))
    (hf1 : aops.length + 5 ≤ fuel1)
    (h2 : At s2 (literal m0 ++ mulChain mops ++ ';' :: tail2))
    (hm0 : (m0 : Int) ≤ INT_MAX) (hlit2 : ∀ p ∈ mops, (p.2 : Int) ≤ INT_MAX)
    (hdiv : ∀ p ∈ mops, p.1 = MulOp.divide → p.2 ≠ 0)
    (hrange2 : ∀ j ≤ mops.length, InRange (mulFold m0 (mops.take j)))
    (hf2 : mops.length + 4 ≤ fuel2) :
    Exp fuel1 s1 = .ok (addFold n0 aops) (advance s1 (literal n0 ++ addChain aops).length) ∧
    Term fuel2 s2 = .ok (mulFold m0 mops) (advance s2 (literal m0 ++ mulChain mops).length) := by
  constructor
  · obtain ⟨f, rfl⟩ : ∃ f, fuel1 = f + 1 := ⟨fuel1 - 1, by omega⟩
    obtain ⟨c, tl, hc, hcc⟩ := addChain_next aops tail1
    have h0 : At s1 (literal n0 ++ c :: tl) := by
      rw [← hc]; simpa using h1
    have hcd : isdigit c = false ∧ c ≠ '^' ∧ c ≠ '*' ∧ c ≠ '/' := by
      rcases hcc with rfl | rfl | rfl <;> decide
    have ht : Term f s1 = .ok (n0 : Int) (advance s1 (literal n0).length) :=
      Term_literal h0 hcd.1 hn0 hcd.2.1 hcd.2.2.1 hcd.2.2.2 (by omega)
    have h3 : At (advance s1 (literal n0).length) (addChain aops ++ ';' :: tail1) := by
      rw [hc]; exact h0.advance
    rw [Exp_of_Term ht, Exp2_chain aops _ _ tail1 f h3 hlit1 hrange1 (by omega)]
    simp only [advance_advance, List.length_append]
  · obtain ⟨f, rfl⟩ : ∃ f, fuel2 = f + 1 := ⟨fuel2 - 1, by omega⟩
    obtain ⟨c, tl, hc, hcc⟩ := mulChain_next mops tail2
    have h0 : At s2 (literal m0 ++ c :: tl) := by
      rw [← hc]; simpa using h2
    have hcd : isdigit c = false ∧ c ≠ '^' := by
      rcases hcc with rfl | rfl | rfl <;> decide
    have hp : Power f s2 = .ok (m0 : Int) (advance s2 (literal m0).length) :=
      Power_literal h0 hcd.1 hm0 hcd.2 (by omega)
    have h3 : At (advance s2 (literal m0).length) (mulChain mops ++ ';' :: tail2) := by
      rw [hc]; exact h0.advance
    rw [Term_of_Power hp, Term2_chain mops _ _ tail2 f h3 hlit2 hdiv hrange2 (by omega)]
    simp only [advance_advance, List.length_append]

theorem chains_fold_left_to_right_witness :
    Exp 7 ⟨"10-3-2;".toList, 0, ⟨[]⟩, []⟩ = .ok 5 ⟨"10-3-2;".toList, 6, ⟨[]⟩, []⟩ ∧
    Term 6 ⟨"8/2/2;".toList, 0, ⟨[]⟩, []⟩ = .ok 2 ⟨"8/2/2;".toList, 5, ⟨[]⟩, []⟩ :=
  chains_fold_left_to_right
    10 [(.minus, 3), (.minus, 2)] ⟨"10-3-2;".toList, 0, ⟨[]⟩, []⟩ [] 7
    8 [(.divide, 2), (.divide, 2)] ⟨"8/2/2;".toList, 0, ⟨[]⟩, []⟩ [] 6
    ⟨by decide, by decide⟩ (by decide) (by decide) (by decide) (by decide)
    ⟨by decide, by decide⟩ (by decide) (by decide) (by decide) (by decide) (by decide)

/-! ## Division -/

theorem tdiv_sign_cases (a b : Int) :
    (0 ≤ a → 0 ≤ b → 0 ≤ Int.tdiv a b) ∧ (0 ≤ a → b ≤ 0 → Int.tdiv a b ≤ 0) ∧
    (a ≤ 0 → 0 ≤ b → Int.tdiv a b ≤ 0) ∧ (a ≤ 0 → b ≤ 0 → 0 ≤ Int.tdiv a b) := by
  refine ⟨Int.tdiv_nonneg, Int.tdiv_nonpos, ?_, ?_⟩
  · intro ha hb
    have h := Int.tdiv_nonneg (a := -a) (b := b) (by omega) hb
    rw [Int.neg_tdiv] at h
    omega
  · intro ha hb
    have h := Int.tdiv_nonpos (a := -a) (b := b) (by omega) hb
    rw [Int.neg_tdiv] at h
    omega

/-- C4, as amended: in a term `l/r` whose operands `Power` evaluates to `a` and to `b`, with
`b` non-zero and not the pair `a = INT_MIN`, `b = -1`, and no further `*` or `/` following,
`Term` returns the quotient rounded toward zero: its magnitude is the floor of `|a| / |b|` and
its sign is that of the exact quotient. -/
theorem division_truncates_toward_zero (fuel : Nat) (self s1 s2 : Interpreter) (a b : Int)
    (r1 r2 : List Char) (c : Char)
    (hl : Power (fuel + 2) self = .ok a s1) (h1 : At s1 ('/' :: r1))
    (hr : Power (fuel + 1) (advance s1 1) = .ok b s2) (h2 : At s2 (c :: r2))
    (hc1 : c ≠ '*') (hc2 : c ≠ '/')
    (hb : b ≠ 0) (hab : ¬ (a = INT_MIN ∧ b = -1)) :
    Term (fuel + 3) self = .ok (Int.tdiv a b) s2 ∧
    (Int.tdiv a b).natAbs = a.natAbs / b.natAbs ∧
    (0 ≤ a → 0 ≤ b → 0 ≤ Int.tdiv a b) ∧ (0 ≤ a → b ≤ 0 → Int.tdiv a b ≤ 0) ∧
    (a ≤ 0 → 0 ≤ b → Int.tdiv a b ≤ 0) ∧ (a ≤ 0 → b ≤ 0 → 0 ≤ Int.tdiv a b) := by
  refine ⟨?_, Int.natAbs_tdiv a b, tdiv_sign_cases a b⟩
  have hq : idiv a b = some (Int.tdiv a b) := by simp [idiv, hb, hab]
  rw [Term_of_Power hl, Term2_divide _ h1 hr hq]
  exact Term2_stop _ h2 hc1 hc2

theorem division_truncates_toward_zero_witness :
    Term 9 ⟨"(1-8)/2;".toList, 0, ⟨[]⟩, []⟩
      = .ok (Int.tdiv (-7) 2) ⟨"(1-8)/2;".toList, 7, ⟨[]⟩, []⟩ ∧
    Int.tdiv (-7) 2 = -3 ∧
    (run "program int a; begin a=7/2; print a; end").state.cout = ["3", confirmation] ∧
    (run "program int a; begin a=(1-8)/2; print a; end").state.cout = ["-3", confirmation] :=
  ⟨(division_truncates_toward_zero 6 ⟨"(1-8)/2;".toList, 0, ⟨[]⟩, []⟩
      ⟨"(1-8)/2;".toList, 5, ⟨[]⟩, []⟩ ⟨"(1-8)/2;".toList, 7, ⟨[]⟩, []⟩ (-7) 2
      "2;".toList [] ';' (by decide) ⟨by decide, by decide⟩ (by decide)
      ⟨by decide, by decide⟩ (by decide) (by decide) (by decide) (by decide)).1,
    by decide, by decide, by decide⟩

/-- C4 as stated fails for the dividend `INT_MIN` and the divisor `-1`: both operands are
values that expressions produce, the quotient rounded toward zero would be `2147483648`, which
is no `int`, and the run on `a=(0-2147483647-1)/(0-1)` stops at the division, with `a` still 0
and nothing written. -/
theorem division_int_min_by_minus_one :
    (run "program int a; begin a=(0-2147483647-1); print a; end").state.cout
      = ["-2147483648", confirmation] ∧
    (run "program int a; begin a=(0-1); print a; end").state.cout = ["-1", confirmation] ∧
    Int.tdiv (-2147483648) (-1) = 2147483648 ∧ ¬ ((2147483648 : Int) ≤ INT_MAX) ∧
    run "program int a; begin a=(0-2147483647-1)/(0-1); print a; end"
      = .halt (.undefined .division)
          ⟨"programinta;begina=(0-2147483647-1)/(0-1);printa;end".toList, 41,
            ⟨[⟨"a", "int", 0⟩]⟩, []⟩ := by
  refine ⟨by decide, by decide, by decide, by decide, by decide⟩

/-! ## Expression evaluation leaves the table and the output alone -/

theorem Same.refl (a : Interpreter) : Same a a := ⟨rfl, rfl, rfl⟩

theorem Same.trans {a b c : Interpreter} (h1 : Same a b) (h2 : Same b c) : Same a c :=
  ⟨h2.1.trans h1.1, h2.2.1.trans h1.2.1, h2.2.2.trans h1.2.2⟩

theorem Same.of_advance (a : Interpreter) (n : Nat) : Same a (advance a n) := ⟨rfl, rfl, rfl⟩

theorem ExpInv.halt {self s : Interpreter} {why : Halt} (hs : Same self s)
    (hw : ∀ w, why ≠ .runtime_error w) : ExpInv self (.halt why s) := by
  refine ⟨hs, ?_⟩
  intro w s' h
  injection h with h1 _
  exact absurd h1 (hw w)

theorem ExpInv.ok {self s : Interpreter} {v : Int} (hs : Same self s) :
    ExpInv self (.ok v s) := by
  refine ⟨hs, ?_⟩
  intro w s' h
  cases h

theorem ExpInv.of_same {self s1 : Interpreter} {o : Outcome Int} (h : Same self s1)
    (h2 : ExpInv s1 o) : ExpInv self o := by
  refine ⟨h.trans h2.1, ?_⟩
  intro w s' ho
  have := h2.2 w s' ho
  rw [h.2.1] at this
  exact this

/-- A caller that passes a failure of its callee on unchanged and otherwise continues with
`g` inherits the invariant. -/
theorem ExpInv.bind {self : Interpreter} {o : Outcome Int} {r : Outcome Int}
    (h1 : ExpInv self o)
    (hhalt : ∀ why s, o = .halt why s → r = .halt why s)
    (hok : ∀ v s, o = .ok v s → ExpInv s r) : ExpInv self r := by
  cases o with
  | halt why s =>
    rw [hhalt why s rfl]
    exact h1
  | ok v s =>
    exact ExpInv.of_same h1.1 (hok v s rfl)

theorem id_same {self s : Interpreter} {name : String} (h : id self = .ok name s) : Same self s := by
  unfold id at h
  split at h
  · cases h
  · split at h
    · injection h with _ h2
      rw [← h2]
      exact ⟨rfl, rfl, rfl⟩
    · cases h

theorem id_halt {self s : Interpreter} {why : Halt} (h : id self = .halt why s) :
    s = self ∧ ∀ w, why ≠ .runtime_error w := by
  unfold id at h
  split at h
  · injection h with h1 h2
    subst h1
    exact ⟨h2.symm, fun w hw => by cases hw⟩
  · split at h
    · cases h
    · injection h with h1 h2
      subst h1
      exact ⟨h2.symm, fun w hw => by cases hw⟩

theorem id_not_fuel {self s : Interpreter} {why : Halt} (h : id self = .halt why s) :
    why ≠ .fuel := by
  unfold id at h
  split at h
  · injection h with h1 _
    subst h1
    exact fun hw => by cases hw
  · split at h
    · cases h
    · injection h with h1 _
      subst h1
      exact fun hw => by cases hw

theorem getValue_error {t : SymbolTable} {x w : String} (h : t.getValue x = .error w) :
    NamesUndeclared t w := by
  have h1 : ¬ ∃ node ∈ t.table, node.id = x := by
    intro hex
    obtain ⟨v, hv⟩ := (getValueFrom_ok_iff t.table x).mpr hex
    rw [SymbolTable.getValue, hv] at h
    cases h
  have h2 := (getValueFrom_error_iff t.table x).mpr h1
  rw [SymbolTable.getValue, h2] at h
  injection h with h3
  exact ⟨x, h3.symm, fun node hn hid => h1 ⟨node, hn, hid⟩⟩

theorem exp_inv (fuel : Nat) :
    (∀ self, ExpInv self (Exp fuel self)) ∧ (∀ self, ExpInv self (Term fuel self)) ∧
    (∀ r self, ExpInv self (Exp2 fuel r self)) ∧ (∀ r self, ExpInv self (Term2 fuel r self)) ∧
    (∀ self, ExpInv self (Power fuel self)) ∧ (∀ r self, ExpInv self (Power_loop fuel r self)) ∧
    (∀ self, ExpInv self (Fact fuel self)) := by
  have nf : ∀ w, Halt.fuel ≠ .runtime_error w := fun w h => by cases h
  have nu : ∀ u w, Halt.undefined u ≠ .runtime_error w := fun u w h => by cases h
  have ne : ∀ d w, Halt.exit d ≠ .runtime_error w := fun d w h => by cases h
  induction fuel with
  | zero =>
    refine ⟨?_, ?_, ?_, ?_, ?_, ?_, ?_⟩ <;> intros <;>
      first
      | (simp only [Exp]; exact ExpInv.halt (Same.refl _) nf)
      | (simp only [Term]; exact ExpInv.halt (Same.refl _) nf)
      | (simp only [Exp2]; exact ExpInv.halt (Same.refl _) nf)
      | (simp only [Term2]; exact ExpInv.halt (Same.refl _) nf)
      | (simp only [Power]; exact ExpInv.halt (Same.refl _) nf)
      | (simp only [Power_loop]; exact ExpInv.halt (Same.refl _) nf)
      | (simp only [Fact]; exact ExpInv.halt (Same.refl _) nf)
  | succ fuel ih =>
    obtain ⟨iExp, iTerm, iExp2, iTerm2, iPower, iLoop, iFact⟩ := ih
    refine ⟨?_, ?_, ?_, ?_, ?_, ?_, ?_⟩
    · intro self
      apply ExpInv.bind (iTerm self)
      · intro why s h; simp only [Exp, h]
      · intro v s h; simp only [Exp, h]; exact iExp2 v s
    · intro self
      apply ExpInv.bind (iPower self)
      · intro why s h; simp only [Term, h]
      · intro v s h; simp only [Term, h]; exact iTerm2 v s
    · intro r self
      simp only [Exp2]
      split
      · split
        · exact ExpInv.halt (Same.refl _) (nu _)
        · split
          · apply ExpInv.of_same (Same.of_advance self 1)
            apply ExpInv.bind (iTerm (advance self 1))
            · intro why s h; simp only [h]
            · intro v s h; simp only [h]; exact iExp2 _ s
          · split
            · apply ExpInv.of_same (Same.of_advance self 1)
              apply ExpInv.bind (iTerm (advance self 1))
              · intro why s h; simp only [h]
              · intro v s h; simp only [h]; exact iExp2 _ s
            · exact ExpInv.ok (Same.refl _)
      · exact ExpInv.ok (Same.refl _)
    · intro r self
      simp only [Term2]
      split
      · split
        · exact ExpInv.halt (Same.refl _) (nu _)
        · split
          · apply ExpInv.of_same (Same.of_advance self 1)
            apply ExpInv.bind (iPower (advance self 1))
            · intro why s h; simp only [h]
            · intro v s h; simp only [h]; exact iTerm2 _ s
          · split
            · apply ExpInv.of_same (Same.of_advance self 1)
              apply ExpInv.bind (iPower (advance self 1))
              · intro why s h; simp only [h]
              · intro v s h
                simp only [h]
                split
                · exact ExpInv.halt (Same.refl _) (nu _)
                · exact iTerm2 _ s
            · exact ExpInv.ok (Same.refl _)
      · exact ExpInv.ok (Same.refl _)
    · intro self
      apply ExpInv.bind (iFact self)
      · intro why s h; simp only [Power, h]
      · intro v s h; simp only [Power, h]; exact iLoop v s
    · intro r self
      simp only [Power_loop]
      split
      · apply ExpInv.of_same (Same.of_advance self 1)
        apply ExpInv.bind (iPower (advance self 1))
        · intro why s h; simp only [h]
        · intro v s h
          simp only [h]
          split
          · exact ExpInv.halt (Same.refl _) (nu _)
          · exact iLoop _ s
      · exact ExpInv.ok (Same.refl _)
    · intro self
      simp only [Fact]
      split
      · exact ExpInv.halt (Same.refl _) (nu _)
      · split
        · apply ExpInv.of_same (Same.of_advance self 1)
          apply ExpInv.bind (iExp (advance self 1))
          · intro why s h; simp only [h]
          · intro v s h; simp only [h]; exact ExpInv.ok (Same.of_advance s 1)
        · split
          · exact ExpInv.ok ⟨rfl, rfl, rfl⟩
          · split
            · cases hid : id self with
              | halt why s =>
                obtain ⟨hs, hw⟩ := id_halt hid
                simp only []
                rw [hs]
                exact ExpInv.halt (Same.refl _) hw
              | ok name s =>
                have hs := id_same hid
                simp only []
                cases hv : s.symbolTable.getValue name with
                | error w =>
                  simp only []
                  refine ⟨hs, ?_⟩
                  intro w' s' h
                  injection h with h1 _
                  injection h1 with h1
                  have := getValue_error hv
                  rw [hs.2.1, h1] at this
                  exact this
                | ok v =>
                  simp only []
                  exact ExpInv.ok hs
            · exact ExpInv.halt (Same.refl _) (ne _)

/-! ## Undeclared variables -/

theorem print_st_halt {fuel : Nat} {self s : Interpreter} {why : Halt}
    (h : Exp fuel (advance self 5) = .halt why s) : print_st fuel self = .halt why s := by
  simp only [print_st, h]

theorem assign_st_halt {fuel : Nat} {self s1 s : Interpreter} {name : String} {why : Halt}
    (hid : id self = .ok name s1) (heq : peek s1 = some '=')
    (h : Exp fuel (advance s1 1) = .halt why s) : assign_st fuel self = .halt why s := by
  simp only [assign_st, hid, heq, if_true, h]

theorem statements_halt {fuel : Nat} {self s : Interpreter} {rest : List Char} {why : Halt}
    (h : At self rest) (hne : rest.take 3 ≠ ['e', 'n', 'd'])
    (hs : statement fuel self = .halt why s) :
    statements (fuel + 1) self = .halt why s := by
  simp [statements, h.substr, hne, hs]

theorem prog_halt_in_statements {fuel : Nat} {p0 d s : Interpreter} {why : Halt}
    (h1 : substr p0 7 = some "program".toList)
    (h2 : declarations fuel (advance p0 7) = .ok () d)
    (h3 : substr d 5 = some "begin".toList)
    (h4 : statements fuel (advance d 5) = .halt why s) :
    prog fuel p0 = .halt why s := by
  simp only [prog, h1, if_true, h2, h3, h4]

/-- Every call site of the expression procedures passes a failure of the callee on unchanged:
when a call that is made fails, the caller fails in the same way and state. -/
theorem calls_halt {c1 c2 : Call} (h : Calls c1 c2) (why : Halt) (s' : Interpreter)
    (hc : c2.outcome = .halt why s') : c1.outcome = .halt why s' := by
  have m1 : ¬ ('-' = '+') := by decide
  have m2 : ¬ ('/' = '*') := by decide
  cases h with
  | exp_term f self =>
    have hc' : Term f self = .halt why s' := hc
    show Exp (f + 1) self = _
    simp only [Exp, hc']
  | exp_exp2 f self s t ht =>
    have hc' : Exp2 f t s = .halt why s' := hc
    show Exp (f + 1) self = _
    simp only [Exp, ht, hc']
  | term_power f self =>
    have hc' : Power f self = .halt why s' := hc
    show Term (f + 1) self = _
    simp only [Term, hc']
  | term_term2 f self s p hp =>
    have hc' : Term2 f p s = .halt why s' := hc
    show Term (f + 1) self = _
    simp only [Term, hp, hc']
  | exp2_term f r self hl hp =>
    have hc' : Term f (advance self 1) = .halt why s' := hc
    show Exp2 (f + 1) r self = _
    rcases hp with hp | hp
    · simp only [Exp2, hl, if_true, hp, hc']
    · simp only [Exp2, hl, if_true, hp, m1, if_false, hc']
  | exp2_plus f r t self s hl hp ht =>
    have hc' : Exp2 f (wrap32 (r + t)) s = .halt why s' := hc
    show Exp2 (f + 1) r self = _
    simp only [Exp2, hl, if_true, hp, ht, hc']
  | exp2_minus f r t self s hl hp ht =>
    have hc' : Exp2 f (wrap32 (r - t)) s = .halt why s' := hc
    show Exp2 (f + 1) r self = _
    simp only [Exp2, hl, if_true, hp, m1, if_false, ht, hc']
  | term2_power f r self hl hp =>
    have hc' : Power f (advance self 1) = .halt why s' := hc
    show Term2 (f + 1) r self = _
    rcases hp with hp | hp
    · simp only [Term2, hl, if_true, hp, hc']
    · simp only [Term2, hl, if_true, hp, m2, if_false, hc']
  | term2_times f r p self s hl hp hpw =>
    have hc' : Term2 f (wrap32 (r * p)) s = .halt why s' := hc
    show Term2 (f + 1) r self = _
    simp only [Term2, hl, if_true, hp, hpw, hc']
  | term2_divide f r p u self s hl hp hpw hd =>
    have hc' : Term2 f u s = .halt why s' := hc
    show Term2 (f + 1) r self = _
    simp only [Term2, hl, if_true, hp, m2, if_false, hpw, hd, hc']
  | power_fact f self =>
    have hc' : Fact f self = .halt why s' := hc
    show Power (f + 1) self = _
    simp only [Power, hc']
  | power_loop f self s r hf =>
    have hc' : Power_loop f r s = .halt why s' := hc
    show Power (f + 1) self = _
    simp only [Power, hf, hc']
  | loop_power f r self hl hp =>
    have hc' : Power f (advance self 1) = .halt why s' := hc
    show Power_loop (f + 1) r self = _
    simp only [Power_loop, hl, hp, and_self, if_true, hc']
  | loop_next f r e u self s hl hp hpw hd =>
    have hc' : Power_loop f u s = .halt why s' := hc
    show Power_loop (f + 1) r self = _
    simp only [Power_loop, hl, hp, and_self, if_true, hpw, hd, hc']
  | fact_exp f self hp =>
    have hc' : Exp f (advance self 1) = .halt why s' := hc
    show Fact (f + 1) self = _
    simp only [Fact, hp, if_true, hc']

theorem same_of_ok {self s : Interpreter} {o : Outcome Int} {v : Int} (hi : ExpInv self o)
    (h : o = .ok v s) : Same self s := by
  have h1 := hi.1
  rw [h] at h1
  exact h1

/-- A call that is made starts with the text, the table and the output of its caller. -/
theorem calls_same {c1 c2 : Call} (h : Calls c1 c2) : Same c1.self c2.self := by
  cases h with
  | exp_term f self => exact Same.refl _
  | exp_exp2 f self s t ht => exact same_of_ok ((exp_inv f).2.1 self) ht
  | term_power f self => exact Same.refl _
  | term_term2 f self s p hp => exact same_of_ok ((exp_inv f).2.2.2.2.1 self) hp
  | exp2_term f r self hl hp => exact Same.of_advance _ 1
  | exp2_plus f r t self s hl hp ht =>
    exact (Same.of_advance self 1).trans (same_of_ok ((exp_inv f).2.1 _) ht)
  | exp2_minus f r t self s hl hp ht =>
    exact (Same.of_advance self 1).trans (same_of_ok ((exp_inv f).2.1 _) ht)
  | term2_power f r self hl hp => exact Same.of_advance _ 1
  | term2_times f r p self s hl hp hpw =>
    exact (Same.of_advance self 1).trans (same_of_ok ((exp_inv f).2.2.2.2.1 _) hpw)
  | term2_divide f r p u self s hl hp hpw hd =>
    exact (Same.of_advance self 1).trans (same_of_ok ((exp_inv f).2.2.2.2.1 _) hpw)
  | power_fact f self => exact Same.refl _
  | power_loop f self s r hf => exact same_of_ok ((exp_inv f).2.2.2.2.2.2 self) hf
  | loop_power f r self hl hp => exact Same.of_advance _ 1
  | loop_next f r e u self s hl hp hpw hd =>
    exact (Same.of_advance self 1).trans (same_of_ok ((exp_inv f).2.2.2.2.1 _) hpw)
  | fact_exp f self hp => exact Same.of_advance _ 1

theorem reaches_halt {c1 c2 : Call} (h : Reaches c1 c2) (why : Halt) (s' : Interpreter)
    (hc : c2.outcome = .halt why s') : c1.outcome = .halt why s' := by
  induction h with
  | refl => exact hc
  | tail _ hstep ih => exact ih (calls_halt hstep why s' hc)

theorem reaches_same {c1 c2 : Call} (h : Reaches c1 c2) : Same c1.self c2.self := by
  induction h with
  | refl => exact Same.refl _
  | tail _ hstep ih => exact ih.trans (calls_same hstep)

theorem loopAt_statements {g fuel : Nat} {b self : Interpreter} (h : LoopAt g b fuel self) :
    statements g b = statements fuel self := by
  induction h with
  | here fuel self => rfl
  | next g b b1 fuel self w hw hne hs _ ih =>
    rw [← ih]
    simp only [statements, hw, ne_eq, hne, not_false_eq_true, if_true, hs]

theorem id_loop_whole (name rest acc : List Char) (i : Nat)
    (hname : ∀ c ∈ name, isalnum c = true)
    (hrest : ∀ d, rest.head? = some d → isalnum d = false) :
    id_loop (name ++ rest) (String.mk acc) i = (String.mk (acc ++ name), i + name.length) := by
  cases rest with
  | nil =>
    induction name generalizing acc i with
    | nil => simp [id_loop]
    | cons c name ih =>
      have hc := hname c (List.mem_cons_self _ _)
      have hpush : (String.mk acc).push c = String.mk (acc ++ [c]) := rfl
      have hstep : id_loop (c :: name ++ []) (String.mk acc) i
          = id_loop (name ++ []) (String.mk (acc ++ [c])) (i + 1) := by
        simp only [List.cons_append, id_loop, hc, if_true, hpush]
        rfl
      rw [hstep, ih _ _ (fun c hc => hname c (List.mem_cons_of_mem _ hc))]
      simp only [List.append_assoc, List.singleton_append, List.length_cons]
      congr 1
      omega
  | cons d r => exact id_loop_name name d r acc i hname (hrest d rfl)

/-- The procedure `id` reads the whole identifier: the letter and the letters and digits up to
the end of the text or the first other character. -/
theorem id_whole {self : Interpreter} {c : Char} {name rest : List Char}
    (h : At self (c :: name ++ rest)) (hc : isalpha c = true)
    (hname : ∀ c ∈ name, isalnum c = true)
    (hrest : ∀ d, rest.head? = some d → isalnum d = false) :
    id self = .ok (String.mk (c :: name)) (advance self (c :: name).length) := by
  have halnum : isalnum c = true := by
    simp only [isalnum, Char.isAlphanum, Bool.or_eq_true]
    exact Or.inl hc
  have hloop := id_loop_whole (c :: name) rest [] self.indexx
    (by
      intro x hx
      rcases List.mem_cons.mp hx with rfl | hx
      · exact halnum
      · exact hname x hx) hrest
  have h' : At self (c :: (name ++ rest)) := h
  simp only [id, h'.peek, hc, if_true, h.2]
  rw [show ("" : String) = String.mk [] from rfl, hloop]
  rfl

/-- Reading an identifier without an entry: the factor throws the error that names it. -/
theorem Fact_no_entry {fuel : Nat} {self : Interpreter} {c : Char} {name rest : List Char}
    (h : At self (c :: name ++ rest)) (hc : isalpha c = true)
    (hname : ∀ c ∈ name, isalnum c = true)
    (hrest : ∀ d, rest.head? = some d → isalnum d = false)
    (hno : ∀ node ∈ self.symbolTable.table, node.id ≠ String.mk (c :: name)) :
    Fact (fuel + 1) self
      = .halt (.runtime_error (SymbolTable.undeclared (String.mk (c :: name))))
          (advance self (c :: name).length) := by
  have h' : At self (c :: (name ++ rest)) := h
  have hv : (advance self (c :: name).length).symbolTable.getValue (String.mk (c :: name))
      = .error (SymbolTable.undeclared (String.mk (c :: name))) :=
    (getValueFrom_error_iff _ _).mpr (fun ⟨node, hn, hid⟩ => hno node hn hid)
  simp only [Fact, h'.peek, isalpha_not_paren hc, if_false, isalpha_not_digit hc, hc, if_true,
    id_whole h hc hname hrest, hv]
  simp

/-- C6: a statement is about to run (the text at the cursor does not start with `end`), and
the evaluation of its expression (the operand of `print`, or the right-hand side of the
assignment) makes, at any depth of the expression, a call of `Fact` at an identifier that has no
entry in the symbol table (the identifier is the letter `c` and the letters and digits `name`,
up to the end of the text or the first other character).  Then the statement and the statement loop end with the
undeclared-variable error naming that identifier, in the state behind the identifier, with the
output and the table as they were when the statement began; and `prog`, whose statement loop
has come to this statement after any number of earlier statements, ends with the same error
and that output, without the confirmation line. -/
theorem undeclared_variable_is_semantic_failure
    (fuel f : Nat) (self q : Interpreter) (rest : List Char) (c : Char) (name tl : List Char)
    (hat : At self rest) (hne : rest.take 3 ≠ ['e', 'n', 'd'])
    (hread :
      (rest.take 5 = ['p', 'r', 'i', 'n', 't'] ∧
        Reaches (.exp fuel (advance self 5)) (.fact (f + 1) q)) ∨
      (rest.take 5 ≠ ['p', 'r', 'i', 'n', 't'] ∧ ∃ x s1,
        id self = .ok x s1 ∧ peek s1 = some '=' ∧
        Reaches (.exp fuel (advance s1 1)) (.fact (f + 1) q)))
    (hq : At q (c :: name ++ tl)) (hc : isalpha c = true)
    (hname : ∀ k ∈ name, isalnum k = true)
    (htl : ∀ d, tl.head? = some d → isalnum d = false)
    (hno : ∀ node ∈ self.symbolTable.table, node.id ≠ String.mk (c :: name)) :
    statement fuel self
      = .halt (.runtime_error (SymbolTable.undeclared (String.mk (c :: name))))
          (advance q (c :: name).length) ∧
    statements (fuel + 1) self
      = .halt (.runtime_error (SymbolTable.undeclared (String.mk (c :: name))))
          (advance q (c :: name).length) ∧
    (advance q (c :: name).length).cout = self.cout ∧
    (advance q (c :: name).length).symbolTable = self.symbolTable ∧
    (∀ g p0 d0, substr p0 7 = some "program".toList →
      declarations g (advance p0 7) = .ok () d0 →
      substr d0 5 = some "begin".toList → LoopAt g (advance d0 5) (fuel + 1) self →
      prog g p0
        = .halt (.runtime_error (SymbolTable.undeclared (String.mk (c :: name))))
            (advance q (c :: name).length)) := by
  have hsame : Same self q := by
    rcases hread with ⟨_, hr⟩ | ⟨_, x, s1, hid, _, hr⟩
    · exact (Same.of_advance self 5).trans (reaches_same hr)
    · exact ((id_same hid).trans (Same.of_advance s1 1)).trans (reaches_same hr)
  have hfact : (Call.fact (f + 1) q).outcome
      = .halt (.runtime_error (SymbolTable.undeclared (String.mk (c :: name))))
          (advance q (c :: name).length) :=
    Fact_no_entry hq hc hname htl (by rw [hsame.2.1]; exact hno)
  have hstmt : statement fuel self
      = .halt (.runtime_error (SymbolTable.undeclared (String.mk (c :: name))))
          (advance q (c :: name).length) := by
    rcases hread with ⟨hp, hr⟩ | ⟨hp, x, s1, hid, heq, hr⟩
    · simp only [statement, hat.substr, hp]
      exact print_st_halt (reaches_halt hr _ _ hfact)
    · rw [statement_assign hat hp]
      exact assign_st_halt hid heq (reaches_halt hr _ _ hfact)
  have hloop := statements_halt hat hne hstmt
  refine ⟨hstmt, hloop, hsame.2.2, hsame.2.1, ?_⟩
  intro g p0 d0 h1 h2 h3 h4
  rw [← loopAt_statements h4] at hloop
  exact prog_halt_in_statements h1 h2 h3 hloop

theorem undeclared_variable_is_semantic_failure_witness :
    statements 11 ⟨"programbeginprint2;print1+(3*x);end".toList, 19, ⟨[]⟩, ["2"]⟩
      = .halt (.runtime_error (SymbolTable.undeclared "x"))
          ⟨"programbeginprint2;print1+(3*x);end".toList, 30, ⟨[]⟩, ["2"]⟩ ∧
    prog 12 ⟨"programbeginprint2;print1+(3*x);end".toList, 0, ⟨[]⟩, []⟩
      = .halt (.runtime_error (SymbolTable.undeclared "x"))
          ⟨"programbeginprint2;print1+(3*x);end".toList, 30, ⟨[]⟩, ["2"]⟩ ∧
    run "program begin print x; end"
      = .halt (.runtime_error "Semantic error: Undeclared variable \x27x\x27")
          ⟨"programbeginprintx;end".toList, 18, ⟨[]⟩, []⟩ := by
  have h := undeclared_variable_is_semantic_failure 10 0
    ⟨"programbeginprint2;print1+(3*x);end".toList, 19, ⟨[]⟩, ["2"]⟩
    ⟨"programbeginprint2;print1+(3*x);end".toList, 29, ⟨[]⟩, ["2"]⟩
    "print1+(3*x);end".toList 'x' [] ");end".toList
    ⟨by decide, by decide⟩ (by decide)
    (Or.inl ⟨by decide,
      Relation.ReflTransGen.head
        (Calls.exp_exp2 9 ⟨"programbeginprint2;print1+(3*x);end".toList, 24, ⟨[]⟩, ["2"]⟩
          ⟨"programbeginprint2;print1+(3*x);end".toList, 25, ⟨[]⟩, ["2"]⟩ 1 (by decide))
      (Relation.ReflTransGen.head
        (Calls.exp2_term 8 1 ⟨"programbeginprint2;print1+(3*x);end".toList, 25, ⟨[]⟩, ["2"]⟩
          (by decide) (Or.inl (by decide)))
      (Relation.ReflTransGen.head (Calls.term_power 7 _)
      (Relation.ReflTransGen.head (Calls.power_fact 6 _)
      (Relation.ReflTransGen.head
        (Calls.fact_exp 5 ⟨"programbeginprint2;print1+(3*x);end".toList, 26, ⟨[]⟩, ["2"]⟩
          (by decide))
      (Relation.ReflTransGen.head (Calls.exp_term 4 _)
      (Relation.ReflTransGen.head
        (Calls.term_term2 3 ⟨"programbeginprint2;print1+(3*x);end".toList, 27, ⟨[]⟩, ["2"]⟩
          ⟨"programbeginprint2;print1+(3*x);end".toList, 28, ⟨[]⟩, ["2"]⟩ 3 (by decide))
      (Relation.ReflTransGen.head
        (Calls.term2_power 2 3 ⟨"programbeginprint2;print1+(3*x);end".toList, 28, ⟨[]⟩, ["2"]⟩
          (by decide) (Or.inl (by decide)))
      (Relation.ReflTransGen.head (Calls.power_fact 1 _)
        Relation.ReflTransGen.refl))))))))⟩)
    ⟨by decide, by decide⟩ (by decide) (by decide)
    (fun d hd => by
      have e : d = ')' :=
        Option.some.inj (hd.symm.trans (rfl : (");end".toList).head? = some ')'))
      rw [e]
      decide)
    (by decide)
  exact ⟨h.2.1,
    h.2.2.2.2 12 ⟨"programbeginprint2;print1+(3*x);end".toList, 0, ⟨[]⟩, []⟩
      ⟨"programbeginprint2;print1+(3*x);end".toList, 7, ⟨[]⟩, []⟩ (by decide) (by decide)
      (by decide)
      (LoopAt.next 11 ⟨"programbeginprint2;print1+(3*x);end".toList, 12, ⟨[]⟩, []⟩
        ⟨"programbeginprint2;print1+(3*x);end".toList, 19, ⟨[]⟩, ["2"]⟩ 11 _
        "pri".toList (by decide) (by decide) (by decide) (LoopAt.here 11 _)),
    by decide⟩

/-! ## Declarations -/

theorem id_cout (self : Interpreter) : (id self).state.cout = self.cout := by
  unfold id
  split
  · rfl
  · split <;> rfl

theorem id_list_cout (fuel : Nat) (varType : String) (self : Interpreter) :
    (id_list fuel varType self).state.cout = self.cout := by
  induction fuel generalizing self with
  | zero => rfl
  | succ fuel ih =>
    simp only [id_list]
    cases hid : id self with
    | halt why s =>
      have := id_cout self
      rw [hid] at this
      exact this
    | ok name s =>
      have hs := id_cout self
      rw [hid] at hs
      simp only []
      split
      · exact hs
      · split
        · rw [ih]
          exact hs
        · exact hs

theorem type_cout (self : Interpreter) : (type self).state.cout = self.cout := by
  unfold type
  split
  · rfl
  · split
    · rfl
    · split
      · rfl
      · split <;> rfl

theorem declaration_cout (fuel : Nat) (self : Interpreter) :
    (declaration fuel self).state.cout = self.cout := by
  unfold declaration
  cases ht : type self with
  | halt why s =>
    have := type_cout self
    rw [ht] at this
    exact this
  | ok varType s1 =>
    have h1 := type_cout self
    rw [ht] at h1
    simp only []
    cases hl : id_list fuel varType s1 with
    | halt why s =>
      have := id_list_cout fuel varType s1
      rw [hl] at this
      exact this.trans h1
    | ok u s2 =>
      have h2 := id_list_cout fuel varType s1
      rw [hl] at h2
      simp only []
      split
      · exact h2.trans h1
      · split
        · exact h2.trans h1
        · exact h2.trans h1

/-- The declarations write nothing to `cout`, however they end. -/
theorem declarations_cout (fuel : Nat) (self : Interpreter) :
    (declarations fuel self).state.cout = self.cout := by
  induction fuel generalizing self with
  | zero => rfl
  | succ fuel ih =>
    simp only [declarations]
    split
    · split
      · split
        · cases hd : declaration fuel self with
          | halt why s =>
            have := declaration_cout fuel self
            rw [hd] at this
            exact this
          | ok u s =>
            have h1 := declaration_cout fuel self
            rw [hd] at h1
            simp only []
            rw [ih]
            exact h1
        · rfl
      · rfl
    · rfl

/-- C14 fails on the code: `Fact` steps over whatever character follows the inner expression.
When that character is not ')' the factor is accepted all the same, with the value of the
inner expression and the cursor behind that character; `a=(2+3];` assigns 5, and the run ends
in success. -/
theorem paren_close_not_checked :
    (∀ (fuel : Nat) (self s1 : Interpreter) (rest : List Char) (v : Int),
      At self ('(' :: rest) → Exp fuel (advance self 1) = .ok v s1 →
      Fact (fuel + 1) self = .ok v (advance s1 1)) ∧
    run "program int a; begin a=(2+3]; print a; end"
      = .ok () ⟨"programinta;begina=(2+3];printa;end".toList, 35, ⟨[⟨"a", "int", 5⟩]⟩,
          ["5", confirmation]⟩ :=
  ⟨fun _ _ _ _ _ h he => Fact_paren h he, by decide⟩

/-- C16 fails on the code: on the text `program int a; begin a=(2`, which ends right behind the
inner expression, `Fact` moves the cursor to position 22 of a text of length 21, and the
character read of `assign_st` that follows is beyond the terminator. -/
theorem cursor_runs_past_text :
    run "program int a; begin a=(2"
      = .halt (.undefined .index) ⟨"programinta;begina=(2".toList, 22, ⟨[⟨"a", "int", 2⟩]⟩, []⟩ ∧
    "programinta;begina=(2".toList.length = 21 ∧
    peek ⟨"programinta;begina=(2".toList, 22, ⟨[⟨"a", "int", 2⟩]⟩, []⟩ = none := by
  refine ⟨by decide, by decide, by decide⟩

/-! ## Statements that start with `end` -/

/-- C20: the program `program int a; begin a=1/0; end` reaches the division of `Term2` with
the divisor 0 and stops there, with neither a diagnostic nor an undeclared-variable error;
and whenever the divisor that `Power` returns is 0, `Term2` stops at the division in the same
way, whatever the dividend. -/
theorem division_by_zero_unchecked :
    run "program int a; begin a=1/0; end"
      = .halt (.undefined .division) ⟨"programinta;begina=1/0;end".toList, 22,
          ⟨[⟨"a", "int", 0⟩]⟩, []⟩ ∧
    Power 4 ⟨"programinta;begina=1/0;end".toList, 21, ⟨[⟨"a", "int", 0⟩]⟩, []⟩
      = .ok 0 ⟨"programinta;begina=1/0;end".toList, 22, ⟨[⟨"a", "int", 0⟩]⟩, []⟩ ∧
    (∀ (fuel : Nat) (self s1 : Interpreter) (rest : List Char) (r : Int),
      At self ('/' :: rest) → Power fuel (advance self 1) = .ok 0 s1 →
      Term2 (fuel + 1) r self = .halt (.undefined .division) s1) := by
  refine ⟨by decide, by decide, ?_⟩
  intro fuel self s1 rest r h hp
  have hne : ¬ ('/' = '*') := by decide
  simp [Term2, h.lt, h.peek, hne, hp, idiv]

/-! ## Assignment reads, then writes -/

theorem getValue_ok_exists {t : SymbolTable} {x : String} {v : Int}
    (h : t.getValue x = .ok v) : ∃ node ∈ t.table, node.id = x :=
  (getValueFrom_ok_iff t.table x).mp ⟨v, h⟩

/-- The expression `x+1` followed by `;`, for a declared variable `x` with value `v`. -/
theorem Exp_increment {fuel : Nat} {self : Interpreter} {c : Char} {name rest : List Char}
    {v : Int} (h : At self (c :: name ++ '+' :: '1' :: ';' :: rest)) (hc : isalpha c = true)
    (hname : ∀ k ∈ name, isalnum k = true)
    (hv : self.symbolTable.getValue (String.mk (c :: name)) = .ok v)
    (hr : InRange (v + 1)) (hf : 5 ≤ fuel) :
    Exp fuel self = .ok (v + 1) (advance self ((c :: name).length + 2)) := by
  obtain ⟨f, rfl⟩ : ∃ f, fuel = f + 5 := ⟨fuel - 5, by omega⟩
  have h1 : At (advance self (c :: name).length) ('+' :: '1' :: ';' :: rest) :=
    At.advance (a := c :: name) h
  have h2 : At (advance (advance self (c :: name).length) 1) (literal 1 ++ ';' :: rest) :=
    h1.step
  have h3 : At (advance (advance (advance self (c :: name).length) 1) (literal 1).length)
      (';' :: rest) := h2.advance
  have hF : Fact (f + 2) self = .ok v (advance self (c :: name).length) :=
    Fact_variable h hc hname (by decide) hv (by omega)
  have hP : Power (f + 3) self = .ok v (advance self (c :: name).length) := by
    rw [Power_of_Fact hF]; exact Power_loop_stop _ h1 (by decide)
  have hT : Term (f + 4) self = .ok v (advance self (c :: name).length) := by
    rw [Term_of_Power hP]; exact Term2_stop _ h1 (by decide) (by decide)
  have hL : Term (f + 3) (advance (advance self (c :: name).length) 1)
      = .ok ((1 : Nat) : Int) (advance (advance (advance self (c :: name).length) 1)
          (literal 1).length) :=
    Term_literal h2 (by decide) (by decide) (by decide) (by decide) (by decide) (by omega)
  have hw : wrap32 (v + ((1 : Nat) : Int)) = v + 1 := wrap32_of_range _ hr.1 hr.2
  rw [Exp_of_Term hT, Exp2_plus _ h1 hL, hw, Exp2_stop _ h3 (by decide) (by decide)]
  simp only [advance_advance]
  rfl

/-- C12: for a declared variable with value `v` and `v+1` in the range of `int`, the
assignment `x=x+1;` evaluates its right-hand side with the value `v` from before the write,
returns with `v+1` stored in the entry that `getValue` reads and nothing written to `cout`,
and a print statement `print x;` that follows writes the line of `v+1`. -/
theorem assignment_reads_then_writes (fuel : Nat) (self : Interpreter) (c : Char)
    (name rest : List Char) (v : Int)
    (hat : At self (c :: name ++ '=' :: (c :: name ++ '+' :: '1' :: ';' ::
      ('p' :: 'r' :: 'i' :: 'n' :: 't' :: (c :: name ++ ';' :: rest)))))
    (hc : isalpha c = true) (hname : ∀ k ∈ name, isalnum k = true)
    (hv : self.symbolTable.getValue (String.mk (c :: name)) = .ok v)
    (hr : InRange (v + 1)) (hf : 5 ≤ fuel) :
    Exp fuel (advance self ((c :: name).length + 1)) = .ok (v + 1)
      (advance self ((c :: name).length + 1 + ((c :: name).length + 2))) ∧
    ∃ s1, assign_st fuel self = .ok () s1 ∧
      s1.symbolTable = (self.symbolTable.setValue (String.mk (c :: name)) (v + 1)).1 ∧
      s1.symbolTable.getValue (String.mk (c :: name)) = .ok (v + 1) ∧
      s1.cout = self.cout ∧
      ∃ s2, print_st fuel s1 = .ok () s2 ∧ s2.cout = self.cout ++ [toString (v + 1)] ∧
        s2.symbolTable = s1.symbolTable := by
  have hid : id self = .ok (String.mk (c :: name)) (advance self (c :: name).length) :=
    id_name hat hc hname (by decide)
  have a1 : At (advance self (c :: name).length) ('=' :: (c :: name ++ '+' :: '1' :: ';' ::
      ('p' :: 'r' :: 'i' :: 'n' :: 't' :: (c :: name ++ ';' :: rest)))) :=
    At.advance (a := c :: name) hat
  have a2 := a1.step
  have he : Exp fuel (advance (advance self (c :: name).length) 1) = .ok (v + 1)
      (advance (advance (advance self (c :: name).length) 1) ((c :: name).length + 2)) :=
    Exp_increment a2 hc hname hv hr hf
  have a3 : At (advance (advance (advance self (c :: name).length) 1) ((c :: name).length + 2))
      (';' :: ('p' :: 'r' :: 'i' :: 'n' :: 't' :: (c :: name ++ ';' :: rest))) := by
    have := At.advance (a := c :: name ++ ['+', '1']) (by simpa using a2)
    simpa using this
  have hex := getValue_ok_exists hv
  have hset : (advance (advance (advance self (c :: name).length) 1)
      ((c :: name).length + 2)).symbolTable.setValue (String.mk (c :: name)) (v + 1)
      = ((self.symbolTable.setValue (String.mk (c :: name)) (v + 1)).1, .ok ()) := by
    have := (read_after_write_core self.symbolTable (String.mk (c :: name)) (v + 1) hex).1
    exact Prod.ext rfl this
  have hassign := assign_st_ok hid a1 he hset a3
  have hget := (read_after_write_core self.symbolTable (String.mk (c :: name)) (v + 1) hex).2
  refine ⟨by simpa only [advance_advance] using he, _, hassign, rfl, hget, rfl, ?_⟩
  -- the print statement that follows
  have b0 : At (advance { advance (advance (advance self (c :: name).length) 1)
      ((c :: name).length + 2) with
      symbolTable := (self.symbolTable.setValue (String.mk (c :: name)) (v + 1)).1 } 1)
      ('p' :: 'r' :: 'i' :: 'n' :: 't' :: (c :: name ++ ';' :: rest)) := a3.step
  have b1 := At.advance (a := ['p', 'r', 'i', 'n', 't']) b0
  have hp := Exp_variable b1 hc hname (by decide) hget (by decide) (by decide) (by decide)
    (by decide) (by decide) (by omega : 4 ≤ fuel)
  have b2 := At.advance (a := c :: name) b1
  refine ⟨_, print_st_ok hp b2, rfl, rfl⟩

theorem assignment_reads_then_writes_witness :
    assign_st 5 ⟨"a=a+1;printa;".toList, 0, ⟨[⟨"a", "int", 41⟩]⟩, []⟩
      = .ok () ⟨"a=a+1;printa;".toList, 6, ⟨[⟨"a", "int", 42⟩]⟩, []⟩ ∧
    print_st 5 ⟨"a=a+1;printa;".toList, 6, ⟨[⟨"a", "int", 42⟩]⟩, []⟩
      = .ok () ⟨"a=a+1;printa;".toList, 13, ⟨[⟨"a", "int", 42⟩]⟩, ["42"]⟩ ∧
    Exp 5 ⟨"a=a+1;printa;".toList, 2, ⟨[⟨"a", "int", 41⟩]⟩, []⟩
      = .ok (41 + 1) ⟨"a=a+1;printa;".toList, 5, ⟨[⟨"a", "int", 41⟩]⟩, []⟩ :=
  ⟨by decide, by decide,
    (assignment_reads_then_writes 5 ⟨"a=a+1;printa;".toList, 0, ⟨[⟨"a", "int", 41⟩]⟩, []⟩
      'a' [] [] 41 ⟨by decide, by decide⟩ (by decide) (by simp) rfl (by decide)
      (by decide)).1⟩

/-! ## Progress of the cursor -/

theorem peek_some_at {self : Interpreter} {c : Char} (h : peek self = some c)
    (hc : c ≠ Char.ofNat 0) : ∃ rest, At self (c :: rest) := by
  unfold peek at h
  split at h
  · rename_i d rest hd
    injection h with h
    subst h
    refine ⟨rest, ?_, hd⟩
    rcases Nat.lt_or_ge self.indexx self.progStr.length with h1 | h1
    · exact Nat.le_of_lt h1
    · rw [List.drop_eq_nil_of_le h1] at hd
      cases hd
  · split at h
    · injection h with h
      exact absurd h.symm hc
    · cases h

theorem digit_loop_ge (l : List Char) (v : Int) (i : Nat) : i ≤ (digit_loop l v i).2 := by
  induction l generalizing v i with
  | nil => exact Nat.le_refl _
  | cons c l ih =>
    simp only [digit_loop]
    split
    · exact Nat.le_trans (Nat.le_succ i) (ih _ _)
    · exact Nat.le_refl _

theorem digit_loop_gt (c : Char) (l : List Char) (v : Int) (i : Nat) (hc : isdigit c = true) :
    i < (digit_loop (c :: l) v i).2 := by
  simp only [digit_loop, hc, if_true]
  exact digit_loop_ge _ _ _

theorem id_loop_ge (l : List Char) (acc : String) (i : Nat) : i ≤ (id_loop l acc i).2 := by
  induction l generalizing acc i with
  | nil => exact Nat.le_refl _
  | cons c l ih =>
    simp only [id_loop]
    split
    · exact Nat.le_trans (Nat.le_succ i) (ih _ _)
    · exact Nat.le_refl _

theorem isalpha_isalnum {c : Char} (h : isalpha c = true) : isalnum c = true := by
  simp only [isalnum, Char.isAlphanum, Bool.or_eq_true]
  exact Or.inl h

theorem isalpha_ne_zero {c : Char} (h : isalpha c = true) : c ≠ Char.ofNat 0 := by
  intro hc
  rw [hc] at h
  exact absurd h (by decide)

theorem isdigit_ne_zero {c : Char} (h : isdigit c = true) : c ≠ Char.ofNat 0 := by
  intro hc
  rw [hc] at h
  exact absurd h (by decide)

/-- An identifier that is read takes at least one character. -/
theorem id_advances (self : Interpreter) : Advances self (id self) := by
  intro name s h
  unfold id at h
  split at h
  · cases h
  · rename_i c hp
    split at h
    · rename_i hc
      obtain ⟨rest, hat⟩ := peek_some_at hp (isalpha_ne_zero hc)
      injection h with _ h2
      rw [← h2]
      refine ⟨hat.lt, ?_⟩
      show self.indexx < (id_loop (self.progStr.drop self.indexx) "" self.indexx).2
      rw [hat.2]
      simp only [id_loop, isalpha_isalnum hc, if_true]
      exact Nat.lt_of_lt_of_le (Nat.lt_succ_self _) (id_loop_ge _ _ _)
    · cases h

theorem advances_halt {α : Type} {self s : Interpreter} {why : Halt} :
    Advances self (Outcome.halt why s : Outcome α) := by
  intro v s' h
  cases h

theorem keeps_halt {α : Type} {self s : Interpreter} {why : Halt} :
    Keeps self (Outcome.halt why s : Outcome α) := by
  intro v s' h
  cases h

theorem offCaret_halt {α : Type} {s : Interpreter} {why : Halt} :
    OffCaret (Outcome.halt why s : Outcome α) := by
  intro v s' h
  cases h

theorem keeps_self {α : Type} {self : Interpreter} {v : α} :
    Keeps self (Outcome.ok v self) := by
  intro v' s' h
  injection h with _ h2
  exact h2 ▸ Nat.le_refl _

/-- An operand, then a loop from where the operand ended. -/
theorem advances_then_keeps {self : Interpreter} {o r : Outcome Int}
    (h1 : Advances self o)
    (hhalt : ∀ why s, o = .halt why s → r = .halt why s)
    (hok : ∀ v s, o = .ok v s → Keeps s r) : Advances self r := by
  cases o with
  | halt why s =>
    rw [hhalt why s rfl]
    exact advances_halt
  | ok v s =>
    intro v' s' hr
    obtain ⟨ha, hb⟩ := h1 v s rfl
    exact ⟨ha, Nat.lt_of_lt_of_le hb (hok v s rfl v' s' hr)⟩

/-- A loop iteration: the operator, an operand, then the loop again. -/
theorem keeps_step {self : Interpreter} {o r : Outcome Int}
    (h1 : Advances (advance self 1) o)
    (hhalt : ∀ why s, o = .halt why s → r = .halt why s)
    (hok : ∀ v s, o = .ok v s → Keeps s r) : Keeps self r := by
  cases o with
  | halt why s =>
    rw [hhalt why s rfl]
    exact keeps_halt
  | ok v s =>
    intro v' s' hr
    obtain ⟨_, hb⟩ := h1 v s rfl
    have := hok v s rfl v' s' hr
    have hb' : self.indexx + 1 < s.indexx := hb
    omega

theorem exp_advances (fuel : Nat) :
    (∀ self, Advances self (Exp fuel self)) ∧ (∀ self, Advances self (Term fuel self)) ∧
    (∀ r self, Keeps self (Exp2 fuel r self)) ∧ (∀ r self, Keeps self (Term2 fuel r self)) ∧
    (∀ self, Advances self (Power fuel self) ∧ OffCaret (Power fuel self)) ∧
    (∀ r self, Keeps self (Power_loop fuel r self) ∧ OffCaret (Power_loop fuel r self)) ∧
    (∀ self, Advances self (Fact fuel self)) := by
  induction fuel with
  | zero =>
    refine ⟨?_, ?_, ?_, ?_, ?_, ?_, ?_⟩
    · intro self; simp only [Exp]; exact advances_halt
    · intro self; simp only [Term]; exact advances_halt
    · intro r self; simp only [Exp2]; exact keeps_halt
    · intro r self; simp only [Term2]; exact keeps_halt
    · intro self; simp only [Power]; exact ⟨advances_halt, offCaret_halt⟩
    · intro r self; simp only [Power_loop]; exact ⟨keeps_halt, offCaret_halt⟩
    · intro self; simp only [Fact]; exact advances_halt
  | succ fuel ih =>
    obtain ⟨iExp, iTerm, iExp2, iTerm2, iPower, iLoop, iFact⟩ := ih
    refine ⟨?_, ?_, ?_, ?_, ?_, ?_, ?_⟩
    · intro self
      apply advances_then_keeps (iTerm self)
      · intro why s h; simp only [Exp, h]
      · intro v s h; simp only [Exp, h]; exact iExp2 v s
    · intro self
      apply advances_then_keeps (iPower self).1
      · intro why s h; simp only [Term, h]
      · intro v s h; simp only [Term, h]; exact iTerm2 v s
    · intro r self
      simp only [Exp2]
      split
      · split
        · exact keeps_halt
        · split
          · apply keeps_step (iTerm (advance self 1))
            · intro why s h; simp only [h]
            · intro v s h; simp only [h]; exact iExp2 _ s
          · split
            · apply keeps_step (iTerm (advance self 1))
              · intro why s h; simp only [h]
              · intro v s h; simp only [h]; exact iExp2 _ s
            · exact keeps_self
      · exact keeps_self
    · intro r self
      simp only [Term2]
      split
      · split
        · exact keeps_halt
        · split
          · apply keeps_step (iPower (advance self 1)).1
            · intro why s h; simp only [h]
            · intro v s h; simp only [h]; exact iTerm2 _ s
          · split
            · apply keeps_step (iPower (advance self 1)).1
              · intro why s h; simp only [h]
              · intro v s h
                simp only [h]
                split
                · exact keeps_halt
                · exact iTerm2 _ s
            · exact keeps_self
      · exact keeps_self
    · intro self
      constructor
      · apply advances_then_keeps (iFact self)
        · intro why s h; simp only [Power, h]
        · intro v s h; simp only [Power, h]; exact (iLoop v s).1
      · cases h : Fact fuel self with
        | halt why s => simp only [Power, h]; exact offCaret_halt
        | ok v s => simp only [Power, h]; exact (iLoop v s).2
    · intro r self
      simp only [Power_loop]
      split
      · constructor
        · apply keeps_step (iPower (advance self 1)).1
          · intro why s h; simp only [h]
          · intro v s h
            simp only [h]
            split
            · exact keeps_halt
            · exact (iLoop _ s).1
        · cases h : Power fuel (advance self 1) with
          | halt why s => exact offCaret_halt
          | ok v s =>
            simp only []
            split
            · exact offCaret_halt
            · exact (iLoop _ s).2
      · rename_i hcond
        constructor
        · exact keeps_self
        · intro v s h
          injection h with _ h2
          rw [← h2]
          exact hcond
    · intro self
      simp only [Fact]
      split
      · exact advances_halt
      · rename_i c hp
        split
        · rename_i hc
          obtain ⟨rest, hat⟩ := peek_some_at hp (by rw [hc]; decide)
          cases h : Exp fuel (advance self 1) with
          | halt why s => exact advances_halt
          | ok v s =>
            simp only []
            intro v' s' hr
            injection hr with _ h2
            rw [← h2]
            have := (iExp (advance self 1) v s h).2
            have h3 : self.indexx + 1 < s.indexx := this
            refine ⟨hat.lt, ?_⟩
            show self.indexx < s.indexx + 1
            omega
        · split
          · rename_i hd
            obtain ⟨rest, hat⟩ := peek_some_at hp (isdigit_ne_zero hd)
            intro v' s' hr
            injection hr with _ h2
            rw [← h2]
            refine ⟨hat.lt, ?_⟩
            show self.indexx < (digit_loop (self.progStr.drop self.indexx) 0 self.indexx).2
            rw [hat.2]
            exact digit_loop_gt _ _ _ _ hd
          · split
            · cases hid : id self with
              | halt why s => exact advances_halt
              | ok name s =>
                simp only []
                have hadv := id_advances self name s hid
                split
                · exact advances_halt
                · intro v' s' hr
                  injection hr with _ h2
                  rw [← h2]
                  exact hadv
            · exact advances_halt

/-! ## More fuel does not change a finished run -/

theorem notFuel_ok {α : Type} {v : α} {s : Interpreter} : NotFuel (Outcome.ok v s) := trivial

theorem notFuel_halt {α : Type} {why : Halt} {s : Interpreter} :
    NotFuel (Outcome.halt why s : Outcome α) ↔ why ≠ .fuel := by
  cases why <;> simp [NotFuel]

/-- One call site: the callee `o` (with more fuel `o'`) and the continuation `g` (with more fuel
`g'`). -/
theorem mono_call {α β : Type} {o p : Outcome α} {g k : α → Interpreter → Outcome β}
    {r r' : Outcome β}
    (hr : ∀ why s, o = .halt why s → r = .halt why s)
    (hr' : ∀ why s, p = .halt why s → r' = .halt why s)
    (hk : ∀ v s, o = .ok v s → r = g v s)
    (hk' : ∀ v s, p = .ok v s → r' = k v s)
    (ho : NotFuel o → p = o)
    (hg : ∀ v s, o = .ok v s → NotFuel (g v s) → k v s = g v s)
    (hn : NotFuel r) : r' = r := by
  cases h : o with
  | halt why s =>
    have e := hr why s h
    have hno : NotFuel o := by
      rw [h]
      rw [e] at hn
      exact notFuel_halt.mpr (notFuel_halt.mp hn)
    have e' := hr' why s (by rw [ho hno]; exact h)
    rw [e, e']
  | ok v s =>
    have e := hk v s h
    have e' := hk' v s (by rw [ho (by rw [h]; exact notFuel_ok)]; exact h)
    rw [e, e']
    apply hg v s h
    rw [← e]
    exact hn

theorem exp_mono (fuel : Nat) :
    (∀ self, NotFuel (Exp fuel self) → Exp (fuel + 1) self = Exp fuel self) ∧
    (∀ self, NotFuel (Term fuel self) → Term (fuel + 1) self = Term fuel self) ∧
    (∀ r self, NotFuel (Exp2 fuel r self) → Exp2 (fuel + 1) r self = Exp2 fuel r self) ∧
    (∀ r self, NotFuel (Term2 fuel r self) → Term2 (fuel + 1) r self = Term2 fuel r self) ∧
    (∀ self, NotFuel (Power fuel self) → Power (fuel + 1) self = Power fuel self) ∧
    (∀ r self, NotFuel (Power_loop fuel r self) →
      Power_loop (fuel + 1) r self = Power_loop fuel r self) ∧
    (∀ self, NotFuel (Fact fuel self) → Fact (fuel + 1) self = Fact fuel self) := by
  have m1 : ¬ ('-' = '+') := by decide
  have m2 : ¬ ('/' = '*') := by decide
  induction fuel with
  | zero =>
    refine ⟨?_, ?_, ?_, ?_, ?_, ?_, ?_⟩
    · intro self h; simp only [Exp] at h; exact False.elim h
    · intro self h; simp only [Term] at h; exact False.elim h
    · intro r self h; simp only [Exp2] at h; exact False.elim h
    · intro r self h; simp only [Term2] at h; exact False.elim h
    · intro self h; simp only [Power] at h; exact False.elim h
    · intro r self h; simp only [Power_loop] at h; exact False.elim h
    · intro self h; simp only [Fact] at h; exact False.elim h
  | succ fuel ih =>
    obtain ⟨iExp, iTerm, iExp2, iTerm2, iPower, iLoop, iFact⟩ := ih
    refine ⟨?_, ?_, ?_, ?_, ?_, ?_, ?_⟩
    · intro self hn
      exact mono_call (o := Term fuel self) (p := Term (fuel + 1) self)
        (g := fun t s => Exp2 fuel t s) (k := fun t s => Exp2 (fuel + 1) t s)
        (fun why s h => by simp only [Exp, h]) (fun why s h => by simp only [Exp, h])
        (fun v s h => by simp only [Exp, h]) (fun v s h => by simp only [Exp, h])
        (iTerm self) (fun v s _ hg => iExp2 v s hg) hn
    · intro self hn
      exact mono_call (o := Power fuel self) (p := Power (fuel + 1) self)
        (g := fun t s => Term2 fuel t s) (k := fun t s => Term2 (fuel + 1) t s)
        (fun why s h => by simp only [Term, h]) (fun why s h => by simp only [Term, h])
        (fun v s h => by simp only [Term, h]) (fun v s h => by simp only [Term, h])
        (iPower self) (fun v s _ hg => iTerm2 v s hg) hn
    · intro r self hn
      by_cases hlt : self.indexx < self.progStr.length
      · cases hp : peek self with
        | none => simp only [Exp2, hlt, if_true, hp]
        | some a =>
          by_cases h1 : a = '+'
          · exact mono_call (o := Term fuel (advance self 1)) (p := Term (fuel + 1) (advance self 1))
              (g := fun t s => Exp2 fuel (wrap32 (r + t)) s)
              (k := fun t s => Exp2 (fuel + 1) (wrap32 (r + t)) s)
              (fun why s h => by simp only [Exp2, hlt, if_true, hp, h1, h])
              (fun why s h => by simp only [Exp2, hlt, if_true, hp, h1, h])
              (fun v s h => by simp only [Exp2, hlt, if_true, hp, h1, h])
              (fun v s h => by simp only [Exp2, hlt, if_true, hp, h1, h])
              (iTerm _) (fun v s _ hg => iExp2 _ s hg) hn
          · by_cases h2 : a = '-'
            · subst h2
              exact mono_call (o := Term fuel (advance self 1))
                (p := Term (fuel + 1) (advance self 1))
                (g := fun t s => Exp2 fuel (wrap32 (r - t)) s)
                (k := fun t s => Exp2 (fuel + 1) (wrap32 (r - t)) s)
                (fun why s h => by simp only [Exp2, hlt, if_true, hp, m1, if_false, h])
                (fun why s h => by simp only [Exp2, hlt, if_true, hp, m1, if_false, h])
                (fun v s h => by simp only [Exp2, hlt, if_true, hp, m1, if_false, h])
                (fun v s h => by simp only [Exp2, hlt, if_true, hp, m1, if_false, h])
                (iTerm _) (fun v s _ hg => iExp2 _ s hg) hn
            · simp only [Exp2, hlt, if_true, hp, h1, h2, if_false]
      · simp only [Exp2, hlt, if_false]
    · intro r self hn
      by_cases hlt : self.indexx < self.progStr.length
      · cases hp : peek self with
        | none => simp only [Term2, hlt, if_true, hp]
        | some a =>
          by_cases h1 : a = '*'
          · exact mono_call (o := Power fuel (advance self 1))
              (p := Power (fuel + 1) (advance self 1))
              (g := fun t s => Term2 fuel (wrap32 (r * t)) s)
              (k := fun t s => Term2 (fuel + 1) (wrap32 (r * t)) s)
              (fun why s h => by simp only [Term2, hlt, if_true, hp, h1, h])
              (fun why s h => by simp only [Term2, hlt, if_true, hp, h1, h])
              (fun v s h => by simp only [Term2, hlt, if_true, hp, h1, h])
              (fun v s h => by simp only [Term2, hlt, if_true, hp, h1, h])
              (iPower _) (fun v s _ hg => iTerm2 _ s hg) hn
          · by_cases h2 : a = '/'
            · subst h2
              exact mono_call (o := Power fuel (advance self 1))
                (p := Power (fuel + 1) (advance self 1))
                (g := fun t s => match idiv r t with
                  | none => Outcome.halt (.undefined .division) s
                  | some q => Term2 fuel q s)
                (k := fun t s => match idiv r t with
                  | none => Outcome.halt (.undefined .division) s
                  | some q => Term2 (fuel + 1) q s)
                (fun why s h => by simp only [Term2, hlt, if_true, hp, m2, if_false, h])
                (fun why s h => by simp only [Term2, hlt, if_true, hp, m2, if_false, h])
                (fun v s h => by simp only [Term2, hlt, if_true, hp, m2, if_false, h])
                (fun v s h => by simp only [Term2, hlt, if_true, hp, m2, if_false, h])
                (iPower _)
                (fun v s _ hg => by
                  cases hq : idiv r v with
                  | none => simp only [hq]
                  | some q =>
                    simp only [hq] at hg ⊢
                    exact iTerm2 _ s hg) hn
            · simp only [Term2, hlt, if_true, hp, h1, h2, if_false]
      · simp only [Term2, hlt, if_false]
    · intro self hn
      exact mono_call (o := Fact fuel self) (p := Fact (fuel + 1) self)
        (g := fun t s => Power_loop fuel t s) (k := fun t s => Power_loop (fuel + 1) t s)
        (fun why s h => by simp only [Power, h]) (fun why s h => by simp only [Power, h])
        (fun v s h => by simp only [Power, h]) (fun v s h => by simp only [Power, h])
        (iFact self) (fun v s _ hg => iLoop v s hg) hn
    · intro r self hn
      by_cases hc : self.indexx < self.progStr.length ∧ peek self = some '^'
      · exact mono_call (o := Power fuel (advance self 1))
          (p := Power (fuel + 1) (advance self 1))
          (g := fun t s => match pow r t with
            | none => Outcome.halt (.undefined .narrowing) s
            | some q => Power_loop fuel q s)
          (k := fun t s => match pow r t with
            | none => Outcome.halt (.undefined .narrowing) s
            | some q => Power_loop (fuel + 1) q s)
          (fun why s h => by simp only [Power_loop, hc, and_self, if_true, h])
          (fun why s h => by simp only [Power_loop, hc, and_self, if_true, h])
          (fun v s h => by simp only [Power_loop, hc, and_self, if_true, h])
          (fun v s h => by simp only [Power_loop, hc, and_self, if_true, h])
          (iPower _)
          (fun v s _ hg => by
            cases hq : pow r v with
            | none => simp only [hq]
            | some q =>
              simp only [hq] at hg ⊢
              exact iLoop _ s hg) hn
      · simp only [Power_loop, hc, if_false]
    · intro self hn
      cases hp : peek self with
      | none => simp only [Fact, hp]
      | some c =>
        by_cases h1 : c = '('
        · exact mono_call (o := Exp fuel (advance self 1)) (p := Exp (fuel + 1) (advance self 1))
            (g := fun v s => Outcome.ok v (advance s 1))
            (k := fun v s => Outcome.ok v (advance s 1))
            (fun why s h => by simp only [Fact, hp, h1, if_true, h])
            (fun why s h => by simp only [Fact, hp, h1, if_true, h])
            (fun v s h => by simp only [Fact, hp, h1, if_true, h])
            (fun v s h => by simp only [Fact, hp, h1, if_true, h])
            (iExp _) (fun v s _ _ => rfl) hn
        · simp only [Fact, hp, h1, if_false]

/-! ## The fuel that is enough -/

theorem mono_le {α : Type} (f : Nat → Outcome α) (h : ∀ n, NotFuel (f n) → f (n + 1) = f n)
    (n m : Nat) (hnm : n ≤ m) (hn : NotFuel (f n)) : f m = f n := by
  induction m with
  | zero =>
    have : n = 0 := by omega
    rw [this]
  | succ m ih =>
    rcases Nat.lt_or_ge m n with hlt | hge
    · have : n = m + 1 := by omega
      rw [this]
    · have e := ih hge
      rw [h m (by rw [e]; exact hn), e]

theorem remaining_after {self s : Interpreter} (hp : s.progStr = self.progStr)
    (ha : self.indexx < self.progStr.length ∧ self.indexx < s.indexx) :
    remaining s + 1 ≤ remaining self := by
  unfold remaining
  rw [hp]
  omega

theorem remaining_advance {self : Interpreter} (h : self.indexx < self.progStr.length) :
    remaining (advance self 1) + 1 = remaining self := by
  unfold remaining advance
  simp only []
  omega

theorem exp_same {fuel : Nat} {self s : Interpreter} {v : Int} (h : Exp fuel self = .ok v s) :
    Same self s := by
  have := (exp_inv fuel).1 self
  rw [h] at this
  exact this.1

theorem term_same {fuel : Nat} {self s : Interpreter} {v : Int} (h : Term fuel self = .ok v s) :
    Same self s := by
  have := (exp_inv fuel).2.1 self
  rw [h] at this
  exact this.1

theorem power_same {fuel : Nat} {self s : Interpreter} {v : Int}
    (h : Power fuel self = .ok v s) : Same self s := by
  have := (exp_inv fuel).2.2.2.2.1 self
  rw [h] at this
  exact this.1

theorem fact_same {fuel : Nat} {self s : Interpreter} {v : Int} (h : Fact fuel self = .ok v s) :
    Same self s := by
  have := (exp_inv fuel).2.2.2.2.2.2 self
  rw [h] at this
  exact this.1

/-- Every expression procedure finishes when its fuel is at least four times the number of
characters left, plus its own depth in the chain `Exp`, `Term`, `Power`, `Fact`. -/
theorem exp_enough (fuel : Nat) :
    (∀ self, 4 * remaining self + 4 ≤ fuel → NotFuel (Exp fuel self)) ∧
    (∀ self, 4 * remaining self + 3 ≤ fuel → NotFuel (Term fuel self)) ∧
    (∀ r self, 4 * remaining self + 1 ≤ fuel → NotFuel (Exp2 fuel r self)) ∧
    (∀ r self, 4 * remaining self + 1 ≤ fuel → NotFuel (Term2 fuel r self)) ∧
    (∀ self, 4 * remaining self + 2 ≤ fuel → NotFuel (Power fuel self)) ∧
    (∀ r self, 4 * remaining self + 1 ≤ fuel → NotFuel (Power_loop fuel r self)) ∧
    (∀ self, 4 * remaining self + 1 ≤ fuel → NotFuel (Fact fuel self)) := by
  have m1 : ¬ ('-' = '+') := by decide
  have m2 : ¬ ('/' = '*') := by decide
  induction fuel with
  | zero =>
    refine ⟨?_, ?_, ?_, ?_, ?_, ?_, ?_⟩ <;> intros <;> omega
  | succ fuel ih =>
    obtain ⟨iExp, iTerm, iExp2, iTerm2, iPower, iLoop, iFact⟩ := ih
    obtain ⟨aExp, aTerm, _, _, aPower, _, aFact⟩ := exp_advances fuel
    refine ⟨?_, ?_, ?_, ?_, ?_, ?_, ?_⟩
    · intro self hb
      cases h : Term fuel self with
      | halt why s =>
        have := iTerm self (by omega)
        rw [h] at this
        simp only [Exp, h]
        exact this
      | ok t s =>
        simp only [Exp, h]
        have := remaining_after (term_same h).1 (aTerm self t s h)
        exact iExp2 t s (by omega)
    · intro self hb
      cases h : Power fuel self with
      | halt why s =>
        have := iPower self (by omega)
        rw [h] at this
        simp only [Term, h]
        exact this
      | ok t s =>
        simp only [Term, h]
        have := remaining_after (power_same h).1 ((aPower self).1 t s h)
        exact iTerm2 t s (by omega)
    · intro r self hb
      by_cases hlt : self.indexx < self.progStr.length
      · have hrem := remaining_advance hlt
        cases hp : peek self with
        | none => simp only [Exp2, hlt, if_true, hp]; trivial
        | some a =>
          by_cases h1 : a = '+'
          · subst h1
            cases h : Term fuel (advance self 1) with
            | halt why s =>
              have := iTerm (advance self 1) (by omega)
              rw [h] at this
              simp only [Exp2, hlt, if_true, hp, h]
              exact this
            | ok t s =>
              simp only [Exp2, hlt, if_true, hp, h]
              have := remaining_after (term_same h).1 (aTerm _ t s h)
              exact iExp2 _ s (by omega)
          · by_cases h2 : a = '-'
            · subst h2
              cases h : Term fuel (advance self 1) with
              | halt why s =>
                have := iTerm (advance self 1) (by omega)
                rw [h] at this
                simp only [Exp2, hlt, if_true, hp, m1, if_false, h]
                exact this
              | ok t s =>
                simp only [Exp2, hlt, if_true, hp, m1, if_false, h]
                have := remaining_after (term_same h).1 (aTerm _ t s h)
                exact iExp2 _ s (by omega)
            · simp only [Exp2, hlt, if_true, hp, h1, h2, if_false]; trivial
      · simp only [Exp2, hlt, if_false]; trivial
    · intro r self hb
      by_cases hlt : self.indexx < self.progStr.length
      · have hrem := remaining_advance hlt
        cases hp : peek self with
        | none => simp only [Term2, hlt, if_true, hp]; trivial
        | some a =>
          by_cases h1 : a = '*'
          · subst h1
            cases h : Power fuel (advance self 1) with
            | halt why s =>
              have := iPower (advance self 1) (by omega)
              rw [h] at this
              simp only [Term2, hlt, if_true, hp, h]
              exact this
            | ok t s =>
              simp only [Term2, hlt, if_true, hp, h]
              have := remaining_after (power_same h).1 ((aPower _).1 t s h)
              exact iTerm2 _ s (by omega)
          · by_cases h2 : a = '/'
            · subst h2
              cases h : Power fuel (advance self 1) with
              | halt why s =>
                have := iPower (advance self 1) (by omega)
                rw [h] at this
                simp only [Term2, hlt, if_true, hp, m2, if_false, h]
                exact this
              | ok t s =>
                simp only [Term2, hlt, if_true, hp, m2, if_false, h]
                have := remaining_after (power_same h).1 ((aPower _).1 t s h)
                cases hq : idiv r t with
                | none => trivial
                | some q => exact iTerm2 _ s (by omega)
            · simp only [Term2, hlt, if_true, hp, h1, h2, if_false]; trivial
      · simp only [Term2, hlt, if_false]; trivial
    · intro self hb
      cases h : Fact fuel self with
      | halt why s =>
        have := iFact self (by omega)
        rw [h] at this
        simp only [Power, h]
        exact this
      | ok t s =>
        simp only [Power, h]
        have := remaining_after (fact_same h).1 (aFact self t s h)
        exact iLoop t s (by omega)
    · intro r self hb
      by_cases hc : self.indexx < self.progStr.length ∧ peek self = some '^'
      · have hrem := remaining_advance hc.1
        cases h : Power fuel (advance self 1) with
        | halt why s =>
          have := iPower (advance self 1) (by omega)
          rw [h] at this
          simp only [Power_loop, hc, and_self, if_true, h]
          exact this
        | ok t s =>
          simp only [Power_loop, hc, and_self, if_true, h]
          have := remaining_after (power_same h).1 ((aPower _).1 t s h)
          cases hq : pow r t with
          | none => trivial
          | some q => exact iLoop _ s (by omega)
      · simp only [Power_loop, hc, if_false]; trivial
    · intro self hb
      cases hp : peek self with
      | none => simp only [Fact, hp]; trivial
      | some c =>
        by_cases h1 : c = '('
        · subst h1
          obtain ⟨rest, hat⟩ := peek_some_at hp (by decide)
          have hrem := remaining_advance hat.lt
          cases h : Exp fuel (advance self 1) with
          | halt why s =>
            have := iExp (advance self 1) (by omega)
            rw [h] at this
            simp only [Fact, hp, if_true, h]
            exact this
          | ok t s =>
            simp only [Fact, hp, if_true, h]
            trivial
        · simp only [Fact, hp, h1, if_false]
          split
          · trivial
          · split
            · cases hid : id self with
              | halt why s =>
                obtain ⟨_, hw⟩ := id_halt hid
                simp only []
                cases why <;> first | trivial | exact absurd rfl (id_not_fuel hid)
              | ok name s =>
                simp only []
                split <;> trivial
            · trivial

/-! ## Statements and declarations: text, cursor and fuel -/

theorem exp_text (fuel : Nat) (self : Interpreter) :
    (Exp fuel self).state.progStr = self.progStr :=
  ((exp_inv fuel).1 self).1.1

theorem id_text (self : Interpreter) : (id self).state.progStr = self.progStr := by
  unfold id
  split
  · rfl
  · split <;> rfl

theorem print_st_text (fuel : Nat) (self : Interpreter) :
    (print_st fuel self).state.progStr = self.progStr := by
  have h := exp_text fuel (advance self 5)
  unfold print_st
  cases he : Exp fuel (advance self 5) with
  | halt why s => rw [he] at h; exact h
  | ok v s =>
    rw [he] at h
    simp only []
    split
    · exact h
    · split <;> exact h

theorem print_st_advances (fuel : Nat) (self : Interpreter) :
    Advances self (print_st fuel self) := by
  intro u s' h
  unfold print_st at h
  cases he : Exp fuel (advance self 5) with
  | halt why s => rw [he] at h; cases h
  | ok v s =>
    rw [he] at h
    simp only [] at h
    have ha := (exp_advances fuel).1 (advance self 5) v s he
    have ha1 : self.indexx + 5 < self.progStr.length := ha.1
    have ha2 : self.indexx + 5 < s.indexx := ha.2
    split at h
    · cases h
    · split at h
      · injection h with _ h2
        rw [← h2]
        refine ⟨by omega, ?_⟩
        show self.indexx < s.indexx + 1
        omega
      · cases h

theorem assign_st_text (fuel : Nat) (self : Interpreter) :
    (assign_st fuel self).state.progStr = self.progStr := by
  have hi := id_text self
  unfold assign_st
  cases hid : id self with
  | halt why s => rw [hid] at hi; exact hi
  | ok name s1 =>
    rw [hid] at hi
    simp only []
    split
    · exact hi
    · split
      · have h := exp_text fuel (advance s1 1)
        cases he : Exp fuel (advance s1 1) with
        | halt why s => rw [he] at h; exact h.trans hi
        | ok v s =>
          rw [he] at h
          simp only []
          split
          · exact h.trans hi
          · split
            · exact h.trans hi
            · split <;> exact h.trans hi
      · exact hi

theorem assign_st_advances (fuel : Nat) (self : Interpreter) :
    Advances self (assign_st fuel self) := by
  intro u s' h
  unfold assign_st at h
  cases hid : id self with
  | halt why s => rw [hid] at h; cases h
  | ok name s1 =>
    rw [hid] at h
    simp only [] at h
    have ha := id_advances self name s1 hid
    split at h
    · cases h
    · split at h
      · cases he : Exp fuel (advance s1 1) with
        | halt why s => rw [he] at h; cases h
        | ok v s =>
          rw [he] at h
          simp only [] at h
          have hb := ((exp_advances fuel).1 (advance s1 1) v s he).2
          have hb' : s1.indexx + 1 < s.indexx := hb
          split at h
          · cases h
          · split at h
            · cases h
            · split at h
              · injection h with _ h2
                rw [← h2]
                refine ⟨ha.1, ?_⟩
                show self.indexx < s.indexx + 1
                omega
              · cases h
      · cases h

theorem statement_text (fuel : Nat) (self : Interpreter) :
    (statement fuel self).state.progStr = self.progStr := by
  unfold statement
  split
  · rfl
  · split
    · exact print_st_text fuel self
    · exact assign_st_text fuel self

theorem statement_advances (fuel : Nat) (self : Interpreter) :
    Advances self (statement fuel self) := by
  unfold statement
  split
  · exact advances_halt
  · split
    · exact print_st_advances fuel self
    · exact assign_st_advances fuel self

theorem statements_text (fuel : Nat) (self : Interpreter) :
    (statements fuel self).state.progStr = self.progStr := by
  induction fuel generalizing self with
  | zero => rfl
  | succ fuel ih =>
    simp only [statements]
    split
    · rfl
    · split
      · have h := statement_text fuel self
        cases hs : statement fuel self with
        | halt why s => rw [hs] at h; exact h
        | ok u s =>
          rw [hs] at h
          simp only []
          rw [ih]
          exact h
      · rfl

theorem print_st_enough (fuel : Nat) (self : Interpreter)
    (hb : 4 * remaining self + 4 ≤ fuel) : NotFuel (print_st fuel self) := by
  have hr : remaining (advance self 5) ≤ remaining self := by
    unfold remaining advance
    simp only []
    omega
  have h := (exp_enough fuel).1 (advance self 5) (by omega)
  unfold print_st
  cases he : Exp fuel (advance self 5) with
  | halt why s => rw [he] at h; exact notFuel_halt.mpr (notFuel_halt.mp h)
  | ok v s =>
    simp only []
    split
    · trivial
    · split <;> trivial

theorem assign_st_enough (fuel : Nat) (self : Interpreter)
    (hb : 4 * remaining self + 4 ≤ fuel) : NotFuel (assign_st fuel self) := by
  unfold assign_st
  cases hid : id self with
  | halt why s => exact notFuel_halt.mpr (id_not_fuel hid)
  | ok name s1 =>
    simp only []
    have ha := id_advances self name s1 hid
    have ht := id_text self
    rw [hid] at ht
    have hr : remaining (advance s1 1) ≤ remaining self := by
      have e : s1.progStr = self.progStr := ht
      unfold remaining advance
      simp only []
      rw [e]
      omega
    split
    · trivial
    · split
      · have h := (exp_enough fuel).1 (advance s1 1) (by omega)
        cases he : Exp fuel (advance s1 1) with
        | halt why s => rw [he] at h; exact notFuel_halt.mpr (notFuel_halt.mp h)
        | ok v s =>
          simp only []
          split
          · trivial
          · split
            · trivial
            · split <;> trivial
      · trivial

theorem statement_enough (fuel : Nat) (self : Interpreter)
    (hb : 4 * remaining self + 4 ≤ fuel) : NotFuel (statement fuel self) := by
  unfold statement
  split
  · trivial
  · split
    · exact print_st_enough fuel self hb
    · exact assign_st_enough fuel self hb

theorem statements_enough (fuel : Nat) (self : Interpreter)
    (hb : 4 * remaining self + 5 ≤ fuel) : NotFuel (statements fuel self) := by
  induction fuel generalizing self with
  | zero => omega
  | succ fuel ih =>
    simp only [statements]
    split
    · trivial
    · split
      · have h := statement_enough fuel self (by omega)
        cases hs : statement fuel self with
        | halt why s => rw [hs] at h; exact h
        | ok u s =>
          simp only []
          have ht := statement_text fuel self
          rw [hs] at ht
          have ht' : s.progStr = self.progStr := ht
          have := remaining_after ht' (statement_advances fuel self u s hs)
          exact ih s (by omega)
      · trivial

theorem id_list_text (fuel : Nat) (varType : String) (self : Interpreter) :
    (id_list fuel varType self).state.progStr = self.progStr := by
  induction fuel generalizing self with
  | zero => rfl
  | succ fuel ih =>
    simp only [id_list]
    have hi := id_text self
    cases hid : id self with
    | halt why s => rw [hid] at hi; exact hi
    | ok name s =>
      rw [hid] at hi
      simp only []
      split
      · exact hi
      · split
        · rw [ih]
          exact hi
        · exact hi

theorem id_list_advances (fuel : Nat) (varType : String) (self : Interpreter) :
    Advances self (id_list fuel varType self) := by
  induction fuel generalizing self with
  | zero => exact advances_halt
  | succ fuel ih =>
    simp only [id_list]
    cases hid : id self with
    | halt why s => exact advances_halt
    | ok name s =>
      simp only []
      have ha := id_advances self name s hid
      split
      · exact advances_halt
      · split
        · intro u s' h
          have hb := (ih _ u s' h).2
          have hb' : s.indexx + 1 < s'.indexx := hb
          exact ⟨ha.1, by omega⟩
        · intro u s' h
          injection h with _ h2
          rw [← h2]
          exact ha

theorem id_list_enough (fuel : Nat) (varType : String) (self : Interpreter)
    (hb : 4 * remaining self + 1 ≤ fuel) : NotFuel (id_list fuel varType self) := by
  induction fuel generalizing self with
  | zero => omega
  | succ fuel ih =>
    simp only [id_list]
    cases hid : id self with
    | halt why s => exact notFuel_halt.mpr (id_not_fuel hid)
    | ok name s =>
      simp only []
      have ha := id_advances self name s hid
      have ht := id_text self
      rw [hid] at ht
      have ht' : s.progStr = self.progStr := ht
      split
      · trivial
      · split
        · apply ih
          have hr : ∀ t : SymbolTable,
              remaining (advance { s with symbolTable := t } 1) + 1 ≤ remaining self := by
            intro t
            unfold remaining advance
            simp only []
            rw [ht']
            omega
          have := hr (s.symbolTable.addVariable name varType)
          omega
        · trivial

theorem type_text (self : Interpreter) : (type self).state.progStr = self.progStr := by
  unfold type
  split
  · rfl
  · split
    · rfl
    · split
      · rfl
      · split <;> rfl

theorem type_keeps (self : Interpreter) : Keeps self (type self) := by
  intro v s h
  unfold type at h
  split at h
  · cases h
  · split at h
    · injection h with _ h2
      rw [← h2]
      exact Nat.le_add_right _ _
    · split at h
      · cases h
      · split at h
        · injection h with _ h2
          rw [← h2]
          exact Nat.le_add_right _ _
        · cases h

theorem type_not_fuel (self : Interpreter) : NotFuel (type self) := by
  unfold type
  split
  · trivial
  · split
    · trivial
    · split
      · trivial
      · split <;> trivial

theorem declaration_text (fuel : Nat) (self : Interpreter) :
    (declaration fuel self).state.progStr = self.progStr := by
  unfold declaration
  have h1 := type_text self
  cases ht : type self with
  | halt why s => rw [ht] at h1; exact h1
  | ok varType s1 =>
    rw [ht] at h1
    simp only []
    have h2 := id_list_text fuel varType s1
    cases hl : id_list fuel varType s1 with
    | halt why s => rw [hl] at h2; exact h2.trans h1
    | ok u s2 =>
      rw [hl] at h2
      simp only []
      split
      · exact h2.trans h1
      · split <;> exact h2.trans h1

theorem declaration_advances (fuel : Nat) (self : Interpreter) :
    Advances self (declaration fuel self) := by
  intro u s' h
  unfold declaration at h
  cases ht : type self with
  | halt why s => rw [ht] at h; cases h
  | ok varType s1 =>
    rw [ht] at h
    simp only [] at h
    have hk := type_keeps self varType s1 ht
    have h1 := type_text self
    rw [ht] at h1
    have h1' : s1.progStr = self.progStr := h1
    cases hl : id_list fuel varType s1 with
    | halt why s => rw [hl] at h; cases h
    | ok u2 s2 =>
      rw [hl] at h
      simp only [] at h
      have ha := id_list_advances fuel varType s1 u2 s2 hl
      rw [h1'] at ha
      split at h
      · cases h
      · split at h
        · injection h with _ h2
          rw [← h2]
          refine ⟨by omega, ?_⟩
          show self.indexx < s2.indexx + 1
          omega
        · cases h

theorem declaration_enough (fuel : Nat) (self : Interpreter)
    (hb : 4 * remaining self + 1 ≤ fuel) : NotFuel (declaration fuel self) := by
  unfold declaration
  cases ht : type self with
  | halt why s =>
    have := type_not_fuel self
    rw [ht] at this
    exact notFuel_halt.mpr (notFuel_halt.mp this)
  | ok varType s1 =>
    simp only []
    have hk := type_keeps self varType s1 ht
    have h1 := type_text self
    rw [ht] at h1
    have h1' : s1.progStr = self.progStr := h1
    have hr : remaining s1 ≤ remaining self := by
      unfold remaining
      rw [h1']
      omega
    have h := id_list_enough fuel varType s1 (by omega)
    cases hl : id_list fuel varType s1 with
    | halt why s => rw [hl] at h; exact h
    | ok u2 s2 =>
      simp only []
      split
      · trivial
      · split <;> trivial

theorem declarations_text (fuel : Nat) (self : Interpreter) :
    (declarations fuel self).state.progStr = self.progStr := by
  induction fuel generalizing self with
  | zero => rfl
  | succ fuel ih =>
    simp only [declarations]
    split
    · split
      · split
        · have h := declaration_text fuel self
          cases hd : declaration fuel self with
          | halt why s => rw [hd] at h; exact h
          | ok u s =>
            rw [hd] at h
            simp only []
            rw [ih]
            exact h
        · rfl
      · rfl
    · rfl

theorem declarations_enough (fuel : Nat) (self : Interpreter)
    (hb : 4 * remaining self + 2 ≤ fuel) : NotFuel (declarations fuel self) := by
  induction fuel generalizing self with
  | zero => omega
  | succ fuel ih =>
    simp only [declarations]
    split
    · split
      · split
        · have h := declaration_enough fuel self (by omega)
          cases hd : declaration fuel self with
          | halt why s => rw [hd] at h; exact h
          | ok u s =>
            simp only []
            have ht := declaration_text fuel self
            rw [hd] at ht
            have ht' : s.progStr = self.progStr := ht
            have := remaining_after ht' (declaration_advances fuel self u s hd)
            exact ih s (by omega)
        · trivial
      · trivial
    · trivial

theorem remaining_le (self s : Interpreter) (h : s.progStr = self.progStr) :
    remaining s ≤ self.progStr.length := by
  unfold remaining
  rw [h]
  exact Nat.sub_le _ _

/-- The procedure `prog` finishes when its fuel is at least four times the length of the text
plus five. -/
theorem prog_enough (fuel : Nat) (self : Interpreter)
    (hb : 4 * self.progStr.length + 5 ≤ fuel) : NotFuel (prog fuel self) := by
  unfold prog
  split
  · trivial
  · split
    · have hd := declarations_enough fuel (advance self 7)
        (by have := remaining_le self (advance self 7) rfl; omega)
      have ht := declarations_text fuel (advance self 7)
      cases h : declarations fuel (advance self 7) with
      | halt why s => rw [h] at hd; exact hd
      | ok u d =>
        rw [h] at ht
        have ht' : d.progStr = self.progStr := ht
        simp only []
        split
        · trivial
        · split
          · have hs := statements_enough fuel (advance d 5)
              (by have := remaining_le self (advance d 5) ht'; omega)
            cases h2 : statements fuel (advance d 5) with
            | halt why s => rw [h2] at hs; exact hs
            | ok u2 s =>
              simp only []
              split
              · trivial
              · split <;> trivial
          · trivial
    · trivial

/-- The run of `main` never stops for lack of fuel. -/
theorem run_not_fuel (fileContent : String) : NotFuel (run fileContent) := by
  unfold run
  apply prog_enough
  simp only [budget]
  omega

/-! ## The ways in which a run ends -/

theorem peek_none_gt {s : Interpreter} (h : peek s = none) : s.progStr.length < s.indexx := by
  unfold peek at h
  split at h
  · cases h
  · rename_i hd
    split at h
    · cases h
    · have hl := congrArg List.length hd
      simp only [List.length_drop, List.length_nil] at hl
      omega

theorem peek_some_le {s : Interpreter} {c : Char} (h : peek s = some c) :
    s.indexx ≤ s.progStr.length := by
  unfold peek at h
  split at h
  · rename_i d rest hd
    have hl := congrArg List.length hd
    simp only [List.length_drop, List.length_cons] at hl
    omega
  · split at h
    · omega
    · cases h

theorem peek_some_lt {s : Interpreter} {c : Char} (h : peek s = some c)
    (hc : c ≠ Char.ofNat 0) : s.indexx + 1 ≤ s.progStr.length := by
  obtain ⟨rest, hat⟩ := peek_some_at h hc
  exact hat.lt

theorem substr_full {s : Interpreter} {n : Nat} {w : List Char} (h : substr s n = some w)
    (hw : w.length = n) : s.indexx + n ≤ s.progStr.length := by
  unfold substr at h
  split at h
  · injection h with h
    rw [← h, List.length_take, List.length_drop] at hw
    omega
  · cases h

theorem substr_some {s : Interpreter} (h : s.indexx ≤ s.progStr.length) (n : Nat) :
    substr s n = some ((s.progStr.drop s.indexx).take n) := by
  simp only [substr, h, if_true]

theorem substr_le {s : Interpreter} {n : Nat} {w : List Char} (h : substr s n = some w) :
    s.indexx ≤ s.progStr.length := by
  unfold substr at h
  split at h
  · assumption
  · cases h

theorem sound_cast {α β : Type} {why : Halt} {s : Interpreter}
    (h : Sound (Outcome.halt why s : Outcome α)) : Sound (Outcome.halt why s : Outcome β) := by
  cases why with
  | undefined u => cases u <;> exact h
  | exit d => exact True.intro
  | runtime_error w => exact h
  | out_of_range => exact h
  | fuel => exact True.intro

theorem setValueFrom_error_names (x : String) (v : Int) : ∀ (l : List Node) (w : String),
    (SymbolTable.setValueFrom l x v).2 = .error w → w = SymbolTable.undeclared x := by
  intro l
  induction l with
  | nil =>
    intro w h
    injection h with h
    exact h.symm
  | cons node rest ih =>
    intro w h
    by_cases hx : node.id = x
    · simp only [SymbolTable.setValueFrom, hx, if_true] at h
      cases h
    · simp only [SymbolTable.setValueFrom, hx, if_false] at h
      exact ih w h

/-- One call site: the outcome `r` of the caller is the failure of the callee `o`, or the
outcome of the continuation `g`. -/
theorem sound_call {α β : Type} {o : Outcome α} {g : α → Interpreter → Outcome β}
    {r : Outcome β}
    (hr : ∀ why s, o = .halt why s → r = .halt why s)
    (hg : ∀ v s, o = .ok v s → r = g v s)
    (ho : Sound o) (hc : ∀ v s, o = .ok v s → Sound (g v s)) : Sound r := by
  cases h : o with
  | halt why s =>
    rw [hr why s h]
    rw [h] at ho
    exact sound_cast ho
  | ok v s =>
    rw [hg v s h]
    exact hc v s h

theorem id_sound (self : Interpreter) : Sound (id self) := by
  unfold id
  cases hp : peek self with
  | none => exact peek_none_gt hp
  | some c =>
    simp only []
    split
    · exact True.intro
    · exact True.intro

/-- The expression procedures never call `substr`, and where they end at a character read
without a defined value the cursor is beyond the end of the text. -/
theorem exp_sound (fuel : Nat) :
    (∀ self, Sound (Exp fuel self)) ∧
    (∀ self, Sound (Term fuel self)) ∧
    (∀ r self, Sound (Exp2 fuel r self)) ∧
    (∀ r self, Sound (Term2 fuel r self)) ∧
    (∀ self, Sound (Power fuel self)) ∧
    (∀ r self, Sound (Power_loop fuel r self)) ∧
    (∀ self, Sound (Fact fuel self)) := by
  have m1 : ¬ ('-' = '+') := by decide
  have m2 : ¬ ('/' = '*') := by decide
  induction fuel with
  | zero =>
    refine ⟨?_, ?_, ?_, ?_, ?_, ?_, ?_⟩
    · intro self; simp only [Exp]; exact True.intro
    · intro self; simp only [Term]; exact True.intro
    · intro r self; simp only [Exp2]; exact True.intro
    · intro r self; simp only [Term2]; exact True.intro
    · intro self; simp only [Power]; exact True.intro
    · intro r self; simp only [Power_loop]; exact True.intro
    · intro self; simp only [Fact]; exact True.intro
  | succ fuel ih =>
    obtain ⟨iExp, iTerm, iExp2, iTerm2, iPower, iLoop, iFact⟩ := ih
    refine ⟨?_, ?_, ?_, ?_, ?_, ?_, ?_⟩
    · intro self
      exact sound_call (o := Term fuel self) (g := fun t s => Exp2 fuel t s)
        (fun why s h => by simp only [Exp, h]) (fun v s h => by simp only [Exp, h])
        (iTerm self) (fun v s _ => iExp2 v s)
    · intro self
      exact sound_call (o := Power fuel self) (g := fun t s => Term2 fuel t s)
        (fun why s h => by simp only [Term, h]) (fun v s h => by simp only [Term, h])
        (iPower self) (fun v s _ => iTerm2 v s)
    · intro r self
      by_cases hlt : self.indexx < self.progStr.length
      · cases hp : peek self with
        | none =>
          simp only [Exp2, hlt, if_true, hp]
          exact peek_none_gt hp
        | some a =>
          by_cases h1 : a = '+'
          · exact sound_call (o := Term fuel (advance self 1))
              (g := fun t s => Exp2 fuel (wrap32 (r + t)) s)
              (fun why s h => by simp only [Exp2, hlt, if_true, hp, h1, h])
              (fun v s h => by simp only [Exp2, hlt, if_true, hp, h1, h])
              (iTerm _) (fun v s _ => iExp2 _ s)
          · by_cases h2 : a = '-'
            · subst h2
              exact sound_call (o := Term fuel (advance self 1))
                (g := fun t s => Exp2 fuel (wrap32 (r - t)) s)
                (fun why s h => by simp only [Exp2, hlt, if_true, hp, m1, if_false, h])
                (fun v s h => by simp only [Exp2, hlt, if_true, hp, m1, if_false, h])
                (iTerm _) (fun v s _ => iExp2 _ s)
            · simp only [Exp2, hlt, if_true, hp, h1, h2, if_false]
              exact True.intro
      · simp only [Exp2, hlt, if_false]
        exact True.intro
    · intro r self
      by_cases hlt : self.indexx < self.progStr.length
      · cases hp : peek self with
        | none =>
          simp only [Term2, hlt, if_true, hp]
          exact peek_none_gt hp
        | some a =>
          by_cases h1 : a = '*'
          · exact sound_call (o := Power fuel (advance self 1))
              (g := fun t s => Term2 fuel (wrap32 (r * t)) s)
              (fun why s h => by simp only [Term2, hlt, if_true, hp, h1, h])
              (fun v s h => by simp only [Term2, hlt, if_true, hp, h1, h])
              (iPower _) (fun v s _ => iTerm2 _ s)
          · by_cases h2 : a = '/'
            · subst h2
              exact sound_call (o := Power fuel (advance self 1))
                (g := fun t s => match idiv r t with
                  | none => Outcome.halt (.undefined .division) s
                  | some q => Term2 fuel q s)
                (fun why s h => by simp only [Term2, hlt, if_true, hp, m2, if_false, h])
                (fun v s h => by simp only [Term2, hlt, if_true, hp, m2, if_false, h])
                (iPower _)
                (fun v s _ => by
                  cases hq : idiv r v with
                  | none => simp only [hq]; exact True.intro
                  | some q => simp only [hq]; exact iTerm2 _ s)
            · simp only [Term2, hlt, if_true, hp, h1, h2, if_false]
              exact True.intro
      · simp only [Term2, hlt, if_false]
        exact True.intro
    · intro self
      exact sound_call (o := Fact fuel self) (g := fun t s => Power_loop fuel t s)
        (fun why s h => by simp only [Power, h]) (fun v s h => by simp only [Power, h])
        (iFact self) (fun v s _ => iLoop v s)
    · intro r self
      by_cases hc : self.indexx < self.progStr.length ∧ peek self = some '^'
      · exact sound_call (o := Power fuel (advance self 1))
          (g := fun t s => match pow r t with
            | none => Outcome.halt (.undefined .narrowing) s
            | some q => Power_loop fuel q s)
          (fun why s h => by simp only [Power_loop, hc, and_self, if_true, h])
          (fun v s h => by simp only [Power_loop, hc, and_self, if_true, h])
          (iPower _)
          (fun v s _ => by
            cases hq : pow r v with
            | none => simp only [hq]; exact True.intro
            | some q => simp only [hq]; exact iLoop _ s)
      · simp only [Power_loop, hc, if_false]
        exact True.intro
    · intro self
      cases hp : peek self with
      | none =>
        simp only [Fact, hp]
        exact peek_none_gt hp
      | some c =>
        by_cases h1 : c = '('
        · exact sound_call (o := Exp fuel (advance self 1))
            (g := fun v s => Outcome.ok v (advance s 1))
            (fun why s h => by simp only [Fact, hp, h1, if_true, h])
            (fun v s h => by simp only [Fact, hp, h1, if_true, h])
            (iExp _) (fun v s _ => True.intro)
        · by_cases h2 : isdigit c = true
          · simp only [Fact, hp, h1, if_false, h2, if_true]
            exact True.intro
          · have h2 : isdigit c = false := by simpa using h2
            by_cases h3 : isalpha c = true
            · exact sound_call (o := id self)
                (g := fun varName s => match s.symbolTable.getValue varName with
                  | .error what => Outcome.halt (.runtime_error what) s
                  | .ok value => Outcome.ok value s)
                (fun why s h => by simp only [Fact, hp, h1, if_false, h2, Bool.false_eq_true, h3, if_true, h])
                (fun v s h => by simp only [Fact, hp, h1, if_false, h2, Bool.false_eq_true, h3, if_true, h])
                (id_sound self)
                (fun v s _ => by
                  cases hq : s.symbolTable.getValue v with
                  | error what =>
                    simp only [hq]
                    obtain ⟨x, hx, _⟩ := getValue_error hq
                    exact ⟨x, hx⟩
                  | ok value => simp only [hq]; exact True.intro)
            · simp only [Fact, hp, h1, if_false, h2, Bool.false_eq_true, h3]
              exact True.intro

theorem print_st_fine (fuel : Nat) (self : Interpreter) :
    Sound (print_st fuel self) ∧
    ∀ u s, print_st fuel self = .ok u s → s.indexx ≤ s.progStr.length := by
  have hs := (exp_sound fuel).1 (advance self 5)
  unfold print_st
  cases hE : Exp fuel (advance self 5) with
  | halt why s =>
    rw [hE] at hs
    exact ⟨sound_cast hs, fun u s' h => (by cases h)⟩
  | ok v s =>
    simp only []
    split
    · rename_i hp
      exact ⟨peek_none_gt hp, fun u s' h => (by cases h)⟩
    · rename_i c hp
      by_cases hc : c = ';'
      · simp only [hc, if_true]
        refine ⟨True.intro, fun u s' h => ?_⟩
        injection h with _ h2
        rw [← h2]
        subst hc
        exact peek_some_lt hp (by decide)
      · simp only [hc, if_false]
        exact ⟨True.intro, fun u s' h => (by cases h)⟩

theorem assign_st_fine (fuel : Nat) (self : Interpreter) :
    Sound (assign_st fuel self) ∧
    ∀ u s, assign_st fuel self = .ok u s → s.indexx ≤ s.progStr.length := by
  have hi := id_sound self
  unfold assign_st
  cases hid : id self with
  | halt why s =>
    rw [hid] at hi
    exact ⟨sound_cast hi, fun u s' h => (by cases h)⟩
  | ok name s1 =>
    simp only []
    split
    · rename_i hp
      exact ⟨peek_none_gt hp, fun u s' h => (by cases h)⟩
    · rename_i c hp
      by_cases hc : c = '='
      · simp only [hc, if_true]
        have hs := (exp_sound fuel).1 (advance s1 1)
        cases hE : Exp fuel (advance s1 1) with
        | halt why s =>
          rw [hE] at hs
          exact ⟨sound_cast hs, fun u s' h => (by cases h)⟩
        | ok v s =>
          simp only []
          split
          · rename_i table what hset
            refine ⟨⟨name, ?_⟩, fun u s' h => (by cases h)⟩
            exact setValueFrom_error_names name v _ what (congrArg Prod.snd hset)
          · split
            · rename_i hp2
              exact ⟨peek_none_gt hp2, fun u s' h => (by cases h)⟩
            · rename_i c2 hp2
              by_cases hc2 : c2 = ';'
              · simp only [hc2, if_true]
                refine ⟨True.intro, fun u s' h => ?_⟩
                injection h with _ h2
                rw [← h2]
                subst hc2
                exact peek_some_lt hp2 (by decide)
              · simp only [hc2, if_false]
                exact ⟨True.intro, fun u s' h => (by cases h)⟩
      · simp only [hc, if_false]
        exact ⟨True.intro, fun u s' h => (by cases h)⟩

theorem statement_fine (fuel : Nat) (self : Interpreter)
    (hle : self.indexx ≤ self.progStr.length) :
    Sound (statement fuel self) ∧
    ∀ u s, statement fuel self = .ok u s → s.indexx ≤ s.progStr.length := by
  unfold statement
  rw [substr_some hle]
  simp only []
  split
  · exact print_st_fine fuel self
  · exact assign_st_fine fuel self

theorem statements_fine (fuel : Nat) : ∀ self : Interpreter,
    self.indexx ≤ self.progStr.length →
    Sound (statements fuel self) ∧
    ∀ u s, statements fuel self = .ok u s → s.indexx ≤ s.progStr.length := by
  induction fuel with
  | zero =>
    intro self _
    exact ⟨True.intro, fun u s h => (by cases h)⟩
  | succ fuel ih =>
    intro self hle
    have hst := statement_fine fuel self hle
    unfold statements
    rw [substr_some hle]
    simp only []
    split
    · cases hS : statement fuel self with
      | halt why s =>
        rw [hS] at hst
        exact ⟨hst.1, fun u s' h => (by cases h)⟩
      | ok u s =>
        simp only []
        exact ih s (hst.2 u s hS)
    · refine ⟨True.intro, fun u s h => ?_⟩
      injection h with _ h2
      rw [← h2]
      exact hle

theorem type_fine (self : Interpreter) (hle : self.indexx ≤ self.progStr.length) :
    Sound (type self) ∧
    ∀ k s, type self = .ok k s → s.indexx ≤ s.progStr.length := by
  unfold type
  cases h3 : substr self 3 with
  | none =>
    rw [substr_some hle] at h3
    cases h3
  | some w =>
    simp only []
    by_cases hw : w = "int".toList
    · simp only [hw, if_true]
      refine ⟨True.intro, fun k s h => ?_⟩
      injection h with _ h2
      rw [← h2]
      exact substr_full h3 (by rw [hw]; rfl)
    · simp only [hw, if_false]
      cases h6 : substr self 6 with
      | none =>
        rw [substr_some hle] at h6
        cases h6
      | some w6 =>
        simp only []
        by_cases hw6 : w6 = "double".toList
        · simp only [hw6, if_true]
          refine ⟨True.intro, fun k s h => ?_⟩
          injection h with _ h2
          rw [← h2]
          exact substr_full h6 (by rw [hw6]; rfl)
        · simp only [hw6, if_false]
          exact ⟨True.intro, fun k s h => (by cases h)⟩

theorem id_list_fine (fuel : Nat) : ∀ (varType : String) (self : Interpreter),
    Sound (id_list fuel varType self) ∧
    ∀ u s, id_list fuel varType self = .ok u s → s.indexx ≤ s.progStr.length := by
  induction fuel with
  | zero =>
    intro varType self
    exact ⟨True.intro, fun u s h => (by cases h)⟩
  | succ fuel ih =>
    intro varType self
    have hi := id_sound self
    unfold id_list
    cases hid : id self with
    | halt why s =>
      rw [hid] at hi
      exact ⟨sound_cast hi, fun u s' h => (by cases h)⟩
    | ok name s1 =>
      simp only []
      split
      · rename_i hp
        exact ⟨peek_none_gt hp, fun u s' h => (by cases h)⟩
      · rename_i c hp
        by_cases hc : c = ','
        · simp only [hc, if_true]
          exact ih _ _
        · simp only [hc, if_false]
          refine ⟨True.intro, fun u s h => ?_⟩
          injection h with _ h2
          rw [← h2]
          exact peek_some_le hp

theorem declaration_fine (fuel : Nat) (self : Interpreter)
    (hle : self.indexx ≤ self.progStr.length) :
    Sound (declaration fuel self) ∧
    ∀ u s, declaration fuel self = .ok u s → s.indexx ≤ s.progStr.length := by
  have ht := type_fine self hle
  unfold declaration
  cases hT : type self with
  | halt why s =>
    rw [hT] at ht
    exact ⟨sound_cast ht.1, fun u s' h => (by cases h)⟩
  | ok k s1 =>
    simp only []
    have hl := id_list_fine fuel k s1
    cases hL : id_list fuel k s1 with
    | halt why s =>
      rw [hL] at hl
      exact ⟨hl.1, fun u s' h => (by cases h)⟩
    | ok u s2 =>
      simp only []
      split
      · rename_i hp
        exact ⟨peek_none_gt hp, fun u s' h => (by cases h)⟩
      · rename_i c hp
        by_cases hc : c = ';'
        · simp only [hc, if_true]
          refine ⟨True.intro, fun u s' h => ?_⟩
          injection h with _ h2
          rw [← h2]
          subst hc
          exact peek_some_lt hp (by decide)
        · simp only [hc, if_false]
          exact ⟨True.intro, fun u s' h => (by cases h)⟩

theorem declarations_fine (fuel : Nat) : ∀ self : Interpreter,
    self.indexx ≤ self.progStr.length →
    Sound (declarations fuel self) ∧
    ∀ u s, declarations fuel self = .ok u s → s.indexx ≤ s.progStr.length := by
  induction fuel with
  | zero =>
    intro self _
    exact ⟨True.intro, fun u s h => (by cases h)⟩
  | succ fuel ih =>
    intro self hle
    have hd := declaration_fine fuel self hle
    unfold declarations
    by_cases hlt : self.indexx < self.progStr.length
    · simp only [hlt, if_true, substr_some hle]
      split
      · cases hD : declaration fuel self with
        | halt why s =>
          rw [hD] at hd
          exact ⟨hd.1, fun u s' h => (by cases h)⟩
        | ok u s =>
          simp only []
          exact ih s (hd.2 u s hD)
      · refine ⟨True.intro, fun u s h => ?_⟩
        injection h with _ h2
        rw [← h2]
        exact hle
    · simp only [hlt, if_false]
      refine ⟨True.intro, fun u s h => ?_⟩
      injection h with _ h2
      rw [← h2]
      exact hle

theorem prog_sound (fuel : Nat) (self : Interpreter)
    (hle : self.indexx ≤ self.progStr.length) : Sound (prog fuel self) := by
  unfold prog
  rw [substr_some hle]
  simp only []
  split
  · rename_i hw
    have h7 : (advance self 7).indexx ≤ (advance self 7).progStr.length :=
      substr_full (substr_some hle 7) (by rw [hw]; rfl)
    have hd := declarations_fine fuel (advance self 7) h7
    cases hD : declarations fuel (advance self 7) with
    | halt why s =>
      rw [hD] at hd
      exact hd.1
    | ok u d =>
      simp only []
      have hdle := hd.2 u d hD
      rw [substr_some hdle]
      simp only []
      split
      · rename_i hw5
        have h5 : (advance d 5).indexx ≤ (advance d 5).progStr.length :=
          substr_full (substr_some hdle 5) (by rw [hw5]; rfl)
        have hs := statements_fine fuel (advance d 5) h5
        cases hS : statements fuel (advance d 5) with
        | halt why s =>
          rw [hS] at hs
          exact hs.1
        | ok u2 s2 =>
          simp only []
          have hsle := hs.2 u2 s2 hS
          rw [substr_some hsle]
          simp only []
          split
          · exact True.intro
          · exact True.intro
      · exact True.intro
  · exact True.intro

theorem run_sound (fileContent : String) : Sound (run fileContent) :=
  prog_sound _ _ (Nat.zero_le _)

/-! ## Without a parenthesised factor the cursor stays within the text -/

theorem digit_loop_le (l : List Char) (v : Int) (i : Nat) :
    (digit_loop l v i).2 ≤ i + l.length := by
  induction l generalizing v i with
  | nil => exact Nat.le_refl _
  | cons c l ih =>
    simp only [digit_loop]
    split
    · have := ih (wrap32 (v * 10 + ((c.toNat : Int) - 48))) (i + 1)
      simp only [List.length_cons]
      omega
    · simp only [List.length_cons]
      omega

theorem id_loop_le (l : List Char) (acc : String) (i : Nat) :
    (id_loop l acc i).2 ≤ i + l.length := by
  induction l generalizing acc i with
  | nil => exact Nat.le_refl _
  | cons c l ih =>
    simp only [id_loop]
    split
    · have := ih (acc.push c) (i + 1)
      simp only [List.length_cons]
      omega
    · simp only [List.length_cons]
      omega

theorem Inside.peek_some {s : Interpreter} (h : Inside s) : ∃ c, peek s = some c := by
  cases hp : peek s with
  | none =>
    have := peek_none_gt hp
    have := h.1
    omega
  | some c => exact ⟨c, rfl⟩

theorem Inside.not_paren {s : Interpreter} (h : Inside s) : peek s ≠ some '(' := by
  intro hp
  obtain ⟨rest, hat⟩ := peek_some_at hp (by decide)
  apply h.2
  have hm : '(' ∈ s.progStr.drop s.indexx := by
    rw [hat.2]
    exact List.mem_cons_self _ _
  exact List.mem_of_mem_drop hm

theorem Inside.forward {s : Interpreter} (h : Inside s) (hlt : s.indexx < s.progStr.length)
    (n : Nat) (hn : n = 1) : Inside (advance s n) := by
  subst hn
  exact ⟨hlt, h.2⟩

theorem Inside.of_peek {s : Interpreter} {c : Char} (h : Inside s) (hp : peek s = some c)
    (hc : c ≠ Char.ofNat 0) : Inside (advance s 1) :=
  ⟨peek_some_lt hp hc, h.2⟩

theorem Inside.of_substr {s : Interpreter} {n : Nat} {w : List Char} (h : Inside s)
    (hs : substr s n = some w) (hw : w.length = n) : Inside (advance s n) :=
  ⟨substr_full hs hw, h.2⟩

theorem within_cast {α β : Type} {why : Halt} {s : Interpreter}
    (h : Within (Outcome.halt why s : Outcome α)) : Within (Outcome.halt why s : Outcome β) := by
  cases why with
  | undefined u => cases u <;> exact h
  | exit d => exact True.intro
  | runtime_error w => exact True.intro
  | out_of_range => exact True.intro
  | fuel => exact True.intro

theorem within_call {α β : Type} {o : Outcome α} {g : α → Interpreter → Outcome β}
    {r : Outcome β}
    (hr : ∀ why s, o = .halt why s → r = .halt why s)
    (hg : ∀ v s, o = .ok v s → r = g v s)
    (ho : Within o) (hc : ∀ v s, Inside s → Within (g v s)) : Within r := by
  cases h : o with
  | halt why s =>
    rw [hr why s h]
    rw [h] at ho
    exact within_cast ho
  | ok v s =>
    rw [hg v s h]
    rw [h] at ho
    exact hc v s ho

theorem id_within (self : Interpreter) (hin : Inside self) : Within (id self) := by
  obtain ⟨c, hp⟩ := hin.peek_some
  unfold id
  rw [hp]
  simp only []
  split
  · refine ⟨?_, hin.2⟩
    have h1 := id_loop_le (self.progStr.drop self.indexx) "" self.indexx
    have h2 := hin.1
    simp only [List.length_drop] at h1
    show (id_loop (self.progStr.drop self.indexx) "" self.indexx).2 ≤ self.progStr.length
    omega
  · exact True.intro

theorem exp_within (fuel : Nat) :
    (∀ self, Inside self → Within (Exp fuel self)) ∧
    (∀ self, Inside self → Within (Term fuel self)) ∧
    (∀ r self, Inside self → Within (Exp2 fuel r self)) ∧
    (∀ r self, Inside self → Within (Term2 fuel r self)) ∧
    (∀ self, Inside self → Within (Power fuel self)) ∧
    (∀ r self, Inside self → Within (Power_loop fuel r self)) ∧
    (∀ self, Inside self → Within (Fact fuel self)) := by
  have m1 : ¬ ('-' = '+') := by decide
  have m2 : ¬ ('/' = '*') := by decide
  induction fuel with
  | zero =>
    refine ⟨?_, ?_, ?_, ?_, ?_, ?_, ?_⟩
    · intro self _; simp only [Exp]; exact True.intro
    · intro self _; simp only [Term]; exact True.intro
    · intro r self _; simp only [Exp2]; exact True.intro
    · intro r self _; simp only [Term2]; exact True.intro
    · intro self _; simp only [Power]; exact True.intro
    · intro r self _; simp only [Power_loop]; exact True.intro
    · intro self _; simp only [Fact]; exact True.intro
  | succ fuel ih =>
    obtain ⟨iExp, iTerm, iExp2, iTerm2, iPower, iLoop, iFact⟩ := ih
    refine ⟨?_, ?_, ?_, ?_, ?_, ?_, ?_⟩
    · intro self hin
      exact within_call (o := Term fuel self) (g := fun t s => Exp2 fuel t s)
        (fun why s h => by simp only [Exp, h]) (fun v s h => by simp only [Exp, h])
        (iTerm self hin) (fun v s hs => iExp2 v s hs)
    · intro self hin
      exact within_call (o := Power fuel self) (g := fun t s => Term2 fuel t s)
        (fun why s h => by simp only [Term, h]) (fun v s h => by simp only [Term, h])
        (iPower self hin) (fun v s hs => iTerm2 v s hs)
    · intro r self hin
      by_cases hlt : self.indexx < self.progStr.length
      · obtain ⟨a, hp⟩ := hin.peek_some
        by_cases h1 : a = '+'
        · exact within_call (o := Term fuel (advance self 1))
            (g := fun t s => Exp2 fuel (wrap32 (r + t)) s)
            (fun why s h => by simp only [Exp2, hlt, if_true, hp, h1, h])
            (fun v s h => by simp only [Exp2, hlt, if_true, hp, h1, h])
            (iTerm _ (hin.forward hlt 1 rfl)) (fun v s hs => iExp2 _ s hs)
        · by_cases h2 : a = '-'
          · subst h2
            exact within_call (o := Term fuel (advance self 1))
              (g := fun t s => Exp2 fuel (wrap32 (r - t)) s)
              (fun why s h => by simp only [Exp2, hlt, if_true, hp, m1, if_false, h])
              (fun v s h => by simp only [Exp2, hlt, if_true, hp, m1, if_false, h])
              (iTerm _ (hin.forward hlt 1 rfl)) (fun v s hs => iExp2 _ s hs)
          · simp only [Exp2, hlt, if_true, hp, h1, h2, if_false]
            exact hin
      · simp only [Exp2, hlt, if_false]
        exact hin
    · intro r self hin
      by_cases hlt : self.indexx < self.progStr.length
      · obtain ⟨a, hp⟩ := hin.peek_some
        by_cases h1 : a = '*'
        · exact within_call (o := Power fuel (advance self 1))
            (g := fun t s => Term2 fuel (wrap32 (r * t)) s)
            (fun why s h => by simp only [Term2, hlt, if_true, hp, h1, h])
            (fun v s h => by simp only [Term2, hlt, if_true, hp, h1, h])
            (iPower _ (hin.forward hlt 1 rfl)) (fun v s hs => iTerm2 _ s hs)
        · by_cases h2 : a = '/'
          · subst h2
            exact within_call (o := Power fuel (advance self 1))
              (g := fun t s => match idiv r t with
                | none => Outcome.halt (.undefined .division) s
                | some q => Term2 fuel q s)
              (fun why s h => by simp only [Term2, hlt, if_true, hp, m2, if_false, h])
              (fun v s h => by simp only [Term2, hlt, if_true, hp, m2, if_false, h])
              (iPower _ (hin.forward hlt 1 rfl))
              (fun v s hs => by
                cases hq : idiv r v with
                | none => simp only [hq]; exact True.intro
                | some q => simp only [hq]; exact iTerm2 _ s hs)
          · simp only [Term2, hlt, if_true, hp, h1, h2, if_false]
            exact hin
      · simp only [Term2, hlt, if_false]
        exact hin
    · intro self hin
      exact within_call (o := Fact fuel self) (g := fun t s => Power_loop fuel t s)
        (fun why s h => by simp only [Power, h]) (fun v s h => by simp only [Power, h])
        (iFact self hin) (fun v s hs => iLoop v s hs)
    · intro r self hin
      by_cases hc : self.indexx < self.progStr.length ∧ peek self = some '^'
      · exact within_call (o := Power fuel (advance self 1))
          (g := fun t s => match pow r t with
            | none => Outcome.halt (.undefined .narrowing) s
            | some q => Power_loop fuel q s)
          (fun why s h => by simp only [Power_loop, hc, and_self, if_true, h])
          (fun v s h => by simp only [Power_loop, hc, and_self, if_true, h])
          (iPower _ (hin.forward hc.1 1 rfl))
          (fun v s hs => by
            cases hq : pow r v with
            | none => simp only [hq]; exact True.intro
            | some q => simp only [hq]; exact iLoop _ s hs)
      · simp only [Power_loop, hc, if_false]
        exact hin
    · intro self hin
      obtain ⟨c, hp⟩ := hin.peek_some
      have h1 : ¬ c = '(' := by
        intro hc
        rw [hc] at hp
        exact hin.not_paren hp
      by_cases h2 : isdigit c = true
      · simp only [Fact, hp, h1, if_false, h2, if_true]
        refine ⟨?_, hin.2⟩
        have e1 := digit_loop_le (self.progStr.drop self.indexx) 0 self.indexx
        have e2 := hin.1
        simp only [List.length_drop] at e1
        show (digit_loop (self.progStr.drop self.indexx) 0 self.indexx).2 ≤ self.progStr.length
        omega
      · have h2 : isdigit c = false := by simpa using h2
        by_cases h3 : isalpha c = true
        · exact within_call (o := id self)
            (g := fun varName s => match s.symbolTable.getValue varName with
              | .error what => Outcome.halt (.runtime_error what) s
              | .ok value => Outcome.ok value s)
            (fun why s h => by
              simp only [Fact, hp, h1, if_false, h2, Bool.false_eq_true, h3, if_true, h])
            (fun v s h => by
              simp only [Fact, hp, h1, if_false, h2, Bool.false_eq_true, h3, if_true, h])
            (id_within self hin)
            (fun v s hs => by
              cases hq : s.symbolTable.getValue v with
              | error what => simp only [hq]; exact True.intro
              | ok value => simp only [hq]; exact hs)
        · simp only [Fact, hp, h1, if_false, h2, Bool.false_eq_true, h3]
          exact True.intro

theorem Inside.peek_defined {s : Interpreter} (h : Inside s) (hp : peek s = none) : False := by
  have := peek_none_gt hp
  have := h.1
  omega

theorem print_st_within (fuel : Nat) (self : Interpreter) (h5 : Inside (advance self 5)) :
    Within (print_st fuel self) := by
  have hs := (exp_within fuel).1 (advance self 5) h5
  unfold print_st
  cases hE : Exp fuel (advance self 5) with
  | halt why s =>
    rw [hE] at hs
    exact within_cast hs
  | ok v s =>
    rw [hE] at hs
    have hin : Inside { s with cout := s.cout ++ [toString v] } := hs
    simp only []
    split
    · rename_i hp
      exact (hin.peek_defined hp).elim
    · rename_i c hp
      by_cases hc : c = ';'
      · simp only [hc, if_true]
        subst hc
        exact hin.of_peek hp (by decide)
      · simp only [hc, if_false]
        exact True.intro

theorem assign_st_within (fuel : Nat) (self : Interpreter) (hin : Inside self) :
    Within (assign_st fuel self) := by
  have hi := id_within self hin
  unfold assign_st
  cases hid : id self with
  | halt why s =>
    rw [hid] at hi
    exact within_cast hi
  | ok name s1 =>
    rw [hid] at hi
    have hin1 : Inside s1 := hi
    simp only []
    split
    · rename_i hp
      exact (hin1.peek_defined hp).elim
    · rename_i c hp
      by_cases hc : c = '='
      · simp only [hc, if_true]
        subst hc
        have hs := (exp_within fuel).1 (advance s1 1) (hin1.of_peek hp (by decide))
        cases hE : Exp fuel (advance s1 1) with
        | halt why s =>
          rw [hE] at hs
          exact within_cast hs
        | ok v s =>
          rw [hE] at hs
          have hin2 : Inside s := hs
          simp only []
          split
          · exact True.intro
          · rename_i table _ _
            have hin3 : Inside { s with symbolTable := table } := hin2
            split
            · rename_i hp2
              exact (hin3.peek_defined hp2).elim
            · rename_i c2 hp2
              by_cases hc2 : c2 = ';'
              · simp only [hc2, if_true]
                subst hc2
                exact hin3.of_peek hp2 (by decide)
              · simp only [hc2, if_false]
                exact True.intro
      · simp only [hc, if_false]
        exact True.intro

theorem statement_within (fuel : Nat) (self : Interpreter) (hin : Inside self) :
    Within (statement fuel self) := by
  unfold statement
  have h5 := substr_some hin.1 5
  rw [h5]
  simp only []
  split
  · rename_i hw
    exact print_st_within fuel self (hin.of_substr h5 (by rw [hw]; rfl))
  · exact assign_st_within fuel self hin

theorem statements_within (fuel : Nat) : ∀ self : Interpreter, Inside self →
    Within (statements fuel self) := by
  induction fuel with
  | zero =>
    intro self _
    exact True.intro
  | succ fuel ih =>
    intro self hin
    have hst := statement_within fuel self hin
    unfold statements
    rw [substr_some hin.1]
    simp only []
    split
    · cases hS : statement fuel self with
      | halt why s =>
        rw [hS] at hst
        exact hst
      | ok u s =>
        rw [hS] at hst
        simp only []
        exact ih s hst
    · exact hin

theorem type_within (self : Interpreter) (hin : Inside self) : Within (type self) := by
  unfold type
  have h3 := substr_some hin.1 3
  have h6 := substr_some hin.1 6
  rw [h3]
  simp only []
  split
  · rename_i hw
    exact hin.of_substr h3 (by rw [hw]; rfl)
  · rw [h6]
    simp only []
    split
    · rename_i hw
      exact hin.of_substr h6 (by rw [hw]; rfl)
    · exact True.intro

theorem id_list_within (fuel : Nat) : ∀ (varType : String) (self : Interpreter),
    Inside self → Within (id_list fuel varType self) := by
  induction fuel with
  | zero =>
    intro varType self _
    exact True.intro
  | succ fuel ih =>
    intro varType self hin
    have hi := id_within self hin
    unfold id_list
    cases hid : id self with
    | halt why s =>
      rw [hid] at hi
      exact within_cast hi
    | ok name s1 =>
      rw [hid] at hi
      have hin1 : Inside { s1 with symbolTable := s1.symbolTable.addVariable name varType } := hi
      simp only []
      split
      · rename_i hp
        exact (hin1.peek_defined hp).elim
      · rename_i c hp
        by_cases hc : c = ','
        · simp only [hc, if_true]
          subst hc
          exact ih _ _ (hin1.of_peek hp (by decide))
        · simp only [hc, if_false]
          exact hin1

theorem declaration_within (fuel : Nat) (self : Interpreter) (hin : Inside self) :
    Within (declaration fuel self) := by
  have ht := type_within self hin
  unfold declaration
  cases hT : type self with
  | halt why s =>
    rw [hT] at ht
    exact within_cast ht
  | ok k s1 =>
    rw [hT] at ht
    simp only []
    have hl := id_list_within fuel k s1 ht
    cases hL : id_list fuel k s1 with
    | halt why s =>
      rw [hL] at hl
      exact hl
    | ok u s2 =>
      rw [hL] at hl
      have hin2 : Inside s2 := hl
      simp only []
      split
      · rename_i hp
        exact (hin2.peek_defined hp).elim
      · rename_i c hp
        by_cases hc : c = ';'
        · simp only [hc, if_true]
          subst hc
          exact hin2.of_peek hp (by decide)
        · simp only [hc, if_false]
          exact True.intro

theorem declarations_within (fuel : Nat) : ∀ self : Interpreter, Inside self →
    Within (declarations fuel self) := by
  induction fuel with
  | zero =>
    intro self _
    exact True.intro
  | succ fuel ih =>
    intro self hin
    have hd := declaration_within fuel self hin
    unfold declarations
    by_cases hlt : self.indexx < self.progStr.length
    · simp only [hlt, if_true, substr_some hin.1]
      split
      · cases hD : declaration fuel self with
        | halt why s =>
          rw [hD] at hd
          exact hd
        | ok u s =>
          rw [hD] at hd
          simp only []
          exact ih s hd
      · exact hin
    · simp only [hlt, if_false]
      exact hin

theorem prog_within (fuel : Nat) (self : Interpreter) (hin : Inside self) :
    Within (prog fuel self) := by
  unfold prog
  have h7 := substr_some hin.1 7
  rw [h7]
  simp only []
  split
  · rename_i hw
    have hd := declarations_within fuel (advance self 7) (hin.of_substr h7 (by rw [hw]; rfl))
    cases hD : declarations fuel (advance self 7) with
    | halt why s =>
      rw [hD] at hd
      exact hd
    | ok u d =>
      rw [hD] at hd
      have hind : Inside d := hd
      simp only []
      have h5 := substr_some hind.1 5
      rw [h5]
      simp only []
      split
      · rename_i hw5
        have hs := statements_within fuel (advance d 5)
          (hind.of_substr h5 (by rw [hw5]; rfl))
        cases hS : statements fuel (advance d 5) with
        | halt why s =>
          rw [hS] at hs
          exact hs
        | ok u2 s2 =>
          rw [hS] at hs
          have hins : Inside s2 := hs
          simp only []
          have h3 := substr_some hins.1 3
          rw [h3]
          simp only []
          split
          · rename_i hw3
            exact hins.of_substr h3 (by rw [hw3]; rfl)
          · exact True.intro
      · exact True.intro
  · exact True.intro

theorem run_within (fileContent : String) (h : '(' ∉ fileContent.toList) :
    Within (run fileContent) :=
  prog_within _ _ ⟨Nat.zero_le _, fun hm => h (List.mem_of_mem_filter hm)⟩

/-! ## The loop of `Power` -/

theorem fact_mono_le {fuel g : Nat} {self : Interpreter} (h : NotFuel (Fact fuel self))
    (hg : fuel ≤ g) : Fact g self = Fact fuel self :=
  mono_le (fun n => Fact n self) (fun n hn => (exp_mono n).2.2.2.2.2.2 self hn) fuel g hg h

theorem power_mono_le {fuel g : Nat} {self : Interpreter} (h : NotFuel (Power fuel self))
    (hg : fuel ≤ g) : Power g self = Power fuel self :=
  mono_le (fun n => Power n self) (fun n hn => (exp_mono n).2.2.2.2.1 self hn) fuel g hg h

theorem exp_mono_le {fuel g : Nat} {self : Interpreter} (h : NotFuel (Exp fuel self))
    (hg : fuel ≤ g) : Exp g self = Exp fuel self :=
  mono_le (fun n => Exp n self) (fun n hn => (exp_mono n).1 self hn) fuel g hg h

theorem Power_loop_off_caret {fuel : Nat} {self : Interpreter} (r : Int) (h : ¬ AtCaret self) :
    Power_loop (fuel + 1) r self = .ok r self := by
  have h' : ¬ (self.indexx < self.progStr.length ∧ peek self = some '^') := h
  simp only [Power_loop, h', if_false]

theorem power_off_caret {fuel : Nat} {self s : Interpreter} {v : Int}
    (h : Power fuel self = .ok v s) : ¬ AtCaret s :=
  ((exp_advances fuel).2.2.2.2.1 self).2 v s h

/-- With the fuel on which `Power` finishes, or more, `Power_if` gives the same outcome. -/
theorem power_if_of_power (fuel : Nat) :
    ∀ self, NotFuel (Power fuel self) → ∀ g, fuel ≤ g → Power_if g self = Power fuel self := by
  induction fuel using Nat.strong_induction_on with
  | _ fuel ih =>
    intro self hn g hg
    cases fuel with
    | zero => simp only [Power] at hn; exact False.elim hn
    | succ f =>
      obtain ⟨g', rfl⟩ : ∃ g', g = g' + 1 := ⟨g - 1, by omega⟩
      cases hF : Fact f self with
      | halt why s =>
        simp only [Power, hF] at hn ⊢
        have hm : Fact g' self = .halt why s := by
          rw [fact_mono_le (by rw [hF]; exact hn) (by omega), hF]
        simp only [Power_if, hm]
      | ok r s1 =>
        simp only [Power, hF] at hn ⊢
        have hm : Fact g' self = .ok r s1 := by
          rw [fact_mono_le (by rw [hF]; trivial) (by omega), hF]
        cases f with
        | zero => simp only [Power_loop] at hn; exact False.elim hn
        | succ f' =>
          by_cases hc : s1.indexx < s1.progStr.length ∧ peek s1 = some '^'
          · simp only [Power_loop, hc, and_self, if_true] at hn ⊢
            simp only [Power_if, hm, hc, and_self, if_true]
            cases hP : Power f' (advance s1 1) with
            | halt why s =>
              simp only [hP] at hn ⊢
              have := ih f' (by omega) (advance s1 1) (by rw [hP]; exact hn) g' (by omega)
              rw [this, hP]
            | ok e s2 =>
              simp only [hP] at hn ⊢
              have := ih f' (by omega) (advance s1 1) (by rw [hP]; trivial) g' (by omega)
              rw [this, hP]
              simp only []
              cases hq : pow r e with
              | none => rfl
              | some r' =>
                simp only [hq] at hn ⊢
                cases f' with
                | zero => simp only [Power_loop] at hn; exact False.elim hn
                | succ f'' => rw [Power_loop_off_caret _ (power_off_caret hP)]
          · simp only [Power_loop, hc, if_false]
            simp only [Power_if, hm, hc, if_false]

/-- With twice the fuel on which `Power_if` finishes, or more, `Power` gives the same
outcome. -/
theorem power_of_power_if (fuel : Nat) :
    ∀ self, NotFuel (Power_if fuel self) → ∀ g, 2 * fuel ≤ g →
      Power g self = Power_if fuel self := by
  induction fuel with
  | zero => intro self hn; simp only [Power_if] at hn; exact False.elim hn
  | succ f ih =>
    intro self hn g hg
    obtain ⟨g', rfl⟩ : ∃ g', g = g' + 2 := ⟨g - 2, by omega⟩
    cases hF : Fact f self with
    | halt why s =>
      simp only [Power_if, hF] at hn ⊢
      have hm : Fact (g' + 1) self = .halt why s := by
        rw [fact_mono_le (by rw [hF]; exact hn) (by omega), hF]
      simp only [Power, hm]
    | ok r s1 =>
      have hm : Fact (g' + 1) self = .ok r s1 := by
        rw [fact_mono_le (by rw [hF]; trivial) (by omega), hF]
      simp only [Power_if, hF] at hn ⊢
      simp only [Power, hm]
      by_cases hc : s1.indexx < s1.progStr.length ∧ peek s1 = some '^'
      · simp only [hc, and_self, if_true] at hn ⊢
        simp only [Power_loop, hc, and_self, if_true]
        cases hP : Power_if f (advance s1 1) with
        | halt why s =>
          simp only [hP] at hn ⊢
          have := ih (advance s1 1) (by rw [hP]; exact hn) g' (by omega)
          rw [this, hP]
        | ok e s2 =>
          simp only [hP] at hn ⊢
          have hpw := ih (advance s1 1) (by rw [hP]; trivial) g' (by omega)
          rw [hpw, hP]
          simp only []
          cases hq : pow r e with
          | none => rfl
          | some r' =>
            simp only []
            have hf1 : 1 ≤ f := by
              cases f with
              | zero => simp only [Power_if] at hP; cases hP
              | succ f' => omega
            obtain ⟨g'', rfl⟩ : ∃ g'', g' = g'' + 1 := ⟨g' - 1, by omega⟩
            rw [hP] at hpw
            rw [Power_loop_off_caret _ (power_off_caret hpw)]
      · simp only [hc, if_false]
        simp only [Power_loop, hc, if_false]

/-- C17: when `Power` returns, the cursor is at the end of the text or on a character other
than `^`; so in the loop of `Power`, once the recursive call for the right operand has
returned, the next test of the condition fails and the loop is left; and `Power` and the
single-`if` rule `Power_if` have the same outcome (value, cursor and state, or failure)
whenever one of them finishes, `Power` needing at most twice the fuel. -/
theorem power_loop_runs_once :
    (∀ fuel self v s, Power fuel self = .ok v s → ¬ AtCaret s) ∧
    (∀ fuel r self e s q, AtCaret self → Power (fuel + 1) (advance self 1) = .ok e s →
      pow r e = some q →
      Power_loop (fuel + 2) r self = Power_loop (fuel + 1) q s ∧
      Power_loop (fuel + 1) q s = .ok q s) ∧
    (∀ fuel self, NotFuel (Power fuel self) → Power_if fuel self = Power fuel self) ∧
    (∀ fuel self, NotFuel (Power_if fuel self) → Power (2 * fuel) self = Power_if fuel self) ∧
    Power 9 ⟨"2^3^2;".toList, 0, ⟨[]⟩, []⟩ = .ok 512 ⟨"2^3^2;".toList, 5, ⟨[]⟩, []⟩ ∧
    Power_if 9 ⟨"2^3^2;".toList, 0, ⟨[]⟩, []⟩ = .ok 512 ⟨"2^3^2;".toList, 5, ⟨[]⟩, []⟩ := by
  refine ⟨fun fuel self v s h => power_off_caret h, ?_,
    fun fuel self hn => power_if_of_power fuel self hn fuel (Nat.le_refl _),
    fun fuel self hn => power_of_power_if fuel self hn (2 * fuel) (Nat.le_refl _),
    by decide, by decide⟩
  intro fuel r self e s q hc hP hq
  have hc' : self.indexx < self.progStr.length ∧ peek self = some '^' := hc
  refine ⟨?_, Power_loop_off_caret _ (power_off_caret hP)⟩
  simp only [Power_loop, hc', and_self, if_true, hP, hq]

/-- C15, as amended: the run never stops for lack of fuel, on any input, and it ends in
success, with a diagnostic and `exit(1)`, with the undeclared-variable error for some name, or
at a division
or a power without a defined `int` result; the one other ending is a character read without a
defined value, which happens only with the cursor beyond the end of the text and only on a text
that has an opening parenthesis (where `Fact` steps over the closing one unchecked); `substr`
never throws.  The procedure `prog` finishes on any fuel from four times the length of the text
plus five on; and every procedure that returns has moved the cursor forward (an identifier, a
factor, a power, a term, an expression, a statement, an identifier list, a declaration), the
loops of `Exp2`, `Term2` and `Power` continuing from there. -/
theorem interpreter_terminates :
    (∀ fileContent, NotFuel (run fileContent)) ∧
    (∀ fileContent, ∃ s, run fileContent = .ok () s ∨
      (∃ d, run fileContent = .halt (.exit d) s) ∨
      (∃ x, run fileContent = .halt (.runtime_error (SymbolTable.undeclared x)) s) ∨
      run fileContent = .halt (.undefined .division) s ∨
      run fileContent = .halt (.undefined .narrowing) s ∨
      (run fileContent = .halt (.undefined .index) s ∧ s.progStr.length < s.indexx ∧
        '(' ∈ fileContent.toList)) ∧
    (∀ fuel self, 4 * self.progStr.length + 5 ≤ fuel → NotFuel (prog fuel self)) ∧
    (∀ fuel self, Advances self (id self) ∧ Advances self (Fact fuel self) ∧
      Advances self (Power fuel self) ∧ Advances self (Term fuel self) ∧
      Advances self (Exp fuel self) ∧ Advances self (statement fuel self) ∧
      (∀ varType, Advances self (id_list fuel varType self)) ∧
      Advances self (declaration fuel self)) ∧
    (∀ fuel r self, Keeps self (Exp2 fuel r self) ∧ Keeps self (Term2 fuel r self) ∧
      Keeps self (Power_loop fuel r self)) := by
  refine ⟨run_not_fuel, ?_, prog_enough, ?_, ?_⟩
  · intro fileContent
    have h := run_not_fuel fileContent
    have hs := run_sound fileContent
    have hw := run_within fileContent
    cases hr : run fileContent with
    | ok u s => exact ⟨s, Or.inl rfl⟩
    | halt why s =>
      rw [hr] at h hs hw
      refine ⟨s, Or.inr ?_⟩
      cases why with
      | exit d => exact Or.inl ⟨d, rfl⟩
      | runtime_error w =>
        obtain ⟨x, hx⟩ : ∃ x, w = SymbolTable.undeclared x := hs
        subst hx
        exact Or.inr (Or.inl ⟨x, rfl⟩)
      | out_of_range => exact False.elim hs
      | undefined u =>
        cases u with
        | division => exact Or.inr (Or.inr (Or.inl rfl))
        | narrowing => exact Or.inr (Or.inr (Or.inr (Or.inl rfl)))
        | index =>
          refine Or.inr (Or.inr (Or.inr (Or.inr ⟨rfl, hs, ?_⟩)))
          by_contra hno
          exact hw hno
      | fuel => exact False.elim h
  · intro fuel self
    obtain ⟨aExp, aTerm, _, _, aPower, _, aFact⟩ := exp_advances fuel
    exact ⟨id_advances self, aFact self, (aPower self).1, aTerm self, aExp self,
      statement_advances fuel self, fun varType => id_list_advances fuel varType self,
      declaration_advances fuel self⟩
  · intro fuel r self
    obtain ⟨_, _, kExp2, kTerm2, _, kLoop, _⟩ := exp_advances fuel
    exact ⟨kExp2 r self, kTerm2 r self, (kLoop r self).1⟩

/-- C15 as stated fails: the run on `program begin print 1/0; end` ends at the division by
zero, which is neither success, nor a diagnostic with `exit(1)`, nor the undeclared-variable
error. -/
theorem run_ends_at_division_fault :
    run "program begin print 1/0; end"
      = .halt (.undefined .division) ⟨"programbeginprint1/0;end".toList, 20, ⟨[]⟩, []⟩ := by
  decide

/-! ## The lines written to the output -/

theorem exp_cout (fuel : Nat) (self : Interpreter) : (Exp fuel self).state.cout = self.cout :=
  ((exp_inv fuel).1 self).1.2.2

theorem substr_none {self : Interpreter} {n : Nat} (h : substr self n = none) (m : Nat) :
    substr self m = none := by
  unfold substr at h ⊢
  split at h
  · cases h
  · rename_i hlt
    simp only [hlt, if_false]

theorem assign_st_cout (fuel : Nat) (self : Interpreter) :
    (assign_st fuel self).state.cout = self.cout := by
  have hi := id_cout self
  unfold assign_st
  cases hid : id self with
  | halt why s => rw [hid] at hi; exact hi
  | ok name s1 =>
    rw [hid] at hi
    simp only []
    split
    · exact hi
    · split
      · have he := exp_cout fuel (advance s1 1)
        cases hE : Exp fuel (advance s1 1) with
        | halt why s => rw [hE] at he; exact he.trans hi
        | ok v s =>
          rw [hE] at he
          have he' : s.cout = self.cout := he.trans hi
          simp only []
          split
          · exact he'
          · split
            · exact he'
            · split <;> exact he'
      · exact hi

theorem print_st_cout (fuel : Nat) (self : Interpreter) :
    (print_st fuel self).state.cout = self.cout ++
      (match Exp fuel (advance self 5) with
        | .ok v _ => [toString v]
        | .halt _ _ => []) := by
  have he := exp_cout fuel (advance self 5)
  unfold print_st
  cases hE : Exp fuel (advance self 5) with
  | halt why s =>
    rw [hE] at he
    simp only [List.append_nil]
    exact he
  | ok v s =>
    rw [hE] at he
    have he' : s.cout = self.cout := he
    simp only []
    split
    · show s.cout ++ [toString v] = _
      rw [he']
    · split
      · show s.cout ++ [toString v] = _
        rw [he']
      · show s.cout ++ [toString v] = _
        rw [he']

theorem statement_cout (fuel : Nat) (self : Interpreter) :
    (statement fuel self).state.cout
      = self.cout ++ ((printValue fuel self).toList).map toString := by
  unfold statement printValue
  cases hs : substr self 5 with
  | none => simp [Outcome.state]
  | some w =>
    simp only []
    by_cases hw : w = "print".toList
    · subst hw
      simp only [if_true]
      rw [print_st_cout]
      cases Exp fuel (advance self 5) <;> rfl
    · have hw' : ¬ (some w = some "print".toList) := fun h => hw (Option.some.inj h)
      simp only [hw, hw', if_false]
      rw [assign_st_cout]
      simp

theorem statements_cout (fuel : Nat) : ∀ self : Interpreter,
    (statements fuel self).state.cout
      = self.cout ++ (printedValues fuel self).map toString := by
  induction fuel with
  | zero =>
    intro self
    simp [statements, printedValues, Outcome.state]
  | succ fuel ih =>
    intro self
    have hst := statement_cout fuel self
    unfold statements printedValues
    cases hs : substr self 3 with
    | none =>
      have h5 : substr self 5 = none := substr_none hs 5
      have hp : printValue fuel self = none := by
        unfold printValue
        simp [h5]
      have hh : ∃ s, statement fuel self = .halt .out_of_range s := by
        unfold statement
        rw [h5]
        exact ⟨self, rfl⟩
      obtain ⟨s, hh⟩ := hh
      simp [hp, hh, Outcome.state]
    | some w =>
      simp only []
      by_cases hw : w = "end".toList
      · subst hw
        simp [Outcome.state]
      · have hw' : ¬ (some w = some "end".toList) := fun h => hw (Option.some.inj h)
        simp only [ne_eq, hw, not_false_eq_true, if_true, hw', if_false]
        cases hS : statement fuel self with
        | halt why s =>
          rw [hS] at hst
          simp only [List.append_nil]
          exact hst
        | ok u s =>
          rw [hS] at hst
          have hst' : s.cout = self.cout ++ ((printValue fuel self).toList).map toString := hst
          simp only []
          rw [ih s, hst', List.map_append, List.append_assoc]

theorem toString_ne_confirmation (v : Int) : toString v ≠ confirmation := by
  intro h
  have hl := congrArg String.toList h
  have hc : confirmation.toList
      = Char.ofNat 39 :: "end\x27 found, program executed successfully.".toList := rfl
  rw [hc] at hl
  cases v with
  | ofNat m =>
    have h1 : (toString (Int.ofNat m)).toList = literal m := rfl
    rw [h1] at hl
    have hd := (literal_spec m).2.1 (Char.ofNat 39) (by rw [hl]; exact List.mem_cons_self _ _)
    exact absurd hd (by decide)
  | negSucc m =>
    have h1 : (toString (Int.negSucc m)).toList = '-' :: literal (m + 1) := rfl
    rw [h1] at hl
    have h2 := (List.cons.inj hl).1
    exact absurd h2 (by decide)

theorem confirmation_not_printed (vs : List Int) : confirmation ∉ vs.map toString := by
  intro h
  obtain ⟨v, _, hv⟩ := List.mem_map.mp h
  exact toString_ne_confirmation v hv

/-- What `prog` has written when it returns and when it fails: in `d`, the state in which
`declarations` returned, `begin` is skipped and the statements run. -/
theorem prog_cout (fuel : Nat) (self : Interpreter) :
    (∀ s, prog fuel self = .ok () s →
      ∃ d, declarations fuel (advance self 7) = .ok () d ∧
        substr (statements fuel (advance d 5)).state 3 = some "end".toList ∧
        s = { advance (statements fuel (advance d 5)).state 3 with
              cout := self.cout ++ (printedValues fuel (advance d 5)).map toString
                ++ [confirmation] }) ∧
    (∀ why s, prog fuel self = .halt why s →
      s.cout = self.cout ∨
      ∃ d, declarations fuel (advance self 7) = .ok () d ∧
        s.cout = self.cout ++ (printedValues fuel (advance d 5)).map toString) := by
  have hd := declarations_cout fuel (advance self 7)
  unfold prog
  cases h7 : substr self 7 with
  | none =>
    refine ⟨fun s h => (by cases h), fun why s h => ?_⟩
    injection h with _ h2
    exact Or.inl (by rw [← h2])
  | some w =>
    simp only []
    by_cases hw : w = "program".toList
    · simp only [hw, if_true]
      cases hD : declarations fuel (advance self 7) with
      | halt why1 d =>
        rw [hD] at hd
        refine ⟨fun s h => (by cases h), fun why s h => ?_⟩
        injection h with _ h2
        exact Or.inl (by rw [← h2]; exact hd)
      | ok u d =>
        rw [hD] at hd
        have hd' : d.cout = self.cout := hd
        simp only []
        cases h5 : substr d 5 with
        | none =>
          refine ⟨fun s h => (by cases h), fun why s h => ?_⟩
          injection h with _ h2
          exact Or.inl (by rw [← h2]; exact hd')
        | some w5 =>
          simp only []
          by_cases hw5 : w5 = "begin".toList
          · simp only [hw5, if_true]
            have hS := statements_cout fuel (advance d 5)
            have hdc : (advance d 5).cout = self.cout := hd'
            rw [hdc] at hS
            cases hSt : statements fuel (advance d 5) with
            | halt why2 s2 =>
              rw [hSt] at hS
              refine ⟨fun s h => (by cases h), fun why s h => ?_⟩
              injection h with _ h2
              exact Or.inr ⟨d, rfl, by rw [← h2]; exact hS⟩
            | ok u2 s2 =>
              rw [hSt] at hS
              have hS' : s2.cout = self.cout ++ (printedValues fuel (advance d 5)).map toString :=
                hS
              simp only []
              cases h3 : substr s2 3 with
              | none =>
                refine ⟨fun s h => (by cases h), fun why s h => ?_⟩
                injection h with _ h2
                exact Or.inr ⟨d, rfl, by rw [← h2]; exact hS'⟩
              | some w3 =>
                simp only []
                by_cases hw3 : w3 = "end".toList
                · simp only [hw3, if_true]
                  refine ⟨fun s h => ?_, fun why s h => (by cases h)⟩
                  injection h with _ h2
                  refine ⟨d, rfl, ?_, ?_⟩
                  · rw [hSt]
                    show substr s2 3 = _
                    rw [h3, hw3]
                  · rw [hSt, ← h2, hS']
                    rfl
                · simp only [hw3, if_false]
                  refine ⟨fun s h => (by cases h), fun why s h => ?_⟩
                  injection h with _ h2
                  exact Or.inr ⟨d, rfl, by rw [← h2]; exact hS'⟩
          · simp only [hw5, if_false]
            refine ⟨fun s h => (by cases h), fun why s h => ?_⟩
            injection h with _ h2
            exact Or.inl (by rw [← h2]; exact hd')
    · simp only [hw, if_false]
      refine ⟨fun s h => (by cases h), fun why s h => ?_⟩
      injection h with _ h2
      exact Or.inl (by rw [← h2])

/-- C11: the loop of `statements` adds to the output exactly the decimal values that its
`print` statements print, in the order of execution; a run that succeeds has consumed the final
`end` and its output is those lines followed by the confirmation line, which is none of them;
a run that fails has written no confirmation line: its output is empty or the lines of the
`print` statements executed. -/
theorem output_shape (fileContent : String) :
    (∀ fuel self, (statements fuel self).state.cout
      = self.cout ++ (printedValues fuel self).map toString) ∧
    (∀ s, run fileContent = .ok () s →
      ∃ d, declarations (budget (Interpreter.new fileContent).progStr)
          (advance (Interpreter.new fileContent) 7) = .ok () d ∧
        substr (statements (budget (Interpreter.new fileContent).progStr) (advance d 5)).state 3
          = some "end".toList ∧
        s.indexx
          = (statements (budget (Interpreter.new fileContent).progStr) (advance d 5)).state.indexx
            + 3 ∧
        s.cout = (printedValues (budget (Interpreter.new fileContent).progStr)
          (advance d 5)).map toString ++ [confirmation] ∧
        confirmation ∉ (printedValues (budget (Interpreter.new fileContent).progStr)
          (advance d 5)).map toString) ∧
    (∀ why s, run fileContent = .halt why s →
      confirmation ∉ s.cout ∧
      (s.cout = [] ∨
        ∃ d, declarations (budget (Interpreter.new fileContent).progStr)
            (advance (Interpreter.new fileContent) 7) = .ok () d ∧
          s.cout = (printedValues (budget (Interpreter.new fileContent).progStr)
            (advance d 5)).map toString)) := by
  have hp := prog_cout (budget (Interpreter.new fileContent).progStr)
    (Interpreter.new fileContent)
  have h0 : (Interpreter.new fileContent).cout = [] := rfl
  rw [h0] at hp
  refine ⟨fun fuel self => statements_cout fuel self, ?_, ?_⟩
  · intro s h
    obtain ⟨d, hd, he, hs⟩ := hp.1 s h
    refine ⟨d, hd, he, ?_, ?_, confirmation_not_printed _⟩
    · rw [hs]
      rfl
    · rw [hs]
      rfl
  · intro why s h
    rcases hp.2 why s h with h1 | ⟨d, hd, h1⟩
    · rw [h1]
      exact ⟨List.not_mem_nil _, Or.inl rfl⟩
    · rw [h1]
      exact ⟨confirmation_not_printed _, Or.inr ⟨d, hd, rfl⟩⟩

theorem output_shape_witness :
    run "program int a; begin print 7; a=2; print a; end"
      = .ok () ⟨"programinta;beginprint7;a=2;printa;end".toList, 38, ⟨[⟨"a", "int", 2⟩]⟩,
          ["7", "2", confirmation]⟩ ∧
    printedValues 244 ⟨"programinta;beginprint7;a=2;printa;end".toList, 17,
      ⟨[⟨"a", "int", 0⟩]⟩, []⟩ = [7, 2] ∧
    ∃ d, declarations (budget (Interpreter.new
          "program int a; begin print 7; a=2; print a; end").progStr)
        (advance (Interpreter.new "program int a; begin print 7; a=2; print a; end") 7)
          = .ok () d ∧
      ("programinta;beginprint7;a=2;printa;end".toList, 38, ["7", "2", confirmation])
        = ((statements (budget (Interpreter.new
            "program int a; begin print 7; a=2; print a; end").progStr)
            (advance d 5)).state.progStr,
          (statements (budget (Interpreter.new
            "program int a; begin print 7; a=2; print a; end").progStr)
            (advance d 5)).state.indexx + 3,
          (printedValues (budget (Interpreter.new
            "program int a; begin print 7; a=2; print a; end").progStr)
            (advance d 5)).map toString ++ [confirmation]) := by
  have h : run "program int a; begin print 7; a=2; print a; end"
      = .ok () ⟨"programinta;beginprint7;a=2;printa;end".toList, 38, ⟨[⟨"a", "int", 2⟩]⟩,
          ["7", "2", confirmation]⟩ := by decide
  refine ⟨h, by decide, ?_⟩
  obtain ⟨d, hd, _, hi, hc, _⟩ :=
    (output_shape "program int a; begin print 7; a=2; print a; end").2.1 _ h
  refine ⟨d, hd, ?_⟩
  have ht := statements_text (budget (Interpreter.new
    "program int a; begin print 7; a=2; print a; end").progStr) (advance d 5)
  have hdt := declarations_text (budget (Interpreter.new
    "program int a; begin print 7; a=2; print a; end").progStr)
    (advance (Interpreter.new "program int a; begin print 7; a=2; print a; end") 7)
  rw [hd] at hdt
  have hdt' : d.progStr = "programinta;beginprint7;a=2;printa;end".toList := hdt
  have ht' : (statements (budget (Interpreter.new
      "program int a; begin print 7; a=2; print a; end").progStr)
      (advance d 5)).state.progStr = "programinta;beginprint7;a=2;printa;end".toList :=
    ht.trans hdt'
  rw [ht', ← hi, ← hc]

/-! ## More fuel does not change a finished statement, declaration or program -/

theorem notFuel_cast {α β : Type} {why : Halt} {s s' : Interpreter}
    (h : NotFuel (Outcome.halt why s : Outcome α)) : NotFuel (Outcome.halt why s' : Outcome β) :=
  notFuel_halt.mpr (notFuel_halt.mp h)

theorem print_st_mono (fuel : Nat) (self : Interpreter) (hn : NotFuel (print_st fuel self)) :
    print_st (fuel + 1) self = print_st fuel self := by
  have hne : NotFuel (Exp fuel (advance self 5)) := by
    cases hE : Exp fuel (advance self 5) with
    | halt why s =>
      simp only [print_st, hE] at hn
      exact notFuel_cast hn
    | ok v s => exact notFuel_ok
  have e := (exp_mono fuel).1 _ hne
  simp only [print_st, e]

theorem assign_st_mono (fuel : Nat) (self : Interpreter) (hn : NotFuel (assign_st fuel self)) :
    assign_st (fuel + 1) self = assign_st fuel self := by
  cases hid : id self with
  | halt why s => simp only [assign_st, hid]
  | ok name s1 =>
    cases hp : peek s1 with
    | none => simp only [assign_st, hid, hp]
    | some c =>
      by_cases hc : c = '='
      · have hne : NotFuel (Exp fuel (advance s1 1)) := by
          cases hE : Exp fuel (advance s1 1) with
          | halt why s =>
            simp only [assign_st, hid, hp, hc, if_true, hE] at hn
            exact notFuel_cast hn
          | ok v s => exact notFuel_ok
        have e := (exp_mono fuel).1 _ hne
        simp only [assign_st, hid, hp, hc, if_true, e]
      · simp only [assign_st, hid, hp, hc, if_false]

theorem statement_mono (fuel : Nat) (self : Interpreter) (hn : NotFuel (statement fuel self)) :
    statement (fuel + 1) self = statement fuel self := by
  unfold statement at hn ⊢
  cases h5 : substr self 5 with
  | none => rfl
  | some w =>
    rw [h5] at hn
    simp only [] at hn ⊢
    by_cases hw : w = "print".toList
    · simp only [hw, if_true] at hn ⊢
      exact print_st_mono fuel self hn
    · simp only [hw, if_false] at hn ⊢
      exact assign_st_mono fuel self hn

theorem statements_succ (fuel : Nat) (self : Interpreter) :
    statements (fuel + 1) self =
      match substr self 3 with
      | none => .halt .out_of_range self
      | some w =>
        if w ≠ "end".toList then
          match statement fuel self with
          | .halt why self => .halt why self
          | .ok _ self => statements fuel self
        else .ok () self := rfl

theorem statements_mono (fuel : Nat) : ∀ self : Interpreter, NotFuel (statements fuel self) →
    statements (fuel + 1) self = statements fuel self := by
  induction fuel with
  | zero =>
    intro self hn
    exact False.elim hn
  | succ f ih =>
    intro self hn
    rw [statements_succ (f + 1) self, statements_succ f self]
    rw [statements_succ f self] at hn
    cases h3 : substr self 3 with
    | none => rfl
    | some w =>
      rw [h3] at hn
      simp only [] at hn ⊢
      by_cases hw : w = "end".toList
      · simp only [hw, ne_eq, not_true_eq_false, if_false]
      · simp only [ne_eq, hw, not_false_eq_true, if_true] at hn ⊢
        cases hS : statement f self with
        | halt why s =>
          rw [hS] at hn
          have e := statement_mono f self (by rw [hS]; exact notFuel_cast hn)
          rw [e, hS]
        | ok u s =>
          rw [hS] at hn
          have e := statement_mono f self (by rw [hS]; exact notFuel_ok)
          rw [e, hS]
          exact ih s hn

theorem id_list_succ (fuel : Nat) (varType : String) (self : Interpreter) :
    id_list (fuel + 1) varType self =
      match id self with
      | .halt why self => .halt why self
      | .ok varName self =>
        match peek { self with symbolTable := self.symbolTable.addVariable varName varType } with
        | none => .halt (.undefined .index)
            { self with symbolTable := self.symbolTable.addVariable varName varType }
        | some c =>
          if c = ',' then
            id_list fuel varType
              (advance { self with symbolTable := self.symbolTable.addVariable varName varType } 1)
          else .ok () { self with symbolTable := self.symbolTable.addVariable varName varType } :=
  rfl

theorem id_list_mono (fuel : Nat) : ∀ (varType : String) (self : Interpreter),
    NotFuel (id_list fuel varType self) →
    id_list (fuel + 1) varType self = id_list fuel varType self := by
  induction fuel with
  | zero =>
    intro varType self hn
    exact False.elim hn
  | succ f ih =>
    intro varType self hn
    rw [id_list_succ (f + 1), id_list_succ f]
    rw [id_list_succ f] at hn
    cases hid : id self with
    | halt why s => rfl
    | ok name s1 =>
      rw [hid] at hn
      simp only [] at hn ⊢
      generalize hpk :
        peek { s1 with symbolTable := s1.symbolTable.addVariable name varType } = pk at hn ⊢
      cases pk with
      | none => rfl
      | some c =>
        simp only [] at hn ⊢
        by_cases hc : c = ','
        · simp only [hc, if_true] at hn ⊢
          exact ih _ _ hn
        · simp only [hc, if_false]

theorem declaration_mono (fuel : Nat) (self : Interpreter)
    (hn : NotFuel (declaration fuel self)) :
    declaration (fuel + 1) self = declaration fuel self := by
  cases hT : type self with
  | halt why s => simp only [declaration, hT]
  | ok k s1 =>
    have hne : NotFuel (id_list fuel k s1) := by
      cases hL : id_list fuel k s1 with
      | halt why s =>
        simp only [declaration, hT, hL] at hn
        exact notFuel_cast hn
      | ok v s => exact notFuel_ok
    have e := id_list_mono fuel k s1 hne
    simp only [declaration, hT, e]

theorem declarations_succ (fuel : Nat) (self : Interpreter) :
    declarations (fuel + 1) self =
      if self.indexx < self.progStr.length then
        match substr self 3, substr self 6 with
        | some w3, some w6 =>
          if w3 = "int".toList ∨ w6 = "double".toList then
            match declaration fuel self with
            | .halt why self => .halt why self
            | .ok _ self => declarations fuel self
          else .ok () self
        | _, _ => .halt .out_of_range self
      else .ok () self := rfl

theorem declarations_mono (fuel : Nat) : ∀ self : Interpreter,
    NotFuel (declarations fuel self) →
    declarations (fuel + 1) self = declarations fuel self := by
  induction fuel with
  | zero =>
    intro self hn
    exact False.elim hn
  | succ f ih =>
    intro self hn
    rw [declarations_succ (f + 1) self, declarations_succ f self]
    rw [declarations_succ f self] at hn
    by_cases hlt : self.indexx < self.progStr.length
    · simp only [hlt, if_true] at hn ⊢
      cases h3 : substr self 3 with
      | none => rfl
      | some w3 =>
        cases h6 : substr self 6 with
        | none => rfl
        | some w6 =>
          rw [h3, h6] at hn
          simp only [] at hn ⊢
          by_cases hw : w3 = "int".toList ∨ w6 = "double".toList
          · simp only [hw, if_true] at hn ⊢
            cases hD : declaration f self with
            | halt why s =>
              rw [hD] at hn
              have e := declaration_mono f self (by rw [hD]; exact notFuel_cast hn)
              rw [e, hD]
            | ok u s =>
              rw [hD] at hn
              have e := declaration_mono f self (by rw [hD]; exact notFuel_ok)
              rw [e, hD]
              exact ih s hn
          · simp only [hw, if_false]
    · simp only [hlt, if_false]

theorem prog_mono (fuel : Nat) (self : Interpreter) (hn : NotFuel (prog fuel self)) :
    prog (fuel + 1) self = prog fuel self := by
  cases h7 : substr self 7 with
  | none => simp only [prog, h7]
  | some w =>
    by_cases hw : w = "program".toList
    · have hnd : NotFuel (declarations fuel (advance self 7)) := by
        cases hD : declarations fuel (advance self 7) with
        | halt why s =>
          simp only [prog, h7, hw, if_true, hD] at hn
          exact notFuel_cast hn
        | ok v s => exact notFuel_ok
      have e := declarations_mono fuel _ hnd
      cases hD : declarations fuel (advance self 7) with
      | halt why s => simp only [prog, h7, hw, if_true, e, hD]
      | ok u d =>
        cases h5 : substr d 5 with
        | none => simp only [prog, h7, hw, if_true, e, hD, h5]
        | some w5 =>
          by_cases hw5 : w5 = "begin".toList
          · have hns : NotFuel (statements fuel (advance d 5)) := by
              cases hS : statements fuel (advance d 5) with
              | halt why s =>
                simp only [prog, h7, hw, if_true, hD, h5, hw5, hS] at hn
                exact notFuel_cast hn
              | ok v s => exact notFuel_ok
            have e2 := statements_mono fuel _ hns
            simp only [prog, h7, hw, if_true, e, hD, h5, hw5, e2]
          · simp only [prog, h7, hw, if_true, e, hD, h5, hw5, if_false]
    · simp only [prog, h7, hw, if_false]

theorem prog_mono_le {fuel g : Nat} {self : Interpreter} (h : NotFuel (prog fuel self))
    (hg : fuel ≤ g) : prog g self = prog fuel self :=
  mono_le (fun n => prog n self) (fun n hn => prog_mono n self hn) fuel g hg h

/-! ## The kinds in the table and the text behind the cursor are never looked at -/

theorem agree_refl (t : SymbolTable) : Agree t t := Eq.refl _

theorem alike_refl (a : Interpreter) : Alike a a := ⟨Eq.refl _, Eq.refl _, Eq.refl _, Eq.refl _⟩

theorem alike_symm {a b : Interpreter} (h : Alike a b) : Alike b a :=
  ⟨h.1.symm, h.2.1.symm, h.2.2.1.symm, Eq.symm h.2.2.2⟩

theorem alike_trans {a b c : Interpreter} (h1 : Alike a b) (h2 : Alike b c) : Alike a c := by
  refine ⟨h1.1.trans h2.1, ?_, h1.2.2.1.trans h2.2.2.1, Eq.trans h1.2.2.2 h2.2.2.2⟩
  have e1 := h1.2.1
  have e2 := h2.2.1
  omega

theorem Alike.lt_iff {a b : Interpreter} (h : Alike a b) :
    a.indexx < a.progStr.length ↔ b.indexx < b.progStr.length := by
  have e := h.2.1
  have hl := congrArg List.length h.1
  simp only [List.length_drop] at hl
  omega

theorem Alike.le_iff {a b : Interpreter} (h : Alike a b) :
    a.indexx ≤ a.progStr.length ↔ b.indexx ≤ b.progStr.length := by
  have e := h.2.1
  have hl := congrArg List.length h.1
  simp only [List.length_drop] at hl
  omega

theorem Alike.eq_iff {a b : Interpreter} (h : Alike a b) :
    a.indexx = a.progStr.length ↔ b.indexx = b.progStr.length := by
  have e := h.2.1
  omega

theorem Alike.peek_eq {a b : Interpreter} (h : Alike a b) : peek a = peek b := by
  unfold peek
  rw [h.1]
  cases b.progStr.drop b.indexx with
  | cons c l => rfl
  | nil =>
    simp only []
    by_cases hb : b.indexx = b.progStr.length
    · simp only [hb, h.eq_iff.mpr hb, if_true]
    · have ha : ¬ a.indexx = a.progStr.length := fun e => hb (h.eq_iff.mp e)
      simp only [hb, ha, if_false]

theorem Alike.substr_eq {a b : Interpreter} (h : Alike a b) (n : Nat) :
    substr a n = substr b n := by
  unfold substr
  rw [h.1]
  by_cases hb : b.indexx ≤ b.progStr.length
  · simp only [hb, h.le_iff.mpr hb, if_true]
  · have ha : ¬ a.indexx ≤ a.progStr.length := fun e => hb (h.le_iff.mp e)
    simp only [hb, ha, if_false]

theorem Alike.moved {a b : Interpreter} (h : Alike a b) (n : Nat) :
    Alike (advance a n) (advance b n) := by
  refine ⟨?_, ?_, h.2.2.1, h.2.2.2⟩
  · show a.progStr.drop (a.indexx + n) = b.progStr.drop (b.indexx + n)
    rw [← List.drop_drop, ← List.drop_drop, h.1]
  · show a.indexx + n + b.progStr.length = b.indexx + n + a.progStr.length
    have e := h.2.1
    omega

theorem Alike.printed {a b : Interpreter} (h : Alike a b) (line : String) :
    Alike { a with cout := a.cout ++ [line] } { b with cout := b.cout ++ [line] } := by
  refine ⟨h.1, h.2.1, ?_, h.2.2.2⟩
  show a.cout ++ [line] = b.cout ++ [line]
  rw [h.2.2.1]

theorem Alike.with_table {a b : Interpreter} (h : Alike a b) {t1 t2 : SymbolTable}
    (ht : Agree t1 t2) :
    Alike { a with symbolTable := t1 } { b with symbolTable := t2 } :=
  ⟨h.1, h.2.1, h.2.2.1, ht⟩

theorem getValueFrom_agree (x : String) : ∀ l1 l2 : List Node,
    l1.map (fun node => (node.id, node.val)) = l2.map (fun node => (node.id, node.val)) →
    SymbolTable.getValueFrom l1 x = SymbolTable.getValueFrom l2 x := by
  intro l1
  induction l1 with
  | nil =>
    intro l2 h
    cases l2 with
    | nil => rfl
    | cons n2 l2 => cases h
  | cons n1 l1 ih =>
    intro l2 h
    cases l2 with
    | nil => cases h
    | cons n2 l2 =>
      simp only [List.map_cons, List.cons.injEq, Prod.mk.injEq] at h
      obtain ⟨⟨hid, hval⟩, hrest⟩ := h
      simp only [SymbolTable.getValueFrom, hid, hval, ih l2 hrest]

theorem Agree.getValue_eq {t1 t2 : SymbolTable} (h : Agree t1 t2) (x : String) :
    t1.getValue x = t2.getValue x :=
  getValueFrom_agree x _ _ h

theorem setValueFrom_agree (x : String) (v : Int) : ∀ l1 l2 : List Node,
    l1.map (fun node => (node.id, node.val)) = l2.map (fun node => (node.id, node.val)) →
    (SymbolTable.setValueFrom l1 x v).2 = (SymbolTable.setValueFrom l2 x v).2 ∧
    (SymbolTable.setValueFrom l1 x v).1.map (fun node => (node.id, node.val))
      = (SymbolTable.setValueFrom l2 x v).1.map (fun node => (node.id, node.val)) := by
  intro l1
  induction l1 with
  | nil =>
    intro l2 h
    cases l2 with
    | nil => exact ⟨rfl, rfl⟩
    | cons n2 l2 => cases h
  | cons n1 l1 ih =>
    intro l2 h
    cases l2 with
    | nil => cases h
    | cons n2 l2 =>
      simp only [List.map_cons, List.cons.injEq, Prod.mk.injEq] at h
      obtain ⟨⟨hid, hval⟩, hrest⟩ := h
      by_cases hx : n2.id = x
      · have hx1 : n1.id = x := hid.trans hx
        simp only [SymbolTable.setValueFrom, hx, hx1, if_true, List.map_cons, hrest, hid, and_self]
      · have hx1 : ¬ n1.id = x := fun e => hx (hid.symm.trans e)
        obtain ⟨i1, i2⟩ := ih l2 hrest
        simp only [SymbolTable.setValueFrom, hx, hx1, if_false, List.map_cons, hid, hval, i1, i2,
          and_self]

theorem Agree.setValue_eq {t1 t2 : SymbolTable} (h : Agree t1 t2) (x : String) (v : Int) :
    (t1.setValue x v).2 = (t2.setValue x v).2 ∧ Agree (t1.setValue x v).1 (t2.setValue x v).1 :=
  setValueFrom_agree x v _ _ h

theorem Agree.added {t1 t2 : SymbolTable} (h : Agree t1 t2) (x k1 k2 : String) :
    Agree (t1.addVariable x k1) (t2.addVariable x k2) := by
  have h' : t1.table.map (fun node => (node.id, node.val))
      = t2.table.map (fun node => (node.id, node.val)) := h
  show (t1.table ++ _).map _ = (t2.table ++ _).map _
  rw [List.map_append, List.map_append, h']
  rfl

theorem alikeOut_halt {α : Type} {w : Halt} {a b : Interpreter} (h : Alike a b) :
    AlikeOut (Outcome.halt w a : Outcome α) (Outcome.halt w b) := ⟨Eq.refl _, h⟩

theorem alikeOut_ok {α : Type} {v : α} {a b : Interpreter} (h : Alike a b) :
    AlikeOut (Outcome.ok v a) (Outcome.ok v b) := ⟨Eq.refl _, h⟩

/-- One call site in two runs: the callees `o` and `p` end alike, and the continuations `g` and
`k` take alike states to alike outcomes. -/
theorem alike_call {α β : Type} {o p : Outcome α} {g k : α → Interpreter → Outcome β}
    {r q : Outcome β}
    (hr : ∀ why s, o = .halt why s → r = .halt why s)
    (hq : ∀ why s, p = .halt why s → q = .halt why s)
    (hg : ∀ v s, o = .ok v s → r = g v s)
    (hk : ∀ v s, p = .ok v s → q = k v s)
    (ho : AlikeOut o p)
    (hc : ∀ v a b, Alike a b → AlikeOut (g v a) (k v b)) : AlikeOut r q := by
  cases h1 : o with
  | halt w1 s1 =>
    cases h2 : p with
    | halt w2 s2 =>
      rw [h1, h2] at ho
      rw [hr w1 s1 h1, hq w2 s2 h2]
      exact ho
    | ok v2 s2 =>
      rw [h1, h2] at ho
      exact False.elim ho
  | ok v1 s1 =>
    cases h2 : p with
    | halt w2 s2 =>
      rw [h1, h2] at ho
      exact False.elim ho
    | ok v2 s2 =>
      rw [h1, h2] at ho
      obtain ⟨hv, hs⟩ : v1 = v2 ∧ Alike s1 s2 := ho
      rw [hg v1 s1 h1, hk v2 s2 h2, ← hv]
      exact hc v1 s1 s2 hs

theorem id_loop_shift : ∀ (l : List Char) (acc : String) (i : Nat),
    id_loop l acc i = ((id_loop l acc 0).1, i + (id_loop l acc 0).2) := by
  intro l
  induction l with
  | nil => intro acc i; rfl
  | cons c l ih =>
    intro acc i
    by_cases hc : isalnum c = true
    · simp only [id_loop, hc, if_true]
      rw [ih (acc.push c) (i + 1), ih (acc.push c) (0 + 1)]
      simp only [Prod.mk.injEq, true_and]
      omega
    · simp only [id_loop, hc]
      rfl

theorem digit_loop_shift : ∀ (l : List Char) (v : Int) (i : Nat),
    digit_loop l v i = ((digit_loop l v 0).1, i + (digit_loop l v 0).2) := by
  intro l
  induction l with
  | nil => intro v i; rfl
  | cons c l ih =>
    intro v i
    by_cases hc : isdigit c = true
    · simp only [digit_loop, hc, if_true]
      rw [ih _ (i + 1), ih _ (0 + 1)]
      simp only [Prod.mk.injEq, true_and]
      omega
    · simp only [digit_loop, hc]
      rfl

theorem id_alike {a b : Interpreter} (h : Alike a b) : AlikeOut (id a) (id b) := by
  unfold id
  rw [← h.peek_eq]
  cases peek a with
  | none => exact alikeOut_halt h
  | some c =>
    simp only []
    by_cases hc : isalpha c = true
    · simp only [hc, if_true]
      rw [id_loop_shift _ _ a.indexx, id_loop_shift _ _ b.indexx, h.1]
      exact alikeOut_ok (h.moved _)
    · simp only [hc]
      exact alikeOut_halt h

/-- The expression procedures take alike states to alike outcomes: the same value or the same
failure, in states that are alike again. -/
theorem exp_alike (fuel : Nat) :
    (∀ a b, Alike a b → AlikeOut (Exp fuel a) (Exp fuel b)) ∧
    (∀ a b, Alike a b → AlikeOut (Term fuel a) (Term fuel b)) ∧
    (∀ r a b, Alike a b → AlikeOut (Exp2 fuel r a) (Exp2 fuel r b)) ∧
    (∀ r a b, Alike a b → AlikeOut (Term2 fuel r a) (Term2 fuel r b)) ∧
    (∀ a b, Alike a b → AlikeOut (Power fuel a) (Power fuel b)) ∧
    (∀ r a b, Alike a b → AlikeOut (Power_loop fuel r a) (Power_loop fuel r b)) ∧
    (∀ a b, Alike a b → AlikeOut (Fact fuel a) (Fact fuel b)) := by
  have m1 : ¬ ('-' = '+') := by decide
  have m2 : ¬ ('/' = '*') := by decide
  induction fuel with
  | zero =>
    refine ⟨?_, ?_, ?_, ?_, ?_, ?_, ?_⟩
    · intro a b h; simp only [Exp]; exact alikeOut_halt h
    · intro a b h; simp only [Term]; exact alikeOut_halt h
    · intro r a b h; simp only [Exp2]; exact alikeOut_halt h
    · intro r a b h; simp only [Term2]; exact alikeOut_halt h
    · intro a b h; simp only [Power]; exact alikeOut_halt h
    · intro r a b h; simp only [Power_loop]; exact alikeOut_halt h
    · intro a b h; simp only [Fact]; exact alikeOut_halt h
  | succ fuel ih =>
    obtain ⟨iExp, iTerm, iExp2, iTerm2, iPower, iLoop, iFact⟩ := ih
    refine ⟨?_, ?_, ?_, ?_, ?_, ?_, ?_⟩
    · intro a b h
      exact alike_call (o := Term fuel a) (p := Term fuel b)
        (g := fun t s => Exp2 fuel t s) (k := fun t s => Exp2 fuel t s)
        (fun why s e => by simp only [Exp, e]) (fun why s e => by simp only [Exp, e])
        (fun v s e => by simp only [Exp, e]) (fun v s e => by simp only [Exp, e])
        (iTerm a b h) (fun v x y hxy => iExp2 v x y hxy)
    · intro a b h
      exact alike_call (o := Power fuel a) (p := Power fuel b)
        (g := fun t s => Term2 fuel t s) (k := fun t s => Term2 fuel t s)
        (fun why s e => by simp only [Term, e]) (fun why s e => by simp only [Term, e])
        (fun v s e => by simp only [Term, e]) (fun v s e => by simp only [Term, e])
        (iPower a b h) (fun v x y hxy => iTerm2 v x y hxy)
    · intro r a b h
      by_cases hlt : a.indexx < a.progStr.length
      · have hlt' : b.indexx < b.progStr.length := h.lt_iff.mp hlt
        cases hp : peek a with
        | none =>
          have hp' : peek b = none := by rw [← h.peek_eq]; exact hp
          simp only [Exp2, hlt, hlt', if_true, hp, hp']
          exact alikeOut_halt h
        | some c =>
          have hp' : peek b = some c := by rw [← h.peek_eq]; exact hp
          by_cases h1 : c = '+'
          · exact alike_call (o := Term fuel (advance a 1)) (p := Term fuel (advance b 1))
              (g := fun t s => Exp2 fuel (wrap32 (r + t)) s)
              (k := fun t s => Exp2 fuel (wrap32 (r + t)) s)
              (fun why s e => by simp only [Exp2, hlt, if_true, hp, h1, e])
              (fun why s e => by simp only [Exp2, hlt', if_true, hp', h1, e])
              (fun v s e => by simp only [Exp2, hlt, if_true, hp, h1, e])
              (fun v s e => by simp only [Exp2, hlt', if_true, hp', h1, e])
              (iTerm _ _ (h.moved 1)) (fun v x y hxy => iExp2 _ x y hxy)
          · by_cases h2 : c = '-'
            · subst h2
              exact alike_call (o := Term fuel (advance a 1)) (p := Term fuel (advance b 1))
                (g := fun t s => Exp2 fuel (wrap32 (r - t)) s)
                (k := fun t s => Exp2 fuel (wrap32 (r - t)) s)
                (fun why s e => by simp only [Exp2, hlt, if_true, hp, m1, if_false, e])
                (fun why s e => by simp only [Exp2, hlt', if_true, hp', m1, if_false, e])
                (fun v s e => by simp only [Exp2, hlt, if_true, hp, m1, if_false, e])
                (fun v s e => by simp only [Exp2, hlt', if_true, hp', m1, if_false, e])
                (iTerm _ _ (h.moved 1)) (fun v x y hxy => iExp2 _ x y hxy)
            · simp only [Exp2, hlt, hlt', if_true, hp, hp', h1, h2, if_false]
              exact alikeOut_ok h
      · have hlt' : ¬ b.indexx < b.progStr.length := fun e => hlt (h.lt_iff.mpr e)
        simp only [Exp2, hlt, hlt', if_false]
        exact alikeOut_ok h
    · intro r a b h
      by_cases hlt : a.indexx < a.progStr.length
      · have hlt' : b.indexx < b.progStr.length := h.lt_iff.mp hlt
        cases hp : peek a with
        | none =>
          have hp' : peek b = none := by rw [← h.peek_eq]; exact hp
          simp only [Term2, hlt, hlt', if_true, hp, hp']
          exact alikeOut_halt h
        | some c =>
          have hp' : peek b = some c := by rw [← h.peek_eq]; exact hp
          by_cases h1 : c = '*'
          · exact alike_call (o := Power fuel (advance a 1)) (p := Power fuel (advance b 1))
              (g := fun t s => Term2 fuel (wrap32 (r * t)) s)
              (k := fun t s => Term2 fuel (wrap32 (r * t)) s)
              (fun why s e => by simp only [Term2, hlt, if_true, hp, h1, e])
              (fun why s e => by simp only [Term2, hlt', if_true, hp', h1, e])
              (fun v s e => by simp only [Term2, hlt, if_true, hp, h1, e])
              (fun v s e => by simp only [Term2, hlt', if_true, hp', h1, e])
              (iPower _ _ (h.moved 1)) (fun v x y hxy => iTerm2 _ x y hxy)
          · by_cases h2 : c = '/'
            · subst h2
              exact alike_call (o := Power fuel (advance a 1)) (p := Power fuel (advance b 1))
                (g := fun t s => match idiv r t with
                  | none => Outcome.halt (.undefined .division) s
                  | some q => Term2 fuel q s)
                (k := fun t s => match idiv r t with
                  | none => Outcome.halt (.undefined .division) s
                  | some q => Term2 fuel q s)
                (fun why s e => by simp only [Term2, hlt, if_true, hp, m2, if_false, e])
                (fun why s e => by simp only [Term2, hlt', if_true, hp', m2, if_false, e])
                (fun v s e => by simp only [Term2, hlt, if_true, hp, m2, if_false, e])
                (fun v s e => by simp only [Term2, hlt', if_true, hp', m2, if_false, e])
                (iPower _ _ (h.moved 1))
                (fun v x y hxy => by
                  cases hq : idiv r v with
                  | none => simp only [hq]; exact alikeOut_halt hxy
                  | some q => simp only [hq]; exact iTerm2 _ x y hxy)
            · simp only [Term2, hlt, hlt', if_true, hp, hp', h1, h2, if_false]
              exact alikeOut_ok h
      · have hlt' : ¬ b.indexx < b.progStr.length := fun e => hlt (h.lt_iff.mpr e)
        simp only [Term2, hlt, hlt', if_false]
        exact alikeOut_ok h
    · intro a b h
      exact alike_call (o := Fact fuel a) (p := Fact fuel b)
        (g := fun t s => Power_loop fuel t s) (k := fun t s => Power_loop fuel t s)
        (fun why s e => by simp only [Power, e]) (fun why s e => by simp only [Power, e])
        (fun v s e => by simp only [Power, e]) (fun v s e => by simp only [Power, e])
        (iFact a b h) (fun v x y hxy => iLoop v x y hxy)
    · intro r a b h
      by_cases hc : a.indexx < a.progStr.length ∧ peek a = some '^'
      · have hc' : b.indexx < b.progStr.length ∧ peek b = some '^' :=
          ⟨h.lt_iff.mp hc.1, by rw [← h.peek_eq]; exact hc.2⟩
        exact alike_call (o := Power fuel (advance a 1)) (p := Power fuel (advance b 1))
          (g := fun t s => match pow r t with
            | none => Outcome.halt (.undefined .narrowing) s
            | some q => Power_loop fuel q s)
          (k := fun t s => match pow r t with
            | none => Outcome.halt (.undefined .narrowing) s
            | some q => Power_loop fuel q s)
          (fun why s e => by simp only [Power_loop, hc, and_self, if_true, e])
          (fun why s e => by simp only [Power_loop, hc', and_self, if_true, e])
          (fun v s e => by simp only [Power_loop, hc, and_self, if_true, e])
          (fun v s e => by simp only [Power_loop, hc', and_self, if_true, e])
          (iPower _ _ (h.moved 1))
          (fun v x y hxy => by
            cases hq : pow r v with
            | none => simp only [hq]; exact alikeOut_halt hxy
            | some q => simp only [hq]; exact iLoop _ x y hxy)
      · have hc' : ¬ (b.indexx < b.progStr.length ∧ peek b = some '^') :=
          fun e => hc ⟨h.lt_iff.mpr e.1, by rw [h.peek_eq]; exact e.2⟩
        simp only [Power_loop, hc, hc', if_false]
        exact alikeOut_ok h
    · intro a b h
      cases hp : peek a with
      | none =>
        have hp' : peek b = none := by rw [← h.peek_eq]; exact hp
        simp only [Fact, hp, hp']
        exact alikeOut_halt h
      | some c =>
        have hp' : peek b = some c := by rw [← h.peek_eq]; exact hp
        by_cases h1 : c = '('
        · exact alike_call (o := Exp fuel (advance a 1)) (p := Exp fuel (advance b 1))
            (g := fun v s => Outcome.ok v (advance s 1))
            (k := fun v s => Outcome.ok v (advance s 1))
            (fun why s e => by simp only [Fact, hp, h1, if_true, e])
            (fun why s e => by simp only [Fact, hp', h1, if_true, e])
            (fun v s e => by simp only [Fact, hp, h1, if_true, e])
            (fun v s e => by simp only [Fact, hp', h1, if_true, e])
            (iExp _ _ (h.moved 1)) (fun v x y hxy => alikeOut_ok (hxy.moved 1))
        · by_cases h2 : isdigit c = true
          · simp only [Fact, hp, hp', h1, if_false, h2, if_true]
            rw [digit_loop_shift _ _ a.indexx, digit_loop_shift _ _ b.indexx, h.1]
            exact alikeOut_ok (h.moved _)
          · have h2 : isdigit c = false := by simpa using h2
            by_cases h3 : isalpha c = true
            · exact alike_call (o := id a) (p := id b)
                (g := fun varName s => match s.symbolTable.getValue varName with
                  | .error what => Outcome.halt (.runtime_error what) s
                  | .ok value => Outcome.ok value s)
                (k := fun varName s => match s.symbolTable.getValue varName with
                  | .error what => Outcome.halt (.runtime_error what) s
                  | .ok value => Outcome.ok value s)
                (fun why s e => by
                  simp only [Fact, hp, h1, if_false, h2, Bool.false_eq_true, h3, if_true, e])
                (fun why s e => by
                  simp only [Fact, hp', h1, if_false, h2, Bool.false_eq_true, h3, if_true, e])
                (fun v s e => by
                  simp only [Fact, hp, h1, if_false, h2, Bool.false_eq_true, h3, if_true, e])
                (fun v s e => by
                  simp only [Fact, hp', h1, if_false, h2, Bool.false_eq_true, h3, if_true, e])
                (id_alike h)
                (fun v x y hxy => by
                  have hg := hxy.2.2.2.getValue_eq v
                  cases hq : y.symbolTable.getValue v with
                  | error what =>
                    rw [hq] at hg
                    simp only [hg, hq]
                    exact alikeOut_halt hxy
                  | ok value =>
                    rw [hq] at hg
                    simp only [hg, hq]
                    exact alikeOut_ok hxy)
            · simp only [Fact, hp, hp', h1, if_false, h2, Bool.false_eq_true, h3]
              exact alikeOut_halt h

/-! ## Statements and declarations on alike states -/

theorem alikeOut_unit {α β : Type} {w1 w2 : Halt} {s1 s2 : Interpreter}
    (h : AlikeOut (Outcome.halt w1 s1 : Outcome α) (Outcome.halt w2 s2)) :
    AlikeOut (Outcome.halt w1 s1 : Outcome β) (Outcome.halt w2 s2) := h

theorem print_st_alike (fuel : Nat) (a b : Interpreter) (h : Alike a b) :
    AlikeOut (print_st fuel a) (print_st fuel b) := by
  have hE := (exp_alike fuel).1 (advance a 5) (advance b 5) (h.moved 5)
  unfold print_st
  cases ha : Exp fuel (advance a 5) with
  | halt w1 s1 =>
    cases hb : Exp fuel (advance b 5) with
    | halt w2 s2 =>
      rw [ha, hb] at hE
      exact alikeOut_unit hE
    | ok v2 s2 =>
      rw [ha, hb] at hE
      exact False.elim hE
  | ok v1 s1 =>
    cases hb : Exp fuel (advance b 5) with
    | halt w2 s2 =>
      rw [ha, hb] at hE
      exact False.elim hE
    | ok v2 s2 =>
      rw [ha, hb] at hE
      obtain ⟨hv, hs⟩ : v1 = v2 ∧ Alike s1 s2 := hE
      subst hv
      have hpr := hs.printed (toString v1)
      have hpe := hpr.peek_eq
      simp only []
      rw [hpe]
      generalize peek { s2 with cout := s2.cout ++ [toString v1] } = pk
      cases pk with
      | none => exact alikeOut_halt hpr
      | some c =>
        simp only []
        by_cases hc : c = ';'
        · simp only [hc, if_true]
          exact alikeOut_ok (hpr.moved 1)
        · simp only [hc, if_false]
          exact alikeOut_halt hpr

theorem assign_st_alike (fuel : Nat) (a b : Interpreter) (h : Alike a b) :
    AlikeOut (assign_st fuel a) (assign_st fuel b) := by
  have hI := id_alike h
  unfold assign_st
  cases ha : id a with
  | halt w1 s1 =>
    cases hb : id b with
    | halt w2 s2 =>
      rw [ha, hb] at hI
      exact alikeOut_unit hI
    | ok v2 s2 =>
      rw [ha, hb] at hI
      exact False.elim hI
  | ok x1 s1 =>
    cases hb : id b with
    | halt w2 s2 =>
      rw [ha, hb] at hI
      exact False.elim hI
    | ok x2 s2 =>
      rw [ha, hb] at hI
      obtain ⟨hx, hs⟩ : x1 = x2 ∧ Alike s1 s2 := hI
      subst hx
      simp only []
      rw [hs.peek_eq]
      generalize peek s2 = pk
      cases pk with
      | none => exact alikeOut_halt hs
      | some c =>
        simp only []
        by_cases hc : c = '='
        · simp only [hc, if_true]
          have hE := (exp_alike fuel).1 (advance s1 1) (advance s2 1) (hs.moved 1)
          cases hea : Exp fuel (advance s1 1) with
          | halt w1 e1 =>
            cases heb : Exp fuel (advance s2 1) with
            | halt w2 e2 =>
              rw [hea, heb] at hE
              exact alikeOut_unit hE
            | ok v2 e2 =>
              rw [hea, heb] at hE
              exact False.elim hE
          | ok v1 e1 =>
            cases heb : Exp fuel (advance s2 1) with
            | halt w2 e2 =>
              rw [hea, heb] at hE
              exact False.elim hE
            | ok v2 e2 =>
              rw [hea, heb] at hE
              obtain ⟨hv, he⟩ : v1 = v2 ∧ Alike e1 e2 := hE
              subst hv
              obtain ⟨hr, ht⟩ := he.2.2.2.setValue_eq x1 v1
              simp only []
              cases hsa : e1.symbolTable.setValue x1 v1 with
              | mk t1 r1 =>
                cases hsb : e2.symbolTable.setValue x1 v1 with
                | mk t2 r2 =>
                  rw [hsa, hsb] at hr ht
                  have hr' : r1 = r2 := hr
                  have ht' : Agree t1 t2 := ht
                  subst hr'
                  have hw := he.with_table ht'
                  cases r1 with
                  | error what =>
                    simp only []
                    exact alikeOut_halt hw
                  | ok u =>
                    simp only []
                    rw [hw.peek_eq]
                    generalize peek { e2 with symbolTable := t2 } = pk2
                    cases pk2 with
                    | none => exact alikeOut_halt hw
                    | some c2 =>
                      simp only []
                      by_cases hc2 : c2 = ';'
                      · simp only [hc2, if_true]
                        exact alikeOut_ok (hw.moved 1)
                      · simp only [hc2, if_false]
                        exact alikeOut_halt hw
        · simp only [hc, if_false]
          exact alikeOut_halt hs

theorem statement_alike (fuel : Nat) (a b : Interpreter) (h : Alike a b) :
    AlikeOut (statement fuel a) (statement fuel b) := by
  unfold statement
  rw [h.substr_eq 5]
  cases substr b 5 with
  | none => exact alikeOut_halt h
  | some w =>
    simp only []
    split
    · exact print_st_alike fuel a b h
    · exact assign_st_alike fuel a b h

theorem statements_alike (fuel : Nat) : ∀ a b : Interpreter, Alike a b →
    AlikeOut (statements fuel a) (statements fuel b) := by
  induction fuel with
  | zero =>
    intro a b h
    exact alikeOut_halt h
  | succ fuel ih =>
    intro a b h
    have hS := statement_alike fuel a b h
    unfold statements
    rw [h.substr_eq 3]
    cases substr b 3 with
    | none => exact alikeOut_halt h
    | some w =>
      simp only []
      split
      · cases ha : statement fuel a with
        | halt w1 s1 =>
          cases hb : statement fuel b with
          | halt w2 s2 =>
            rw [ha, hb] at hS
            exact hS
          | ok v2 s2 =>
            rw [ha, hb] at hS
            exact False.elim hS
        | ok v1 s1 =>
          cases hb : statement fuel b with
          | halt w2 s2 =>
            rw [ha, hb] at hS
            exact False.elim hS
          | ok v2 s2 =>
            rw [ha, hb] at hS
            simp only []
            exact ih s1 s2 hS.2
      · exact alikeOut_ok h

theorem type_alike (a b : Interpreter) (h : Alike a b) : AlikeOut (type a) (type b) := by
  unfold type
  rw [h.substr_eq 3, h.substr_eq 6]
  cases substr b 3 with
  | none => exact alikeOut_halt h
  | some w =>
    simp only []
    split
    · exact alikeOut_ok (h.moved 3)
    · cases substr b 6 with
      | none => exact alikeOut_halt h
      | some w6 =>
        simp only []
        split
        · exact alikeOut_ok (h.moved 6)
        · exact alikeOut_halt h

/-- The identifier list is read and entered alike, whatever the two kinds are. -/
theorem id_list_alike (fuel : Nat) : ∀ (k1 k2 : String) (a b : Interpreter), Alike a b →
    AlikeOut (id_list fuel k1 a) (id_list fuel k2 b) := by
  induction fuel with
  | zero =>
    intro k1 k2 a b h
    exact alikeOut_halt h
  | succ fuel ih =>
    intro k1 k2 a b h
    have hI := id_alike h
    unfold id_list
    cases ha : id a with
    | halt w1 s1 =>
      cases hb : id b with
      | halt w2 s2 =>
        rw [ha, hb] at hI
        exact alikeOut_unit hI
      | ok v2 s2 =>
        rw [ha, hb] at hI
        exact False.elim hI
    | ok x1 s1 =>
      cases hb : id b with
      | halt w2 s2 =>
        rw [ha, hb] at hI
        exact False.elim hI
      | ok x2 s2 =>
        rw [ha, hb] at hI
        obtain ⟨hx, hs⟩ : x1 = x2 ∧ Alike s1 s2 := hI
        subst hx
        have hw : Alike { s1 with symbolTable := s1.symbolTable.addVariable x1 k1 }
            { s2 with symbolTable := s2.symbolTable.addVariable x1 k2 } :=
          hs.with_table (hs.2.2.2.added x1 k1 k2)
        simp only []
        rw [hw.peek_eq]
        generalize peek { s2 with symbolTable := s2.symbolTable.addVariable x1 k2 } = pk
        cases pk with
        | none => exact alikeOut_halt hw
        | some c =>
          simp only []
          by_cases hc : c = ','
          · simp only [hc, if_true]
            exact ih k1 k2 _ _ (hw.moved 1)
          · simp only [hc, if_false]
            exact alikeOut_ok hw

/-- What `declaration` does once `type` has returned: the identifier list and the `;`. -/
theorem declaration_tail_alike (fuel : Nat) (k1 k2 : String) (a b : Interpreter)
    (h : Alike a b) :
    AlikeOut
      (match id_list fuel k1 a with
        | .halt why self => Outcome.halt why self
        | .ok _ self =>
          match peek self with
          | none => .halt (.undefined .index) self
          | some c =>
            if c = ';' then .ok () (advance self 1)
            else .halt (.exit "Error: \x27;\x27 expected after declaration.") self)
      (match id_list fuel k2 b with
        | .halt why self => Outcome.halt why self
        | .ok _ self =>
          match peek self with
          | none => .halt (.undefined .index) self
          | some c =>
            if c = ';' then .ok () (advance self 1)
            else .halt (.exit "Error: \x27;\x27 expected after declaration.") self) := by
  have hL := id_list_alike fuel k1 k2 a b h
  cases ha : id_list fuel k1 a with
  | halt w1 s1 =>
    cases hb : id_list fuel k2 b with
    | halt w2 s2 =>
      rw [ha, hb] at hL
      exact hL
    | ok v2 s2 =>
      rw [ha, hb] at hL
      exact False.elim hL
  | ok v1 s1 =>
    cases hb : id_list fuel k2 b with
    | halt w2 s2 =>
      rw [ha, hb] at hL
      exact False.elim hL
    | ok v2 s2 =>
      rw [ha, hb] at hL
      have hs : Alike s1 s2 := hL.2
      simp only []
      rw [hs.peek_eq]
      generalize peek s2 = pk
      cases pk with
      | none => exact alikeOut_halt hs
      | some c =>
        simp only []
        by_cases hc : c = ';'
        · simp only [hc, if_true]
          exact alikeOut_ok (hs.moved 1)
        · simp only [hc, if_false]
          exact alikeOut_halt hs

theorem declaration_alike (fuel : Nat) (a b : Interpreter) (h : Alike a b) :
    AlikeOut (declaration fuel a) (declaration fuel b) := by
  have hT := type_alike a b h
  unfold declaration
  cases ha : type a with
  | halt w1 s1 =>
    cases hb : type b with
    | halt w2 s2 =>
      rw [ha, hb] at hT
      exact alikeOut_unit hT
    | ok v2 s2 =>
      rw [ha, hb] at hT
      exact False.elim hT
  | ok k1 s1 =>
    cases hb : type b with
    | halt w2 s2 =>
      rw [ha, hb] at hT
      exact False.elim hT
    | ok k2 s2 =>
      rw [ha, hb] at hT
      simp only []
      exact declaration_tail_alike fuel k1 k2 s1 s2 hT.2

theorem declarations_alike (fuel : Nat) : ∀ a b : Interpreter, Alike a b →
    AlikeOut (declarations fuel a) (declarations fuel b) := by
  induction fuel with
  | zero =>
    intro a b h
    exact alikeOut_halt h
  | succ fuel ih =>
    intro a b h
    have hD := declaration_alike fuel a b h
    unfold declarations
    by_cases hlt : a.indexx < a.progStr.length
    · have hlt' : b.indexx < b.progStr.length := h.lt_iff.mp hlt
      simp only [hlt, hlt', if_true]
      rw [h.substr_eq 3, h.substr_eq 6]
      split
      · split
        · cases ha : declaration fuel a with
          | halt w1 s1 =>
            cases hb : declaration fuel b with
            | halt w2 s2 =>
              rw [ha, hb] at hD
              exact hD
            | ok v2 s2 =>
              rw [ha, hb] at hD
              exact False.elim hD
          | ok v1 s1 =>
            cases hb : declaration fuel b with
            | halt w2 s2 =>
              rw [ha, hb] at hD
              exact False.elim hD
            | ok v2 s2 =>
              rw [ha, hb] at hD
              simp only []
              exact ih s1 s2 hD.2
        · exact alikeOut_ok h
      · exact alikeOut_halt h
    · have hlt' : ¬ b.indexx < b.progStr.length := fun e => hlt (h.lt_iff.mpr e)
      simp only [hlt, hlt', if_false]
      exact alikeOut_ok h

/-- What `prog` does once `declarations` has returned: `begin`, the statements and `end`. -/
theorem prog_tail_alike (fuel : Nat) (a b : Interpreter)
    (ha : substr a 7 = some "program".toList) (hb : substr b 7 = some "program".toList)
    (hD : AlikeOut (declarations fuel (advance a 7)) (declarations fuel (advance b 7))) :
    AlikeOut (prog fuel a) (prog fuel b) := by
  unfold prog
  rw [ha, hb]
  simp only [if_true]
  cases hda : declarations fuel (advance a 7) with
  | halt w1 s1 =>
    cases hdb : declarations fuel (advance b 7) with
    | halt w2 s2 =>
      rw [hda, hdb] at hD
      exact hD
    | ok v2 s2 =>
      rw [hda, hdb] at hD
      exact False.elim hD
  | ok v1 d1 =>
    cases hdb : declarations fuel (advance b 7) with
    | halt w2 s2 =>
      rw [hda, hdb] at hD
      exact False.elim hD
    | ok v2 d2 =>
      rw [hda, hdb] at hD
      have hd : Alike d1 d2 := hD.2
      simp only []
      rw [hd.substr_eq 5]
      cases substr d2 5 with
      | none => exact alikeOut_halt hd
      | some w5 =>
        simp only []
        split
        · have hS := statements_alike fuel (advance d1 5) (advance d2 5) (hd.moved 5)
          cases hsa : statements fuel (advance d1 5) with
          | halt w1 s1 =>
            cases hsb : statements fuel (advance d2 5) with
            | halt w2 s2 =>
              rw [hsa, hsb] at hS
              exact hS
            | ok v2 s2 =>
              rw [hsa, hsb] at hS
              exact False.elim hS
          | ok u1 s1 =>
            cases hsb : statements fuel (advance d2 5) with
            | halt w2 s2 =>
              rw [hsa, hsb] at hS
              exact False.elim hS
            | ok u2 s2 =>
              rw [hsa, hsb] at hS
              have hs : Alike s1 s2 := hS.2
              simp only []
              rw [hs.substr_eq 3]
              cases substr s2 3 with
              | none => exact alikeOut_halt hs
              | some w3 =>
                simp only []
                split
                · exact alikeOut_ok ((hs.moved 3).printed confirmation)
                · exact alikeOut_halt hs
        · exact alikeOut_halt hd

/-! ## Declarations that differ in their kinds only -/

theorem alike_of_at {a b : Interpreter} {rest : List Char} (ha : At a rest) (hb : At b rest)
    (hc : a.cout = b.cout) (ht : Agree a.symbolTable b.symbolTable) : Alike a b := by
  refine ⟨ha.2.trans hb.2.symm, ?_, hc, ht⟩
  have la := congrArg List.length ha.2
  have lb := congrArg List.length hb.2
  simp only [List.length_drop] at la lb
  have h1 := ha.1
  have h2 := hb.1
  omega

theorem id_list_names (vt : String) : ∀ (names : List (List Char)) (fuel : Nat)
    (s : Interpreter) (d : Char) (rest : List Char),
    names ≠ [] → (∀ n ∈ names, IsName n) → At s (joinNames names ++ d :: rest) →
    isalnum d = false → d ≠ ',' → names.length ≤ fuel →
    ∃ s', id_list fuel vt s = .ok () s' ∧ At s' (d :: rest) ∧ s'.cout = s.cout ∧
      s'.symbolTable.table = s.symbolTable.table
        ++ names.map (fun n => { id := String.mk n, type := vt, val := 0 }) := by
  intro names
  induction names with
  | nil => intro fuel s d rest hne; exact absurd rfl hne
  | cons n ns ih =>
    intro fuel s d rest _ hnames hat hd hdc hf
    obtain ⟨f, rfl⟩ : ∃ f, fuel = f + 1 := ⟨fuel - 1, by simp only [List.length_cons] at hf; omega⟩
    have hn := hnames n (List.mem_cons_self _ _)
    cases n with
    | nil => exact False.elim hn
    | cons c cs =>
      obtain ⟨hc, hcs⟩ : isalpha c = true ∧ ∀ k ∈ cs, isalnum k = true := hn
      cases ns with
      | nil =>
        have hat' : At s (c :: cs ++ d :: rest) := hat
        have hid := id_name hat' hc hcs hd
        have hat2 : At (advance s (c :: cs).length) (d :: rest) := At.advance (a := c :: cs) hat'
        have hat3 : At { advance s (c :: cs).length with
            symbolTable := (advance s (c :: cs).length).symbolTable.addVariable
              (String.mk (c :: cs)) vt } (d :: rest) := hat2
        refine ⟨_, ?_, hat3, rfl, rfl⟩
        rw [id_list_succ, hid]
        simp only [hat3.peek, hdc, if_false]
      | cons m ms =>
        have hat' : At s (c :: cs ++ ',' :: (joinNames (m :: ms) ++ d :: rest)) := by
          have e : joinNames ((c :: cs) :: m :: ms) ++ d :: rest
              = c :: cs ++ ',' :: (joinNames (m :: ms) ++ d :: rest) := by
            simp only [joinNames, List.append_assoc, List.cons_append]
          rw [e] at hat
          exact hat
        have hid := id_name hat' hc hcs (by decide)
        have hat2 : At (advance s (c :: cs).length)
            (',' :: (joinNames (m :: ms) ++ d :: rest)) := At.advance (a := c :: cs) hat'
        have hat3 : At { advance s (c :: cs).length with
            symbolTable := (advance s (c :: cs).length).symbolTable.addVariable
              (String.mk (c :: cs)) vt } (',' :: (joinNames (m :: ms) ++ d :: rest)) := hat2
        obtain ⟨s', h1, h2, h3, h4⟩ := ih f _ d rest (by simp)
          (fun x hx => hnames x (List.mem_cons_of_mem _ hx)) hat3.step hd hdc
          (by simp only [List.length_cons] at hf ⊢; omega)
        refine ⟨s', ?_, h2, h3, ?_⟩
        · rw [id_list_succ, hid]
          simp only [hat3.peek, if_true]
          exact h1
        · rw [h4]
          show (s.symbolTable.table ++ [_]) ++ _ = _
          simp only [List.map_cons, List.append_assoc, List.singleton_append]

theorem type_word {s : Interpreter} (k : Kind) {rest : List Char} (h : At s (k.word ++ rest)) :
    type s = .ok k.name (advance s k.word.length) := by
  cases k with
  | int =>
    have h3 : substr s 3 = some "int".toList := by
      rw [h.substr]
      rfl
    simp only [type, h3, if_true]
    rfl
  | double =>
    have h3 : substr s 3 = some "dou".toList := by
      rw [h.substr]
      rfl
    have h6 : substr s 6 = some "double".toList := by
      rw [h.substr]
      rfl
    have hne : ¬ ("dou".toList = "int".toList) := by decide
    simp only [type, h3, hne, if_false, h6, if_true]
    rfl

theorem declaration_names {fuel : Nat} {s : Interpreter} (k : Kind) (names : List (List Char))
    {rest : List Char} (h : At s (k.word ++ joinNames names ++ ';' :: rest))
    (hne : names ≠ []) (hnames : ∀ n ∈ names, IsName n) (hf : names.length ≤ fuel) :
    ∃ s', declaration fuel s = .ok () s' ∧ At s' rest ∧ s'.cout = s.cout ∧
      s'.symbolTable.table = s.symbolTable.table ++ entries k names := by
  have h' : At s (k.word ++ (joinNames names ++ ';' :: rest)) := by
    rw [List.append_assoc] at h
    exact h
  have ht := type_word k h'
  obtain ⟨s1, h1, h2, h3, h4⟩ := id_list_names k.name names fuel (advance s k.word.length) ';' rest
    hne hnames h'.advance (by decide) (by decide) hf
  refine ⟨advance s1 1, ?_, h2.step, h3, h4⟩
  simp only [declaration, ht, h1, h2.peek, if_true]

theorem render_cons_at {s : Interpreter} {k : Kind} {names : List (List Char)}
    {ds : List (Kind × List (List Char))} {rest : List Char}
    (h : At s (renderDecls ((k, names) :: ds) ++ rest)) :
    At s (k.word ++ joinNames names ++ ';' :: (renderDecls ds ++ rest)) := by
  have e : renderDecls ((k, names) :: ds) ++ rest
      = k.word ++ joinNames names ++ ';' :: (renderDecls ds ++ rest) := by
    simp only [renderDecls, List.append_assoc, List.cons_append]
  rw [e] at h
  exact h

/-- One iteration of the loop of `declarations` over a rendered declaration. -/
theorem declarations_step {f : Nat} {s : Interpreter} (k : Kind) (names : List (List Char))
    (ds : List (Kind × List (List Char))) {rest : List Char}
    (h : At s (renderDecls ((k, names) :: ds) ++ rest))
    (hne : names ≠ []) (hnames : ∀ n ∈ names, IsName n) (hf : names.length ≤ f) :
    ∃ s', declarations (f + 1) s = declarations f s' ∧ At s' (renderDecls ds ++ rest) ∧
      s'.cout = s.cout ∧ s'.symbolTable.table = s.symbolTable.table ++ entries k names := by
  have h' := render_cons_at h
  obtain ⟨s', h1, h2, h3, h4⟩ := declaration_names k names h' hne hnames hf
  refine ⟨s', ?_, h2, h3, h4⟩
  have hk : At s (k.word ++ (joinNames names ++ ';' :: (renderDecls ds ++ rest))) := by
    rw [List.append_assoc] at h'
    exact h'
  have hlt : s.indexx < s.progStr.length := by
    cases k with
    | int => exact At.lt (c := 'i') hk
    | double => exact At.lt (c := 'd') hk
  have hw : (List.take 3 (k.word ++ (joinNames names ++ ';' :: (renderDecls ds ++ rest)))
        = "int".toList) ∨
      (List.take 6 (k.word ++ (joinNames names ++ ';' :: (renderDecls ds ++ rest)))
        = "double".toList) := by
    cases k with
    | int => exact Or.inl rfl
    | double => exact Or.inr rfl
  rw [declarations_succ]
  simp only [hlt, if_true, hk.substr, hw, h1]

theorem agree_append {t1 t2 : SymbolTable} (h : Agree t1 t2) (k1 k2 : Kind)
    (names : List (List Char)) {u1 u2 : SymbolTable}
    (h1 : u1.table = t1.table ++ entries k1 names)
    (h2 : u2.table = t2.table ++ entries k2 names) : Agree u1 u2 := by
  have h' : t1.table.map (fun node => (node.id, node.val))
      = t2.table.map (fun node => (node.id, node.val)) := h
  show u1.table.map _ = u2.table.map _
  rw [h1, h2, List.map_append, List.map_append, h']
  simp only [entries, List.map_map]
  rfl

/-- The loop of `declarations` over two renderings of the same names, with whatever kinds,
followed by the same text: the two runs end alike. -/
theorem declarations_render : ∀ (ds1 ds2 : List (Kind × List (List Char))) (fuel : Nat)
    (a b : Interpreter) (rest : List Char),
    ds1.map Prod.snd = ds2.map Prod.snd → WellFormed ds1 →
    At a (renderDecls ds1 ++ rest) → At b (renderDecls ds2 ++ rest) →
    a.cout = b.cout → Agree a.symbolTable b.symbolTable → declsSize ds1 ≤ fuel →
    AlikeOut (declarations fuel a) (declarations fuel b) := by
  intro ds1
  induction ds1 with
  | nil =>
    intro ds2 fuel a b rest hn _ ha hb hc ht _
    cases ds2 with
    | nil => exact declarations_alike fuel a b (alike_of_at ha hb hc ht)
    | cons d2 ds2 => cases hn
  | cons d1 ds1 ih =>
    intro ds2 fuel a b rest hn hwf ha hb hc ht hf
    cases ds2 with
    | nil => cases hn
    | cons d2 ds2 =>
      obtain ⟨k1, names⟩ := d1
      obtain ⟨k2, names2⟩ := d2
      simp only [List.map_cons, List.cons.injEq] at hn
      obtain ⟨hnm, hn'⟩ := hn
      have hnm' : names = names2 := hnm
      subst hnm'
      obtain ⟨hne, hnames⟩ := hwf (k1, names) (List.mem_cons_self _ _)
      have hsz : declsSize ((k1, names) :: ds1) = names.length + 1 + declsSize ds1 := rfl
      rw [hsz] at hf
      obtain ⟨f, rfl⟩ : ∃ f, fuel = f + 1 := ⟨fuel - 1, by omega⟩
      obtain ⟨a', ea, ha', hca, hta⟩ := declarations_step (f := f) k1 names ds1 ha hne hnames (by omega)
      obtain ⟨b', eb, hb', hcb, htb⟩ := declarations_step (f := f) k2 names ds2 hb hne hnames (by omega)
      rw [ea, eb]
      exact ih ds2 f a' b' rest hn' (fun d hd => hwf d (List.mem_cons_of_mem _ hd)) ha' hb'
        (by rw [hca, hcb, hc]) (agree_append ht k1 k2 names hta htb) (by omega)

/-- Two program texts that differ only in the kinds of their declarations run alike. -/
theorem run_render (input1 input2 : String) (ds1 ds2 : List (Kind × List (List Char)))
    (body : List Char)
    (h1 : removeSpaces input1.toList = "program".toList ++ (renderDecls ds1 ++ body))
    (h2 : removeSpaces input2.toList = "program".toList ++ (renderDecls ds2 ++ body))
    (hn : ds1.map Prod.snd = ds2.map Prod.snd) (hwf : WellFormed ds1) :
    AlikeOut (run input1) (run input2) := by
  have n1 := run_not_fuel input1
  have n2 := run_not_fuel input2
  have e1 : prog (budget (Interpreter.new input1).progStr
        + budget (Interpreter.new input2).progStr + declsSize ds1) (Interpreter.new input1)
      = run input1 := prog_mono_le n1 (by omega)
  have e2 : prog (budget (Interpreter.new input1).progStr
        + budget (Interpreter.new input2).progStr + declsSize ds1) (Interpreter.new input2)
      = run input2 := prog_mono_le n2 (by omega)
  rw [← e1, ← e2]
  have ha : At (Interpreter.new input1) ("program".toList ++ (renderDecls ds1 ++ body)) := by
    rw [← h1]
    exact At.start _ _ _
  have hb : At (Interpreter.new input2) ("program".toList ++ (renderDecls ds2 ++ body)) := by
    rw [← h2]
    exact At.start _ _ _
  refine prog_tail_alike _ _ _ ?_ ?_ ?_
  · rw [ha.substr]
    rfl
  · rw [hb.substr]
    rfl
  · exact declarations_render ds1 ds2 _ _ _ body hn hwf ha.advance hb.advance rfl
      (agree_refl _) (by omega)

theorem alikeOut_facts {α : Type} {o1 o2 : Outcome α} (h : AlikeOut o1 o2) :
    o1.state.cout = o2.state.cout ∧ Agree o1.state.symbolTable o2.state.symbolTable ∧
    o1.isOk = o2.isOk ∧ (∀ w s, o1 = .halt w s → ∃ s', o2 = .halt w s') := by
  cases o1 with
  | ok v1 s1 =>
    cases o2 with
    | ok v2 s2 =>
      obtain ⟨_, hs⟩ : v1 = v2 ∧ Alike s1 s2 := h
      exact ⟨hs.2.2.1, hs.2.2.2, rfl, fun w s e => (by cases e)⟩
    | halt w2 s2 => exact False.elim h
  | halt w1 s1 =>
    cases o2 with
    | ok v2 s2 => exact False.elim h
    | halt w2 s2 =>
      obtain ⟨hw, hs⟩ : w1 = w2 ∧ Alike s1 s2 := h
      refine ⟨hs.2.2.1, hs.2.2.2, rfl, fun w s e => ?_⟩
      injection e with e1 _
      exact ⟨s2, by rw [← e1, hw]⟩

theorem main_alike {input1 input2 : String} (h : AlikeOut (run input1) (run input2)) :
    main input1 = main input2 := by
  unfold main
  cases h1 : run input1 with
  | ok v1 s1 =>
    cases h2 : run input2 with
    | ok v2 s2 => rfl
    | halt w2 s2 =>
      rw [h1, h2] at h
      exact False.elim h
  | halt w1 s1 =>
    cases h2 : run input2 with
    | ok v2 s2 =>
      rw [h1, h2] at h
      exact False.elim h
    | halt w2 s2 => rfl

/-- C13: on one program text, at one cursor and with one output so far, the statement loop
run with two symbol tables that have the same names and values, whatever their kinds, ends
with the same result (success, or the same failure), the same output, and tables that again
have the same names and values.  And two programs whose texts (white space removed) are
`program`, declarations of the same names with whatever kinds (`int` or `double`), and the same
text after them, run alike: the same output, the same result and exit status. -/
theorem kind_never_influences
    (input1 input2 : String) (ds1 ds2 : List (Kind × List (List Char))) (body : List Char)
    (h1 : removeSpaces input1.toList = "program".toList ++ (renderDecls ds1 ++ body))
    (h2 : removeSpaces input2.toList = "program".toList ++ (renderDecls ds2 ++ body))
    (hn : ds1.map Prod.snd = ds2.map Prod.snd) (hwf : WellFormed ds1) :
    (∀ (fuel : Nat) (progStr : List Char) (indexx : Nat) (out : List String)
      (t1 t2 : SymbolTable), Agree t1 t2 →
      AlikeOut (statements fuel ⟨progStr, indexx, t1, out⟩)
        (statements fuel ⟨progStr, indexx, t2, out⟩) ∧
      (statements fuel ⟨progStr, indexx, t1, out⟩).state.cout
        = (statements fuel ⟨progStr, indexx, t2, out⟩).state.cout ∧
      Agree (statements fuel ⟨progStr, indexx, t1, out⟩).state.symbolTable
        (statements fuel ⟨progStr, indexx, t2, out⟩).state.symbolTable ∧
      (statements fuel ⟨progStr, indexx, t1, out⟩).isOk
        = (statements fuel ⟨progStr, indexx, t2, out⟩).isOk ∧
      (∀ w s, statements fuel ⟨progStr, indexx, t1, out⟩ = .halt w s →
        ∃ s', statements fuel ⟨progStr, indexx, t2, out⟩ = .halt w s')) ∧
    AlikeOut (run input1) (run input2) ∧
    (run input1).state.cout = (run input2).state.cout ∧
    Agree (run input1).state.symbolTable (run input2).state.symbolTable ∧
    (∀ w s, run input1 = .halt w s → ∃ s', run input2 = .halt w s') ∧
    main input1 = main input2 := by
  have hr := run_render input1 input2 ds1 ds2 body h1 h2 hn hwf
  have hf := alikeOut_facts hr
  refine ⟨?_, hr, hf.1, hf.2.1, hf.2.2.2, main_alike hr⟩
  intro fuel progStr indexx out t1 t2 ht
  have hs := statements_alike fuel ⟨progStr, indexx, t1, out⟩ ⟨progStr, indexx, t2, out⟩
    ⟨rfl, rfl, rfl, ht⟩
  exact ⟨hs, alikeOut_facts hs⟩

theorem kind_never_influences_witness :
    run "program int a; begin a=7/2; print a; end"
      = .ok () ⟨"programinta;begina=7/2;printa;end".toList, 33, ⟨[⟨"a", "int", 3⟩]⟩,
          ["3", confirmation]⟩ ∧
    run "program double a; begin a=7/2; print a; end"
      = .ok () ⟨"programdoublea;begina=7/2;printa;end".toList, 36, ⟨[⟨"a", "double", 3⟩]⟩,
          ["3", confirmation]⟩ ∧
    AlikeOut (run "program int a; begin a=7/2; print a; end")
      (run "program double a; begin a=7/2; print a; end") ∧
    main "program int a; begin a=7/2; print a; end"
      = main "program double a; begin a=7/2; print a; end" := by
  have hwf : WellFormed [(Kind.int, [['a']])] := by
    intro d hd
    rcases List.mem_singleton.mp hd with rfl
    refine ⟨List.cons_ne_nil _ _, fun n hm => ?_⟩
    rcases List.mem_singleton.mp hm with rfl
    exact ⟨by decide, fun k hk => absurd hk (List.not_mem_nil k)⟩
  have h := kind_never_influences "program int a; begin a=7/2; print a; end"
    "program double a; begin a=7/2; print a; end" [(Kind.int, [['a']])]
    [(Kind.double, [['a']])] "begina=7/2;printa;end".toList (by decide) (by decide) rfl hwf
  exact ⟨by decide, by decide, h.2.1, h.2.2.2.2.2⟩

end Prog3
